import Mathlib

/-!
Verification of the fixed-region memory-pool allocator
(`repository_after/pool.c`, `repository_after/freelist.c`).

The pool's backing buffer is modelled by a total function `mem : Nat → BlockHeader`
giving, for every pool-relative byte offset, the header value that a C read of
`block_header_t` at that offset would observe.  Offsets, header fields and the
two `size_t` counters are natural numbers; every arithmetic operation that C
performs on `uint32_t` (resp. `size_t`) is performed modulo `2^32` (resp.
`2^64`) exactly where the C code can wrap.  Buffer addresses are abstracted
away: `pool_init` requires an 8-byte-aligned buffer in C, so pointer alignment
of `pool_start + off` is alignment of `off`, and a payload pointer is modelled
by its pool-relative offset (`none` models the null pointer).
-/

def U32 : Nat := 0x100000000

def U64 : Nat := 0x10000000000000000

def POOL_ALIGNMENT : Nat := 8

def MIN_ALLOC_SIZE : Nat := 16

def POOL_NULL_OFFSET : Nat := 0xFFFFFFFF

def POOL_MAGIC : Nat := 0x504F4F4C

def FLAG_FREE : Nat := 1

def HEADER_SIZE : Nat := 16

/-- Wrapping 32-bit addition of two naturals, as C `uint32_t` addition. -/
def add32 (a b : Nat) : Nat := (a + b) % U32

/-- Wrapping 32-bit subtraction, as C `uint32_t` subtraction (for `b < 2^32`). -/
def sub32 (a b : Nat) : Nat := (a % U32 + U32 - b % U32) % U32

/-- Wrapping 64-bit addition, as C `size_t` addition. -/
def add64 (a b : Nat) : Nat := (a + b) % U64

/-- Wrapping 64-bit subtraction, as C `size_t` subtraction (for `b < 2^64`). -/
def sub64 (a b : Nat) : Nat := (a % U64 + U64 - b % U64) % U64

/-- The C struct `block_header_t`: magic tag, payload size in bytes,
offset of the next header (or `POOL_NULL_OFFSET`), and flag bitset whose
least-significant bit marks the block free. -/
structure BlockHeader where
  magic : Nat
  size : Nat
  next : Nat
  flags : Nat
deriving DecidableEq, Repr

/-- The C struct `memory_pool_t`.  The byte buffer behind `pool_start` is
modelled by `mem`, giving the header value readable at every offset; the
mutex is dropped (all modelled operations are the complete critical
sections they protect). -/
structure MemoryPool where
  pool_size : Nat
  mem : Nat → BlockHeader
  free_list : Nat
  allocated : Nat
  free_space : Nat

/-- The C test `(flags & FLAG_FREE) != 0`, i.e. bit 0 of the flag word. -/
def isFreeFlag (f : Nat) : Prop := f % 2 = 1

instance (f : Nat) : Decidable (isFreeFlag f) := inferInstanceAs (Decidable (f % 2 = 1))

/-- Model of `flags |= FLAG_FREE`: set bit 0, keep the other bits. -/
def setFreeBit (f : Nat) : Nat := 2 * (f / 2) + 1

/-- Model of `flags &= ~FLAG_FREE`: clear bit 0, keep the other bits. -/
def clearFreeBit (f : Nat) : Nat := 2 * (f / 2)

/-- C `align_up_u32`: `(value + alignment - 1) & ~(alignment - 1)` in
`uint32_t` arithmetic, for a power-of-two alignment. -/
def align_up_u32 (value alignment : Nat) : Nat :=
  (value + alignment - 1) % U32 / alignment * alignment

/-- C `hdr_from_offset`: `NULL` for the sentinel or when
`offset + HEADER_SIZE > pool_size` (a `uint32_t` sum compared to `size_t`);
otherwise the header stored at `offset`. -/
def hdr_from_offset (pool : MemoryPool) (offset : Nat) : Option BlockHeader :=
  if offset = POOL_NULL_OFFSET ∨ pool.pool_size < (offset + HEADER_SIZE) % U32 then none
  else some (pool.mem offset)

/-- C `header_is_sane`: magic tag, aligned offset, minimum size, block end
within the pool (computed in `uint64_t`, hence exact), and a well-formed
next offset when present (whose bound check is a wrapping `uint32_t` sum). -/
def header_is_sane (pool : MemoryPool) (hdr : BlockHeader) (hdr_offset : Nat) : Prop :=
  hdr.magic = POOL_MAGIC ∧
  hdr_offset % POOL_ALIGNMENT = 0 ∧
  MIN_ALLOC_SIZE ≤ hdr.size ∧
  hdr_offset + HEADER_SIZE + hdr.size ≤ pool.pool_size ∧
  (hdr.next = POOL_NULL_OFFSET ∨
    (hdr.next % POOL_ALIGNMENT = 0 ∧ (hdr.next + HEADER_SIZE) % U32 ≤ pool.pool_size))

instance (pool : MemoryPool) (hdr : BlockHeader) (off : Nat) :
    Decidable (header_is_sane pool hdr off) :=
  inferInstanceAs (Decidable (_ ∧ _ ∧ _ ∧ _ ∧ (_ ∨ (_ ∧ _))))

/-- C `pool_init` on an 8-byte-aligned buffer whose prior contents are
`mem0`: round the size down to the alignment, reject undersized regions,
and format the region as one free block.  The initial block size is the
C cast `(uint32_t)(usable_size - HEADER_SIZE)`. -/
def pool_init (mem0 : Nat → BlockHeader) (size : Nat) : Option MemoryPool :=
  let usable := size / POOL_ALIGNMENT * POOL_ALIGNMENT
  if usable < HEADER_SIZE + MIN_ALLOC_SIZE then none
  else
    let firstSize := (usable - HEADER_SIZE) % U32
    let first : BlockHeader :=
      { magic := POOL_MAGIC, size := firstSize, next := POOL_NULL_OFFSET, flags := FLAG_FREE }
    some { pool_size := usable
           mem := Function.update mem0 0 first
           free_list := 0
           allocated := 0
           free_space := firstSize }

/-- Result of `pool_alloc`: the returned payload offset together with the
pool state left behind; `fail` keeps the state at the point of the early
`return NULL`, and `diverge` marks fuel exhaustion of the C `while` loop. -/
inductive AllocResult where
  | diverge : AllocResult
  | fail : MemoryPool → AllocResult
  | success : MemoryPool → Nat → AllocResult
deriving Nonempty

/-- The effective request size of `pool_alloc`: the C cast `(uint32_t)size`,
clamped up to `MIN_ALLOC_SIZE` and rounded up with `align_up_u32`. -/
def requestOf (size : Nat) : Nat :=
  align_up_u32 (max MIN_ALLOC_SIZE (size % U32)) POOL_ALIGNMENT

/-- Tail of the matched branch of `pool_alloc`: clear the free flag and the
next field of the matched block, unlink it (through the list head or the
re-validated predecessor), add its final size to `allocated`, and return
its payload offset. -/
def alloc_finish (pool1 : MemoryPool) (replacement prev_off cur_off : Nat) : AllocResult :=
  let c := pool1.mem cur_off
  let pool2 := { pool1 with
    mem := Function.update pool1.mem cur_off
      { c with flags := clearFreeBit c.flags, next := POOL_NULL_OFFSET } }
  if prev_off = POOL_NULL_OFFSET then
    let pool3 := { pool2 with free_list := replacement }
    .success { pool3 with allocated := add64 pool3.allocated (pool3.mem cur_off).size }
      (cur_off + HEADER_SIZE)
  else
    match hdr_from_offset pool2 prev_off with
    | none => .fail pool2
    | some prev =>
      if ¬ header_is_sane pool2 prev prev_off then .fail pool2
      else
        let pool3 := { pool2 with
          mem := Function.update pool2.mem prev_off { prev with next := replacement } }
        .success { pool3 with allocated := add64 pool3.allocated (pool3.mem cur_off).size }
          (cur_off + HEADER_SIZE)

/-- The matched branch of `pool_alloc`: split when
`cur_payload >= request + HEADER_SIZE + MIN_ALLOC_SIZE` (a wrapping
`uint32_t` sum), carving the remainder header at
`cur_off + HEADER_SIZE + request`; otherwise grant the whole block. -/
def alloc_match (pool : MemoryPool) (request prev_off cur_off : Nat)
    (cur : BlockHeader) : AllocResult :=
  let cur_payload := cur.size
  let cur_next := cur.next
  if (request + HEADER_SIZE + MIN_ALLOC_SIZE) % U32 ≤ cur_payload then
    let new_off := (cur_off + HEADER_SIZE + request) % U32
    match hdr_from_offset pool new_off with
    | none => .fail pool
    | some _ =>
      let newHdr : BlockHeader :=
        { magic := POOL_MAGIC, size := sub32 (sub32 cur_payload request) HEADER_SIZE,
          next := cur_next, flags := FLAG_FREE }
      let mem1 := Function.update pool.mem new_off newHdr
      let mem2 := Function.update mem1 cur_off { (mem1 cur_off) with size := request }
      let pool1 := { pool with
        mem := mem2,
        free_space := sub64 (sub64 pool.free_space request) HEADER_SIZE }
      alloc_finish pool1 new_off prev_off cur_off
  else
    alloc_finish { pool with free_space := sub64 pool.free_space cur_payload }
      cur_next prev_off cur_off

/-- The first-fit scan of `pool_alloc`: re-validate every visited header,
fail safe on a corrupt one, and take the first free block whose size
covers the request. -/
def alloc_loop (pool : MemoryPool) (request : Nat) : Nat → Nat → Nat → AllocResult
  | 0, _, _ => .diverge
  | fuel + 1, prev_off, cur_off =>
    if cur_off = POOL_NULL_OFFSET then .fail pool
    else
      match hdr_from_offset pool cur_off with
      | none => .fail pool
      | some cur =>
        if ¬ header_is_sane pool cur cur_off then .fail pool
        else if isFreeFlag cur.flags ∧ request ≤ cur.size then
          alloc_match pool request prev_off cur_off cur
        else alloc_loop pool request fuel cur_off cur.next

/-- C `pool_alloc`.  A zero request fails immediately; otherwise the free
list is scanned first-fit with the clamped, rounded request. -/
def pool_alloc (pool : MemoryPool) (size : Nat) (fuel : Nat) : AllocResult :=
  if size = 0 then .fail pool
  else alloc_loop pool (requestOf size) fuel POOL_NULL_OFFSET pool.free_list

/-- C `coalesce_forward`: while the block at `hdr_off` is free and its list
successor is a sane free block starting exactly at its end offset, absorb
the successor (sizes and the end offset are wrapping `uint32_t` sums) and
credit the reclaimed header to `free_space`. -/
def coalesce_forward : Nat → MemoryPool → Nat → Option MemoryPool
  | 0, _, _ => none
  | fuel + 1, pool, hdr_off =>
    let hdr := pool.mem hdr_off
    if ¬ isFreeFlag hdr.flags ∨ hdr.next = POOL_NULL_OFFSET then some pool
    else
      let next_off := hdr.next
      match hdr_from_offset pool next_off with
      | none => some pool
      | some nxt =>
        if ¬ header_is_sane pool nxt next_off then some pool
        else if ¬ isFreeFlag nxt.flags then some pool
        else if (hdr_off + HEADER_SIZE + hdr.size) % U32 ≠ next_off then some pool
        else
          let mem' := Function.update pool.mem hdr_off
            { hdr with size := (hdr.size + HEADER_SIZE + nxt.size) % U32, next := nxt.next }
          coalesce_forward fuel
            { pool with mem := mem', free_space := add64 pool.free_space HEADER_SIZE } hdr_off

/-- Result of `pool_free`: the state on return, or `diverge` when the fuel
bounding one of the C `while` loops runs out. -/
inductive FreeResult where
  | diverge : FreeResult
  | done : MemoryPool → FreeResult
deriving Nonempty

/-- The address-sorted insertion scan of `pool_free`: walk while
`cur_off < hdr_off`, re-validating every node; `some none` is the
fail-safe return on a corrupt node, `some (some (prev, cur))` the found
insertion position. -/
def insertScan (pool : MemoryPool) (hdr_off : Nat) :
    Nat → Nat → Nat → Option (Option (Nat × Nat))
  | 0, _, _ => none
  | fuel + 1, prev_off, cur_off =>
    if cur_off = POOL_NULL_OFFSET ∨ hdr_off ≤ cur_off then some (some (prev_off, cur_off))
    else
      match hdr_from_offset pool cur_off with
      | none => some none
      | some cur =>
        if ¬ header_is_sane pool cur cur_off then some none
        else insertScan pool hdr_off fuel cur_off cur.next

/-- Tail of `pool_free` after the insertion position is found: splice the
freed block in (its next field first, then the list head or the
re-validated predecessor), coalesce forward, then coalesce with a free
physically-adjacent predecessor and re-run forward coalescing from it. -/
def pool_free_link (fuel : Nat) (p1 : MemoryPool) (hdr_off prev_off cur_off : Nat) :
    FreeResult :=
  let h1 := p1.mem hdr_off
  let p2 := { p1 with mem := Function.update p1.mem hdr_off { h1 with next := cur_off } }
  let linked : Option MemoryPool :=
    if prev_off = POOL_NULL_OFFSET then some { p2 with free_list := hdr_off }
    else
      match hdr_from_offset p2 prev_off with
      | none => none
      | some prev =>
        if ¬ header_is_sane p2 prev prev_off then none
        else some { p2 with
          mem := Function.update p2.mem prev_off { prev with next := hdr_off } }
  match linked with
  | none => .done p2
  | some p3 =>
    match coalesce_forward fuel p3 hdr_off with
    | none => .diverge
    | some p4 =>
      if prev_off = POOL_NULL_OFFSET then .done p4
      else
        match hdr_from_offset p4 prev_off with
        | none => .done p4
        | some prev2 =>
          if header_is_sane p4 prev2 prev_off ∧ isFreeFlag prev2.flags then
            if (prev_off + HEADER_SIZE + prev2.size) % U32 = hdr_off then
              let hcur := p4.mem hdr_off
              let p5 := { p4 with
                mem := Function.update p4.mem prev_off
                  { prev2 with
                    size := (prev2.size + HEADER_SIZE + hcur.size) % U32,
                    next := hcur.next },
                free_space := add64 p4.free_space HEADER_SIZE }
              match coalesce_forward fuel p5 prev_off with
              | none => .diverge
              | some p6 => .done p6
            else .done p4
          else .done p4

/-- C `pool_free` on the pointer at pool-relative offset `po` (`none` is
the null pointer).  The validation ladder (bounds, alignment, header
bounds, sanity, double free) returns silently; a valid block is marked
free, the counters are moved, and the block is spliced into the sorted
free list and coalesced. -/
def pool_free (pool : MemoryPool) (ptr : Option Nat) (fuel : Nat) : FreeResult :=
  match ptr with
  | none => .done pool
  | some po =>
    if po < HEADER_SIZE ∨ pool.pool_size ≤ po then .done pool
    else if ¬ po % POOL_ALIGNMENT = 0 then .done pool
    else
      let hdr_off := (po - HEADER_SIZE) % U32
      if ¬ hdr_off % POOL_ALIGNMENT = 0 ∨ pool.pool_size < (hdr_off + HEADER_SIZE) % U32 then
        .done pool
      else
        match hdr_from_offset pool hdr_off with
        | none => .done pool
        | some hdr =>
          if ¬ header_is_sane pool hdr hdr_off then .done pool
          else if isFreeFlag hdr.flags then .done pool
          else
            let p1 := { pool with
              mem := Function.update pool.mem hdr_off { hdr with flags := setFreeBit hdr.flags },
              allocated := sub64 pool.allocated hdr.size,
              free_space := add64 pool.free_space hdr.size }
            match insertScan p1 hdr_off fuel POOL_NULL_OFFSET p1.free_list with
            | none => .diverge
            | some none => .done p1
            | some (some (prev_off, cur_off)) =>
              pool_free_link fuel p1 hdr_off prev_off cur_off

/-- C `pool_stats` under the lock: total, used and free byte counters. -/
def pool_stats (pool : MemoryPool) : Nat × Nat × Nat :=
  (pool.pool_size, pool.allocated, pool.free_space)

/-- The loop of `freelist_total_free`; the C loop variable `count` is
incremented every iteration and bounds the walk at 100000, so the loop is
modelled structurally on the remaining iteration budget. -/
def freelist_total_free_go (pool : MemoryPool) : Nat → Nat → Nat → Nat
  | 0, _, total => total
  | rem + 1, cur_off, total =>
    if cur_off = POOL_NULL_OFFSET then total
    else
      match hdr_from_offset pool cur_off with
      | none => total
      | some cur =>
        freelist_total_free_go pool rem cur.next
          (total + if isFreeFlag cur.flags then cur.size else 0)

/-- C `freelist_total_free`: sum the sizes of the free-flagged nodes
reachable from the head, walking at most 100000 nodes. -/
def freelist_total_free (pool : MemoryPool) : Nat :=
  freelist_total_free_go pool 100000 pool.free_list 0

/-- The loop of `freelist_count`.  `count` is incremented only for
free-flagged nodes, yet it is the loop bound, so the walk is not
structurally bounded; `none` marks fuel exhaustion (the C loop spins). -/
def freelist_count_go (pool : MemoryPool) : Nat → Nat → Nat → Option Nat
  | 0, _, _ => none
  | fuel + 1, cur_off, count =>
    if cur_off = POOL_NULL_OFFSET ∨ 100000 ≤ count then some count
    else
      match hdr_from_offset pool cur_off with
      | none => some count
      | some cur =>
        freelist_count_go pool fuel cur.next (count + if isFreeFlag cur.flags then 1 else 0)

/-- C `freelist_count` with an explicit iteration budget. -/
def freelist_count (pool : MemoryPool) (fuel : Nat) : Option Nat :=
  freelist_count_go pool fuel pool.free_list 0

/-- The loop of `freelist_dump`, abstracting each printed line to the
visited node's offset, size, free bit and next offset; `count` is
incremented every iteration and bounds the walk at 1000. -/
def freelist_dump_go (pool : MemoryPool) : Nat → Nat → List (Nat × Nat × Nat × Nat)
  | 0, _ => []
  | rem + 1, cur_off =>
    if cur_off = POOL_NULL_OFFSET then []
    else
      match hdr_from_offset pool cur_off with
      | none => []
      | some cur =>
        (cur_off, cur.size, (if isFreeFlag cur.flags then 1 else 0), cur.next) ::
          freelist_dump_go pool rem cur.next

/-- C `freelist_dump` as the list of block lines it prints. -/
def freelist_dump_entries (pool : MemoryPool) : List (Nat × Nat × Nat × Nat) :=
  freelist_dump_go pool 1000 pool.free_list

/-! ## The uncorrupted-pool invariant

An uncorrupted pool is one whose buffer is tiled by a list `bs` of block
offsets (each header sane, blocks contiguous from offset 0 to the end of
the pool), whose free list threads exactly the free-flagged blocks of
`bs` in address order, whose counters equal the corresponding payload
sums, and in which no two physically adjacent blocks are both free
(coalescing has been applied exhaustively).  This is the state predicate
that `pool_init` establishes and that completed `pool_alloc`/`pool_free`
calls preserve. -/

/-- End offset of the block at `o`: start of the next block in the tiling. -/
def blockEnd (pool : MemoryPool) (o : Nat) : Nat := o + HEADER_SIZE + (pool.mem o).size

/-- The block at offset `o` carries the free flag. -/
def isFreeH (pool : MemoryPool) (o : Nat) : Prop := isFreeFlag (pool.mem o).flags

instance (pool : MemoryPool) (o : Nat) : Decidable (isFreeH pool o) :=
  inferInstanceAs (Decidable (isFreeFlag (pool.mem o).flags))

/-- A contiguous segment of sane blocks tiling offsets `off` to `stop`. -/
def partSeg (pool : MemoryPool) : Nat → List Nat → Nat → Prop
  | off, [], stop => off = stop
  | off, o :: rest, stop =>
    o = off ∧ header_is_sane pool (pool.mem o) o ∧ partSeg pool (blockEnd pool o) rest stop

instance instDecPartSeg (pool : MemoryPool) :
    ∀ (off : Nat) (bs : List Nat) (stop : Nat), Decidable (partSeg pool off bs stop)
  | off, [], stop => decidable_of_iff (off = stop) (by simp [partSeg])
  | off, o :: rest, stop =>
    haveI := instDecPartSeg pool (blockEnd pool o) rest stop
    decidable_of_iff
      (o = off ∧ header_is_sane pool (pool.mem o) o ∧ partSeg pool (blockEnd pool o) rest stop)
      (by simp [partSeg])

/-- A singly linked walk through `next` fields: starting at `head`, the
listed offsets are visited in order and the walk ends at `stop`. -/
def chainTo (pool : MemoryPool) : Nat → List Nat → Nat → Prop
  | head, [], stop => head = stop
  | head, o :: rest, stop => head = o ∧ chainTo pool (pool.mem o).next rest stop

instance instDecChainTo (pool : MemoryPool) :
    ∀ (head : Nat) (l : List Nat) (stop : Nat), Decidable (chainTo pool head l stop)
  | head, [], stop => decidable_of_iff (head = stop) (by simp [chainTo])
  | head, o :: rest, stop =>
    haveI := instDecChainTo pool (pool.mem o).next rest stop
    decidable_of_iff (head = o ∧ chainTo pool (pool.mem o).next rest stop) (by simp [chainTo])

/-- The free-flagged blocks of `bs`, in order. -/
def freeBlocks (pool : MemoryPool) (bs : List Nat) : List Nat :=
  bs.filter fun o => decide (isFreeH pool o)

/-- The allocated (non-free) blocks of `bs`, in order. -/
def usedBlocks (pool : MemoryPool) (bs : List Nat) : List Nat :=
  bs.filter fun o => ! decide (isFreeH pool o)

/-- Sum of the payload sizes of the listed blocks. -/
def sumSizes (pool : MemoryPool) (l : List Nat) : Nat :=
  (l.map fun o => (pool.mem o).size).sum

/-- No two physically adjacent blocks of the tiling are both free. -/
def noAdjFree (pool : MemoryPool) (bs : List Nat) : Prop :=
  List.Chain' (fun a b => ¬(isFreeH pool a ∧ isFreeH pool b)) bs

instance instDecNoAdjFree (pool : MemoryPool) : ∀ (bs : List Nat), Decidable (noAdjFree pool bs)
  | [] => isTrue (by unfold noAdjFree; simp)
  | [_] => isTrue (by unfold noAdjFree; simp)
  | a :: b :: rest =>
    haveI := instDecNoAdjFree pool (b :: rest)
    decidable_of_iff (¬(isFreeH pool a ∧ isFreeH pool b) ∧ noAdjFree pool (b :: rest))
      (by unfold noAdjFree; rw [List.chain'_cons])

/-- The uncorrupted-pool invariant, with the block tiling `bs` explicit. -/
def InvWith (pool : MemoryPool) (bs : List Nat) : Prop :=
  pool.pool_size % POOL_ALIGNMENT = 0 ∧
  pool.pool_size + 32 ≤ U32 ∧
  partSeg pool 0 bs pool.pool_size ∧
  chainTo pool pool.free_list (freeBlocks pool bs) POOL_NULL_OFFSET ∧
  pool.allocated = sumSizes pool (usedBlocks pool bs) ∧
  pool.free_space = sumSizes pool (freeBlocks pool bs) ∧
  noAdjFree pool bs

instance (pool : MemoryPool) (bs : List Nat) : Decidable (InvWith pool bs) :=
  inferInstanceAs (Decidable (_ ∧ _ ∧ _ ∧ _ ∧ _ ∧ _ ∧ _))

/-- The invariant without the no-adjacent-free-blocks clause, used for the
intermediate states of `pool_free` before coalescing completes. -/
def InvCore (pool : MemoryPool) (bs : List Nat) : Prop :=
  pool.pool_size % POOL_ALIGNMENT = 0 ∧
  pool.pool_size + 32 ≤ U32 ∧
  partSeg pool 0 bs pool.pool_size ∧
  chainTo pool pool.free_list (freeBlocks pool bs) POOL_NULL_OFFSET ∧
  pool.allocated = sumSizes pool (usedBlocks pool bs) ∧
  pool.free_space = sumSizes pool (freeBlocks pool bs)

/-- An uncorrupted pool: some block tiling witnesses the invariant. -/
def Uncorrupted (pool : MemoryPool) : Prop := ∃ bs, InvWith pool bs

/-- Projection of an `AllocResult` to its pool state, with a default. -/
def AllocResult.stateD : AllocResult → MemoryPool → MemoryPool
  | .diverge, d => d
  | .fail p, _ => p
  | .success p _, _ => p

/-- Projection of an `AllocResult` to its payload offset, with a default. -/
def AllocResult.payloadD : AllocResult → Nat → Nat
  | .success _ po, _ => po
  | _, d => d

/-- Test that an `AllocResult` is a successful allocation. -/
def AllocResult.isSuccess : AllocResult → Prop
  | .success _ _ => True
  | _ => False

instance (r : AllocResult) : Decidable r.isSuccess := by
  cases r <;> (unfold AllocResult.isSuccess; infer_instance)

/-- Projection of a `FreeResult` to its pool state, with a default. -/
def FreeResult.stateD : FreeResult → MemoryPool → MemoryPool
  | .diverge, d => d
  | .done p, _ => p

/-- An all-zero buffer content, used as the initial memory of the concrete
pools appearing in witnesses and counterexamples. -/
def zeroMem : Nat → BlockHeader := fun _ => { magic := 0, size := 0, next := 0, flags := 0 }

/-- A default pool value for total projections. -/
def defaultPool : MemoryPool :=
  { pool_size := 0, mem := zeroMem, free_list := 0, allocated := 0, free_space := 0 }


/-- The claim formula for the effective request: `size mod 2^32` clamped up
to the 16-byte minimum and rounded (mathematically) up to 8-byte
alignment.  Stated from the claim's words, for comparison with the code's
`requestOf`. -/
def requestSpecRound (size : Nat) : Nat :=
  (max MIN_ALLOC_SIZE (size % U32) + 7) / 8 * 8

/-- Sequential allocations: apply `pool_alloc` once per listed size (the
serialization of N concurrent callers enforced by the pool mutex),
collecting each call's result. -/
def allocMany (fuel : Nat) : MemoryPool → List Nat → MemoryPool × List (Option Nat)
  | pool, [] => (pool, [])
  | pool, size :: rest =>
    match pool_alloc pool size fuel with
    | .success p1 po =>
      let r := allocMany fuel p1 rest
      (r.1, some po :: r.2)
    | _ =>
      let r := allocMany fuel pool rest
      (r.1, none :: r.2)

/-- Payload regions of the blocks behind two payload offsets do not
overlap (each runs from its offset for its block's recorded size). -/
def payloadRegionDisjoint (p : MemoryPool) (a b : Nat) : Prop :=
  a + (p.mem (a - HEADER_SIZE)).size ≤ b ∨ b + (p.mem (b - HEADER_SIZE)).size ≤ a

/-- Whether the first listed block (if any) is free; used to express the
physical successor's state around a freed block. -/
def headFreeB (p : MemoryPool) : List Nat → Bool
  | [] => false
  | c :: _ => decide (isFreeH p c)

/-- Whether the last listed block (if any) is free; used to express the
physical predecessor's state around a freed block. -/
def lastFreeB (p : MemoryPool) (l : List Nat) : Bool := headFreeB p l.reverse

/-- The validation failures of `pool_free`, exactly as its code checks
them: null pointer, out of payload range, misaligned, preceding header
misaligned or out of bounds, header not sane, or free flag already set. -/
def free_arg_rejected (pool : MemoryPool) (ptr : Option Nat) : Prop :=
  match ptr with
  | none => True
  | some po =>
    po < HEADER_SIZE ∨ pool.pool_size ≤ po ∨ po % POOL_ALIGNMENT ≠ 0 ∨
    (po - HEADER_SIZE) % U32 % POOL_ALIGNMENT ≠ 0 ∨
    pool.pool_size < ((po - HEADER_SIZE) % U32 + HEADER_SIZE) % U32 ∨
    hdr_from_offset pool ((po - HEADER_SIZE) % U32) = none ∨
    ¬ header_is_sane pool (pool.mem ((po - HEADER_SIZE) % U32)) ((po - HEADER_SIZE) % U32) ∨
    isFreeFlag (pool.mem ((po - HEADER_SIZE) % U32)).flags


instance (pool : MemoryPool) (ptr : Option Nat) : Decidable (free_arg_rejected pool ptr) := by
  cases ptr <;> (unfold free_arg_rejected; infer_instance)


/-- Description of a successful `pool_alloc` on an uncorrupted pool with
tiling `bs`: the granted block `f` (with `po = f + HEADER_SIZE`) was a
free block of sufficient size; it is no longer free afterwards; all other
blocks keep their size and free flag (allocated blocks keep their entire
header); and depending on the split decision the tiling either stays or
gains the remainder block at `f + HEADER_SIZE + request`, with the exact
counter movements of the code. -/
def AllocSuccessSpec (pool : MemoryPool) (bs : List Nat) (request : Nat)
    (p' : MemoryPool) (po : Nat) : Prop :=
  ∃ u f v, bs = u ++ f :: v ∧ po = f + HEADER_SIZE ∧
    isFreeH pool f ∧ request ≤ (pool.mem f).size ∧
    p'.pool_size = pool.pool_size ∧
    ¬ isFreeH p' f ∧
    (∀ o, o ∈ u ∨ o ∈ v →
      (p'.mem o).size = (pool.mem o).size ∧ (p'.mem o).flags = (pool.mem o).flags) ∧
    (∀ o ∈ bs, ¬ isFreeH pool o → p'.mem o = pool.mem o) ∧
    (((pool.mem f).size < request + HEADER_SIZE + MIN_ALLOC_SIZE ∧
      InvWith p' (u ++ f :: v) ∧
      (p'.mem f).size = (pool.mem f).size ∧
      p'.allocated = pool.allocated + (pool.mem f).size ∧
      p'.free_space = pool.free_space - (pool.mem f).size) ∨
     (request + HEADER_SIZE + MIN_ALLOC_SIZE ≤ (pool.mem f).size ∧
      InvWith p' (u ++ f :: (f + HEADER_SIZE + request) :: v) ∧
      (p'.mem f).size = request ∧
      isFreeH p' (f + HEADER_SIZE + request) ∧
      p'.allocated = pool.allocated + request ∧
      p'.free_space = pool.free_space - (request + HEADER_SIZE)))

/-- The intermediate state of `pool_alloc`'s split branch: the remainder
header written at `(f + HEADER_SIZE + request) % U32`, the matched header's
size set to `request`, and `free_space` decremented by `request` and by
`HEADER_SIZE` (both wrapping `size_t` subtractions). -/
def splitState (pool : MemoryPool) (f request : Nat) : MemoryPool :=
  { pool with
    mem := Function.update
      (Function.update pool.mem (f + HEADER_SIZE + request)
        { magic := POOL_MAGIC, size := sub32 (sub32 (pool.mem f).size request) HEADER_SIZE,
          next := (pool.mem f).next, flags := FLAG_FREE })
      f
      { (Function.update pool.mem (f + HEADER_SIZE + request)
          { magic := POOL_MAGIC, size := sub32 (sub32 (pool.mem f).size request) HEADER_SIZE,
            next := (pool.mem f).next, flags := FLAG_FREE } f) with
        size := request },
    free_space := sub64 (sub64 pool.free_space request) HEADER_SIZE }

/-- The state of `pool_free` right after a valid block is marked free and
the counters are moved, before the free-list splice. -/
def markFree (pool : MemoryPool) (b : Nat) : MemoryPool :=
  { pool with
    mem := Function.update pool.mem b
      { (pool.mem b) with flags := setFreeBit (pool.mem b).flags },
    allocated := sub64 pool.allocated (pool.mem b).size,
    free_space := add64 pool.free_space (pool.mem b).size }

/-- The state of `pool_free` after splicing the freed block in as the new
list head. -/
def freeSplicedHead (p1 : MemoryPool) (b stop : Nat) : MemoryPool :=
  { p1 with
    mem := Function.update p1.mem b { (p1.mem b) with next := stop },
    free_list := b }

/-- The state of `pool_free` after splicing the freed block in after the
predecessor `pl` (whose fetched header is `v`). -/
def freeSplicedPrev (p1 : MemoryPool) (b pl stop : Nat) (v : BlockHeader) : MemoryPool :=
  { p1 with
    mem := Function.update
      (Function.update p1.mem b { (p1.mem b) with next := stop }) pl
      { v with next := b } }

/-! ## Concrete pools used by witnesses and counterexamples -/

/-- An 80-byte pool freshly initialized over zeroed memory. -/
def pool80 : MemoryPool := (pool_init zeroMem 80).getD defaultPool

/-- A 64-byte pool freshly initialized over zeroed memory. -/
def pool64 : MemoryPool := (pool_init zeroMem 64).getD defaultPool

/-- A 56-byte pool (40-byte initial payload) freshly initialized over
zeroed memory; the split-remainder example of the spec. -/
def pool56 : MemoryPool := (pool_init zeroMem 56).getD defaultPool

/-- A pool initialized over a buffer of `2^32 + 32` bytes, where the
`(uint32_t)` cast in `pool_init` truncates the initial block size. -/
def bigInitPool : MemoryPool := (pool_init zeroMem (2 ^ 32 + 32)).getD defaultPool

/-- A pool whose free-list head points at an in-bounds header with a bad
magic tag (external corruption), holding a bogus size. -/
def badMagicPool : MemoryPool :=
  { pool_size := 32,
    mem := Function.update zeroMem 0
      { magic := 0, size := 9999, next := POOL_NULL_OFFSET, flags := 1 },
    free_list := 0, allocated := 0, free_space := 0 }

/-- A corrupted pool whose free list is a self-loop through one in-bounds
non-free header: the walk of `freelist_count` never increments its
counter here. -/
def cyclicUsedPool : MemoryPool :=
  { pool_size := 32,
    mem := Function.update zeroMem 0
      { magic := POOL_MAGIC, size := 16, next := 0, flags := 0 },
    free_list := 0, allocated := 0, free_space := 0 }

/-- A corrupted pool whose free list is a self-loop through one free
header; diagnostics that count every visited node stop at their sentinel
bound here. -/
def cyclicFreePool : MemoryPool :=
  { pool_size := 32,
    mem := Function.update zeroMem 0
      { magic := POOL_MAGIC, size := 16, next := 0, flags := 1 },
    free_list := 0, allocated := 0, free_space := 0 }

/-- A pool holding one valid allocated block (at offset 48, payload at 64)
whose free list head is an in-bounds corrupt header at offset 0. -/
def c5Pool : MemoryPool :=
  { pool_size := 96,
    mem := Function.update (Function.update zeroMem 0
      { magic := 0, size := 16, next := POOL_NULL_OFFSET, flags := 1 }) 48
      { magic := POOL_MAGIC, size := 32, next := POOL_NULL_OFFSET, flags := 0 },
    free_list := 0, allocated := 32, free_space := 16 }

/-! ## A large uncorrupted pool whose free list exceeds the diagnostics' sentinel

100001 free blocks of 16 payload bytes alternate with 100000 allocated
ones: free blocks sit at offsets `64*i` (`i ≤ 100000`), allocated blocks
at `64*i + 32` (`i < 100000`), tiling a pool of `6400032` bytes.  Such a
state is reached by allocating 200001 minimum-size blocks and freeing
every second one. -/

/-- Memory content of the large pool, given by formula. -/
def monsterMem : Nat → BlockHeader := fun o =>
  if o % 32 = 0 ∧ o < 6400032 then
    (if o % 64 = 0 then
      { magic := POOL_MAGIC, size := 16,
        next := if o = 6400000 then POOL_NULL_OFFSET else o + 64, flags := 1 }
    else
      { magic := POOL_MAGIC, size := 16, next := POOL_NULL_OFFSET, flags := 0 })
  else zeroMem o

/-- The large pool with 100001 free-list nodes. -/
def monsterPool : MemoryPool :=
  { pool_size := 6400032, mem := monsterMem, free_list := 0,
    allocated := 1600000, free_space := 1600016 }

/-- The block tiling of `monsterPool` from the pair at index `i` on. -/
def monsterPairs (i : Nat) : List Nat :=
  (List.range' i (100000 - i)).flatMap fun j => [64 * j, 64 * j + 32]

/-- The full block tiling of `monsterPool`. -/
def monsterBs : List Nat := monsterPairs 0 ++ [6400000]

/-- The free-list offsets of `monsterPool` from index `i` on. -/
def monsterFrees (i : Nat) : List Nat :=
  ((List.range' i (100000 - i)).map fun j => 64 * j) ++ [6400000]


/-- Invariant of the first-fit scan about the trailing pointer: either no
node has been visited yet, or the last visited node was fetchable and
sane and did not match the request. -/
def PrevOk (pool : MemoryPool) (request prev_off : Nat) : Prop :=
  prev_off = POOL_NULL_OFFSET ∨
  (prev_off ≠ POOL_NULL_OFFSET ∧ (prev_off + HEADER_SIZE) % U32 ≤ pool.pool_size ∧
    header_is_sane pool (pool.mem prev_off) prev_off ∧
    ¬(isFreeFlag (pool.mem prev_off).flags ∧ request ≤ (pool.mem prev_off).size))

/-- The serialized execution of a sequence of `pool_alloc` calls: the pool
lock serializes the N concurrent calls into some total order, modelled as
a list of request sizes applied in order.  Returns the final pool and the
per-call results (`none` for a failed call). -/
def allocSeq : MemoryPool → List Nat → Nat → MemoryPool × List (Option Nat)
  | pool, [], _ => (pool, [])
  | pool, s :: rest, fuel =>
    match pool_alloc pool s fuel with
    | AllocResult.success p' po =>
      ((allocSeq p' rest fuel).1, some po :: (allocSeq p' rest fuel).2)
    | _ => ((allocSeq pool rest fuel).1, none :: (allocSeq pool rest fuel).2)

/-! ## Arithmetic and structural helper lemmas -/

theorem add64_eq_add {a b : Nat} (h : a + b < U64) : add64 a b = a + b := by
  unfold add64; exact Nat.mod_eq_of_lt h

theorem sub64_eq_sub {a b : Nat} (hb : b ≤ a) (ha : a < U64) : sub64 a b = a - b := by
  unfold sub64 U64 at *; omega

theorem sub32_eq_sub {a b : Nat} (hb : b ≤ a) (ha : a < U32) : sub32 a b = a - b := by
  unfold sub32 U32 at *; omega

theorem mod8_of_modU32 (a : Nat) : a % U32 % 8 = a % 8 := by
  have : (8 : Nat) ∣ U32 := by unfold U32; omega
  exact Nat.mod_mod_of_dvd a this

theorem sane_congr {p q : MemoryPool} (hsz : q.pool_size = p.pool_size)
    {hdr : BlockHeader} {off : Nat} (h : header_is_sane p hdr off) :
    header_is_sane q hdr off := by
  unfold header_is_sane at *; rw [hsz]; exact h

theorem hdr_from_offset_congr {p q : MemoryPool} (hsz : q.pool_size = p.pool_size)
    {off : Nat} (hm : q.mem off = p.mem off) :
    hdr_from_offset q off = hdr_from_offset p off := by
  unfold hdr_from_offset; rw [hsz, hm]

theorem partSeg_append {p : MemoryPool} :
    ∀ {l1 l2 : List Nat} {off mid stop : Nat},
      partSeg p off l1 mid → partSeg p mid l2 stop → partSeg p off (l1 ++ l2) stop := by
  intro l1
  induction l1 with
  | nil => intro l2 off mid stop h1 h2; unfold partSeg at h1; subst h1; simpa using h2
  | cons o rest ih =>
    intro l2 off mid stop h1 h2
    obtain ⟨ho, hs, hrest⟩ := h1
    exact ⟨ho, hs, ih hrest h2⟩

theorem partSeg_append_split {p : MemoryPool} :
    ∀ {l1 l2 : List Nat} {off stop : Nat},
      partSeg p off (l1 ++ l2) stop → ∃ mid, partSeg p off l1 mid ∧ partSeg p mid l2 stop := by
  intro l1
  induction l1 with
  | nil => intro l2 off stop h; exact ⟨off, rfl, by simpa using h⟩
  | cons o rest ih =>
    intro l2 off stop h
    obtain ⟨ho, hs, hrest⟩ := h
    obtain ⟨mid, hm1, hm2⟩ := ih hrest
    exact ⟨mid, ⟨ho, hs, hm1⟩, hm2⟩

theorem partSeg_sum {p : MemoryPool} :
    ∀ {bs : List Nat} {off stop : Nat}, partSeg p off bs stop →
      off + HEADER_SIZE * bs.length + sumSizes p bs = stop := by
  intro bs
  induction bs with
  | nil => intro off stop h; unfold partSeg at h; subst h; simp [sumSizes]
  | cons o rest ih =>
    intro off stop h
    obtain ⟨ho, _, hrest⟩ := h
    have h2 := ih hrest
    unfold blockEnd at h2
    subst ho
    unfold sumSizes at *
    simp only [List.map_cons, List.sum_cons, List.length_cons]
    unfold HEADER_SIZE at *
    omega

theorem partSeg_le {p : MemoryPool} :
    ∀ {bs : List Nat} {off stop : Nat}, partSeg p off bs stop → off ≤ stop := by
  intro bs off stop h
  have := partSeg_sum h
  omega

theorem partSeg_mem_sane {p : MemoryPool} :
    ∀ {bs : List Nat} {off stop : Nat}, partSeg p off bs stop →
      ∀ {o : Nat}, o ∈ bs → header_is_sane p (p.mem o) o := by
  intro bs
  induction bs with
  | nil => intro off stop _ o ho; cases ho
  | cons b rest ih =>
    intro off stop h o ho
    obtain ⟨hb, hs, hrest⟩ := h
    rcases List.mem_cons.mp ho with rfl | hmem
    · exact hs
    · exact ih hrest hmem

theorem partSeg_mem_range {p : MemoryPool} :
    ∀ {bs : List Nat} {off stop : Nat}, partSeg p off bs stop →
      ∀ {o : Nat}, o ∈ bs → off ≤ o ∧ blockEnd p o ≤ stop := by
  intro bs
  induction bs with
  | nil => intro off stop _ o ho; cases ho
  | cons b rest ih =>
    intro off stop h o ho
    obtain ⟨hb, hs, hrest⟩ := h
    rcases List.mem_cons.mp ho with rfl | hmem
    · subst hb
      refine ⟨le_refl _, ?_⟩
      exact le_trans (le_refl _) (partSeg_le hrest)
    · have := ih hrest hmem
      have hle : blockEnd p b ≤ stop := partSeg_le hrest |>.trans (le_refl _)
      subst hb
      unfold blockEnd at *
      omega

theorem partSeg_congr {p q : MemoryPool} (hsz : q.pool_size = p.pool_size) :
    ∀ {bs : List Nat} {off stop : Nat},
      (∀ o ∈ bs, q.mem o = p.mem o) → partSeg p off bs stop → partSeg q off bs stop := by
  intro bs
  induction bs with
  | nil => intro off stop _ h; exact h
  | cons o rest ih =>
    intro off stop hmem h
    obtain ⟨ho, hs, hrest⟩ := h
    have hqo : q.mem o = p.mem o := hmem o (List.mem_cons_self o rest)
    refine ⟨ho, ?_, ?_⟩
    · rw [hqo]; exact sane_congr hsz hs
    · have : blockEnd q o = blockEnd p o := by unfold blockEnd; rw [hqo]
      rw [this]
      exact ih (fun x hx => hmem x (List.mem_cons_of_mem o hx)) hrest

theorem chainTo_append {p : MemoryPool} :
    ∀ {l1 l2 : List Nat} {h m stop : Nat},
      chainTo p h l1 m → chainTo p m l2 stop → chainTo p h (l1 ++ l2) stop := by
  intro l1
  induction l1 with
  | nil => intro l2 h m stop h1 h2; unfold chainTo at h1; subst h1; simpa using h2
  | cons o rest ih =>
    intro l2 h m stop h1 h2
    obtain ⟨ho, hrest⟩ := h1
    exact ⟨ho, ih hrest h2⟩

theorem chainTo_append_split {p : MemoryPool} :
    ∀ {l1 l2 : List Nat} {h stop : Nat},
      chainTo p h (l1 ++ l2) stop → ∃ m, chainTo p h l1 m ∧ chainTo p m l2 stop := by
  intro l1
  induction l1 with
  | nil => intro l2 h stop hc; exact ⟨h, rfl, by simpa using hc⟩
  | cons o rest ih =>
    intro l2 h stop hc
    obtain ⟨ho, hrest⟩ := hc
    obtain ⟨m, hm1, hm2⟩ := ih hrest
    exact ⟨m, ⟨ho, hm1⟩, hm2⟩

theorem chainTo_congr {p q : MemoryPool} :
    ∀ {l : List Nat} {h stop : Nat},
      (∀ o ∈ l, (q.mem o).next = (p.mem o).next) → chainTo p h l stop → chainTo q h l stop := by
  intro l
  induction l with
  | nil => intro h stop _ hc; exact hc
  | cons o rest ih =>
    intro h stop hmem hc
    obtain ⟨ho, hrest⟩ := hc
    refine ⟨ho, ?_⟩
    rw [hmem o (List.mem_cons_self o rest)]
    exact ih (fun x hx => hmem x (List.mem_cons_of_mem o hx)) hrest

theorem sumSizes_append (p : MemoryPool) (l1 l2 : List Nat) :
    sumSizes p (l1 ++ l2) = sumSizes p l1 + sumSizes p l2 := by
  unfold sumSizes; simp

theorem sumSizes_congr {p q : MemoryPool} :
    ∀ {l : List Nat}, (∀ o ∈ l, (q.mem o).size = (p.mem o).size) →
      sumSizes q l = sumSizes p l := by
  intro l
  induction l with
  | nil => intro _; rfl
  | cons o rest ih =>
    intro hmem
    unfold sumSizes at *
    simp only [List.map_cons, List.sum_cons]
    rw [hmem o (List.mem_cons_self o rest), ih (fun x hx => hmem x (List.mem_cons_of_mem o hx))]

theorem freeBlocks_congr {p q : MemoryPool} :
    ∀ {bs : List Nat}, (∀ o ∈ bs, isFreeH q o ↔ isFreeH p o) →
      freeBlocks q bs = freeBlocks p bs := by
  intro bs hmem
  unfold freeBlocks
  refine List.filter_congr ?_
  intro o ho
  simp only [decide_eq_decide]
  exact hmem o ho

theorem usedBlocks_congr {p q : MemoryPool} :
    ∀ {bs : List Nat}, (∀ o ∈ bs, isFreeH q o ↔ isFreeH p o) →
      usedBlocks q bs = usedBlocks p bs := by
  intro bs hmem
  unfold usedBlocks
  refine List.filter_congr ?_
  intro o ho
  have hiff := hmem o ho
  by_cases h : isFreeH p o
  · simp [h, hiff.mpr h]
  · have : ¬ isFreeH q o := fun hq => h (hiff.mp hq)
    simp [h, this]

theorem noAdjFree_mono {p q : MemoryPool} {bs : List Nat}
    (hmem : ∀ o ∈ bs, isFreeH q o → isFreeH p o)
    (h : noAdjFree p bs) : noAdjFree q bs := by
  unfold noAdjFree at *
  induction bs with
  | nil => trivial
  | cons a rest ih =>
    rw [List.chain'_cons'] at h ⊢
    refine ⟨?_, ?_⟩
    · intro y hy ⟨hqa, hqy⟩
      have hyrest : y ∈ rest := by
        cases rest with
        | nil => simp at hy
        | cons b r => simp at hy; subst hy; simp
      exact h.1 y hy ⟨hmem a (by simp) hqa, hmem y (by simp [hyrest]) hqy⟩
    · exact ih (fun o ho => hmem o (List.mem_cons_of_mem a ho)) h.2

theorem requestOf_mod8 (size : Nat) : requestOf size % 8 = 0 := by
  unfold requestOf align_up_u32 POOL_ALIGNMENT
  exact Nat.mul_mod_left _ 8

theorem requestOf_lt_U32 (size : Nat) : requestOf size < U32 := by
  unfold requestOf align_up_u32 POOL_ALIGNMENT
  have h1 : (max MIN_ALLOC_SIZE (size % U32) + 8 - 1) % U32 < U32 := by
    apply Nat.mod_lt
    unfold U32; omega
  have h2 : (max MIN_ALLOC_SIZE (size % U32) + 8 - 1) % U32 / 8 * 8 ≤
      (max MIN_ALLOC_SIZE (size % U32) + 8 - 1) % U32 := Nat.div_mul_le_self _ 8
  omega


theorem alloc_finish_success_null {pool1 : MemoryPool} {replacement cur_off : Nat} :
    ∃ q po, alloc_finish pool1 replacement POOL_NULL_OFFSET cur_off = .success q po := by
  unfold alloc_finish
  simp

theorem alloc_finish_success_prev {pool1 : MemoryPool} {replacement prev_off cur_off : Nat}
    (h : prev_off ≠ POOL_NULL_OFFSET)
    (hb : (prev_off + HEADER_SIZE) % U32 ≤ pool1.pool_size)
    (hs : header_is_sane pool1
      (Function.update pool1.mem cur_off
        { (pool1.mem cur_off) with
          flags := clearFreeBit (pool1.mem cur_off).flags,
          next := POOL_NULL_OFFSET } prev_off) prev_off) :
    ∃ q po, alloc_finish pool1 replacement prev_off cur_off = .success q po := by
  have hb' : ¬ pool1.pool_size < (prev_off + HEADER_SIZE) % U32 := not_lt.mpr hb
  have hs' := sane_congr (p := pool1) (q := { pool1 with
    mem := Function.update pool1.mem cur_off
      { (pool1.mem cur_off) with
        flags := clearFreeBit (pool1.mem cur_off).flags,
        next := POOL_NULL_OFFSET } }) rfl hs
  simp [alloc_finish, hdr_from_offset, h, hb', hs']

theorem alloc_finish_no_fail_null {pool1 : MemoryPool} {replacement cur_off : Nat}
    {p' : MemoryPool}
    (hfail : alloc_finish pool1 replacement POOL_NULL_OFFSET cur_off = .fail p') : False := by
  obtain ⟨q, po, h⟩ := @alloc_finish_success_null pool1 replacement cur_off
  rw [h] at hfail
  cases hfail

theorem alloc_finish_no_fail {pool1 : MemoryPool} {replacement prev_off cur_off : Nat}
    {p' : MemoryPool}
    (hb : (prev_off + HEADER_SIZE) % U32 ≤ pool1.pool_size)
    (hs : header_is_sane pool1
      (Function.update pool1.mem cur_off
        { (pool1.mem cur_off) with
          flags := clearFreeBit (pool1.mem cur_off).flags,
          next := POOL_NULL_OFFSET } prev_off) prev_off)
    (hfail : alloc_finish pool1 replacement prev_off cur_off = .fail p') : False := by
  by_cases hp : prev_off = POOL_NULL_OFFSET
  · subst hp
    exact alloc_finish_no_fail_null hfail
  · obtain ⟨q, po, h⟩ := alloc_finish_success_prev hp hb hs
    rw [h] at hfail
    cases hfail

theorem alloc_match_fail_eq {pool : MemoryPool} {request prev_off cur_off : Nat}
    {cur : BlockHeader} {p' : MemoryPool}
    (hps : pool.pool_size < U32) (hreq8 : request % 8 = 0)
    (hcur : pool.mem cur_off = cur)
    (hsane : header_is_sane pool cur cur_off)
    (hmatch : isFreeFlag cur.flags ∧ request ≤ cur.size)
    (hprev : PrevOk pool request prev_off)
    (hfail : alloc_match pool request prev_off cur_off cur = .fail p') :
    p' = pool := by
  obtain ⟨hmagic, hoff8, hsz16, hend, hnext⟩ := hsane
  simp only [alloc_match] at hfail
  by_cases hsplit : (request + HEADER_SIZE + MIN_ALLOC_SIZE) % U32 ≤ cur.size
  · rw [if_pos hsplit] at hfail
    cases hfetch : hdr_from_offset pool ((cur_off + HEADER_SIZE + request) % U32) with
    | none =>
      rw [hfetch] at hfail
      cases hfail
      rfl
    | some w =>
      simp only [hfetch] at hfail
      exfalso
      have hNnowrap : (cur_off + HEADER_SIZE + request) % U32 = cur_off + HEADER_SIZE + request := by
        apply Nat.mod_eq_of_lt
        unfold HEADER_SIZE at *
        omega
      rcases hprev with hP | ⟨hPne, hPb, hPsane, hPnm⟩
      · subst hP
        exact alloc_finish_no_fail_null hfail
      · have hprev_ne_cur : prev_off ≠ cur_off := by
          intro he; subst he; rw [hcur] at hPnm; exact hPnm hmatch
        by_cases hpN : prev_off = (cur_off + HEADER_SIZE + request) % U32
        · subst hpN
          have hreq_small : request + HEADER_SIZE + MIN_ALLOC_SIZE < U32 := by
            obtain ⟨_, _, hs16, hPend, _⟩ := hPsane
            rw [hNnowrap] at hPend
            unfold HEADER_SIZE MIN_ALLOC_SIZE at *
            omega
          have hsplit' : request + HEADER_SIZE + MIN_ALLOC_SIZE ≤ cur.size := by
            rwa [Nat.mod_eq_of_lt hreq_small] at hsplit
          have hszval : sub32 (sub32 cur.size request) HEADER_SIZE =
              cur.size - request - HEADER_SIZE := by
            rw [sub32_eq_sub hmatch.2 (by unfold HEADER_SIZE at *; omega),
              sub32_eq_sub (by unfold HEADER_SIZE MIN_ALLOC_SIZE at *; omega)
                (by unfold HEADER_SIZE at *; omega)]
          refine alloc_finish_no_fail ?_ ?_ hfail
          · exact hPb
          apply sane_congr (p := pool) rfl
          simp only [Function.update_noteq hprev_ne_cur, Function.update_same]
          refine ⟨rfl, ?_, ?_, ?_, hnext⟩
          · rw [hNnowrap]
            unfold HEADER_SIZE POOL_ALIGNMENT at *
            omega
          · show MIN_ALLOC_SIZE ≤ sub32 (sub32 cur.size request) HEADER_SIZE
            rw [hszval]
            unfold HEADER_SIZE MIN_ALLOC_SIZE at *
            omega
          · show (cur_off + HEADER_SIZE + request) % U32 + HEADER_SIZE +
                (sub32 (sub32 cur.size request) HEADER_SIZE) ≤ pool.pool_size
            rw [hszval, hNnowrap]
            unfold HEADER_SIZE MIN_ALLOC_SIZE at *
            omega
        · refine alloc_finish_no_fail ?_ ?_ hfail
          · exact hPb
          apply sane_congr (p := pool) rfl
          simp only [Function.update_noteq hprev_ne_cur, Function.update_noteq hpN]
          exact hPsane
  · rw [if_neg hsplit] at hfail
    exfalso
    rcases hprev with hP | ⟨hPne, hPb, hPsane, hPnm⟩
    · subst hP
      exact alloc_finish_no_fail_null hfail
    · have hprev_ne_cur : prev_off ≠ cur_off := by
        intro he; subst he; rw [hcur] at hPnm; exact hPnm hmatch
      refine alloc_finish_no_fail ?_ ?_ hfail
      · exact hPb
      apply sane_congr (p := pool) rfl
      simp only [Function.update_noteq hprev_ne_cur]
      exact hPsane

theorem alloc_loop_fail_eq {pool : MemoryPool} {request : Nat}
    (hps : pool.pool_size < U32) (hreq8 : request % 8 = 0) :
    ∀ {fuel prev_off cur_off : Nat} {p' : MemoryPool}, PrevOk pool request prev_off →
      alloc_loop pool request fuel prev_off cur_off = .fail p' → p' = pool := by
  intro fuel
  induction fuel with
  | zero => intro prev_off cur_off p' _ h; cases h
  | succ fuel ih =>
    intro prev_off cur_off p' hprev h
    unfold alloc_loop at h
    by_cases hnull : cur_off = POOL_NULL_OFFSET
    · rw [if_pos hnull] at h
      cases h
      rfl
    · rw [if_neg hnull] at h
      cases hfetch : hdr_from_offset pool cur_off with
      | none =>
        simp only [hfetch] at h
        cases h
        rfl
      | some cur =>
        simp only [hfetch] at h
        have hcur : pool.mem cur_off = cur := by
          unfold hdr_from_offset at hfetch
          by_cases hc : cur_off = POOL_NULL_OFFSET ∨
              pool.pool_size < (cur_off + HEADER_SIZE) % U32
          · rw [if_pos hc] at hfetch; cases hfetch
          · rw [if_neg hc] at hfetch; exact (Option.some.inj hfetch)
        have hbound : (cur_off + HEADER_SIZE) % U32 ≤ pool.pool_size := by
          unfold hdr_from_offset at hfetch
          by_cases hc : cur_off = POOL_NULL_OFFSET ∨
              pool.pool_size < (cur_off + HEADER_SIZE) % U32
          · rw [if_pos hc] at hfetch; cases hfetch
          · push_neg at hc; exact hc.2
        by_cases hsane : header_is_sane pool cur cur_off
        · rw [if_neg (not_not_intro hsane)] at h
          by_cases hm : isFreeFlag cur.flags ∧ request ≤ cur.size
          · rw [if_pos hm] at h
            exact alloc_match_fail_eq hps hreq8 hcur hsane hm hprev h
          · rw [if_neg hm] at h
            refine ih ?_ h
            right
            rw [hcur]
            exact ⟨hnull, hbound, hcur ▸ hsane, hm⟩
        · rw [if_pos hsane] at h
          cases h
          rfl

theorem pool_alloc_fail_eq {pool : MemoryPool} {size fuel : Nat} {p' : MemoryPool}
    (hps : pool.pool_size < U32)
    (h : pool_alloc pool size fuel = .fail p') : p' = pool := by
  unfold pool_alloc at h
  by_cases hz : size = 0
  · rw [if_pos hz] at h
    cases h
    rfl
  · rw [if_neg hz] at h
    exact alloc_loop_fail_eq hps (requestOf_mod8 size) (Or.inl rfl) h

theorem pool_free_rejected_eq (pool : MemoryPool) (ptr : Option Nat) (fuel : Nat)
    (hrej : free_arg_rejected pool ptr) : pool_free pool ptr fuel = .done pool := by
  cases ptr with
  | none => rfl
  | some po =>
    simp only [free_arg_rejected] at hrej
    simp only [pool_free]
    by_cases h1 : po < HEADER_SIZE ∨ pool.pool_size ≤ po
    · rw [if_pos h1]
    · rw [if_neg h1]
      by_cases h2 : po % POOL_ALIGNMENT = 0
      · rw [if_neg (not_not_intro h2)]
        by_cases h3 : ¬(po - HEADER_SIZE) % U32 % POOL_ALIGNMENT = 0 ∨
            pool.pool_size < ((po - HEADER_SIZE) % U32 + HEADER_SIZE) % U32
        · rw [if_pos h3]
        · rw [if_neg h3]
          cases hfetch : hdr_from_offset pool ((po - HEADER_SIZE) % U32) with
          | none => simp only [hfetch]
          | some hdr =>
            simp only [hfetch]
            have hcur : pool.mem ((po - HEADER_SIZE) % U32) = hdr := by
              unfold hdr_from_offset at hfetch
              by_cases hc : (po - HEADER_SIZE) % U32 = POOL_NULL_OFFSET ∨
                  pool.pool_size < ((po - HEADER_SIZE) % U32 + HEADER_SIZE) % U32
              · rw [if_pos hc] at hfetch; cases hfetch
              · rw [if_neg hc] at hfetch; exact Option.some.inj hfetch
            by_cases h4 : header_is_sane pool hdr ((po - HEADER_SIZE) % U32)
            · rw [if_neg (not_not_intro h4)]
              by_cases h5 : isFreeFlag hdr.flags
              · rw [if_pos h5]
              · exfalso
                push_neg at h1 h3
                rcases hrej with hr | hr | hr | hr | hr | hr | hr | hr
                · omega
                · omega
                · exact hr h2
                · exact hr h3.1
                · omega
                · rw [hfetch] at hr; cases hr
                · rw [hcur] at hr; exact hr h4
                · rw [hcur] at hr; exact h5 hr
            · rw [if_pos h4]
      · rw [if_pos h2]

/-! ## Walk lemmas for the free-list diagnostics -/

theorem freelist_dump_go_length (pool : MemoryPool) :
    ∀ (rem cur_off : Nat), (freelist_dump_go pool rem cur_off).length ≤ rem := by
  intro rem
  induction rem with
  | zero => intro cur_off; simp [freelist_dump_go]
  | succ rem ih =>
    intro cur_off
    unfold freelist_dump_go
    by_cases h : cur_off = POOL_NULL_OFFSET
    · rw [if_pos h]; simp
    · rw [if_neg h]
      cases hf : hdr_from_offset pool cur_off with
      | none => simp
      | some cur =>
        simp only [List.length_cons]
        have := ih cur.next
        omega

theorem freelist_count_go_le (pool : MemoryPool) :
    ∀ (fuel cur_off count n : Nat), count ≤ 100000 →
      freelist_count_go pool fuel cur_off count = some n → n ≤ 100000 := by
  intro fuel
  induction fuel with
  | zero => intro cur_off count n _ hc; simp [freelist_count_go] at hc
  | succ fuel ih =>
    intro cur_off count n hcount hc
    unfold freelist_count_go at hc
    by_cases h : cur_off = POOL_NULL_OFFSET ∨ 100000 ≤ count
    · rw [if_pos h] at hc
      cases hc
      omega
    · rw [if_neg h] at hc
      push_neg at h
      cases hf : hdr_from_offset pool cur_off with
      | none => rw [hf] at hc; cases hc; omega
      | some cur =>
        rw [hf] at hc
        refine ih cur.next _ n ?_ hc
        by_cases hfr : isFreeFlag cur.flags <;> simp [hfr] <;> omega

theorem freelist_count_cyclic_none :
    ∀ (fuel count : Nat), count < 100000 →
      freelist_count_go cyclicUsedPool fuel 0 count = none := by
  intro fuel
  induction fuel with
  | zero => intro _ _; rfl
  | succ fuel ih =>
    intro count hcount
    unfold freelist_count_go
    rw [if_neg (by unfold POOL_NULL_OFFSET; omega)]
    have hf : hdr_from_offset cyclicUsedPool 0 =
        some { magic := POOL_MAGIC, size := 16, next := 0, flags := 0 } := by decide
    rw [hf]
    simp only [isFreeFlag]
    norm_num
    exact ih count hcount

theorem freelist_total_free_cyclic :
    ∀ (rem acc : Nat), freelist_total_free_go cyclicFreePool rem 0 acc = acc + 16 * rem := by
  intro rem
  induction rem with
  | zero => intro acc; simp [freelist_total_free_go]
  | succ rem ih =>
    intro acc
    unfold freelist_total_free_go
    rw [if_neg (by unfold POOL_NULL_OFFSET; omega)]
    have hf : hdr_from_offset cyclicFreePool 0 =
        some { magic := POOL_MAGIC, size := 16, next := 0, flags := 1 } := by decide
    rw [hf]
    simp only [isFreeFlag]
    norm_num
    rw [ih]
    ring

theorem requestOf_eq_specRound (size : Nat) (h : size % U32 ≤ U32 - POOL_ALIGNMENT) :
    requestOf size = requestSpecRound size := by
  unfold requestOf requestSpecRound align_up_u32 POOL_ALIGNMENT MIN_ALLOC_SIZE at *
  have hm : (max 16 (size % U32) + 8 - 1) % U32 = max 16 (size % U32) + 7 := by
    apply Nat.mod_eq_of_lt
    unfold U32 at *
    omega
  rw [hm]

theorem pool_alloc_u32_wrap (pool : MemoryPool) (fuel : Nat) :
    pool_alloc pool (2 ^ 32) fuel = pool_alloc pool 16 fuel := by
  unfold pool_alloc
  rw [if_neg (by norm_num), if_neg (by norm_num)]
  rw [show requestOf (2 ^ 32) = requestOf 16 from by decide]

/-! ## Claim theorems -/

/-- C5 (counterexample).  On a pool holding one valid allocated block
(offset 48, payload at 64) whose free-list head is an in-bounds corrupt
header, `pool_free` of the valid payload aborts when the insertion scan
re-validates the corrupt head — but only after it has already set the
block's free flag and moved its 32 bytes from `allocated` to
`free_space`.  The call thus aborts as the claim says, yet the counters
and a header have changed, refuting "without mutating any pool state". -/
theorem C5_counterexample :
    ¬ header_is_sane c5Pool (c5Pool.mem c5Pool.free_list) c5Pool.free_list ∧
    c5Pool.allocated = 32 ∧ c5Pool.free_space = 16 ∧ (c5Pool.mem 48).flags = 0 ∧
    ((pool_free c5Pool (some 64) 50).stateD c5Pool).allocated = 0 ∧
    ((pool_free c5Pool (some 64) 50).stateD c5Pool).free_space = 48 ∧
    (((pool_free c5Pool (some 64) 50).stateD c5Pool).mem 48).flags = 1 := by
  decide

/-- C5 (amended).  On pools smaller than `2^32` bytes, `pool_alloc`
returning the null failure leaves the pool exactly as it was (every
corrupt-header abort happens before any mutation); `pool_free` aborts
without any mutation whenever the failure is detected during its
pointer-validation phase.  A sanity failure during the later insertion
scan of `pool_free` still aborts re-linking, but only after the header
flag and both counters have changed (see the counterexample). -/
theorem C5_abort_without_mutation :
    (∀ (pool : MemoryPool) (size fuel : Nat) (p' : MemoryPool), pool.pool_size < U32 →
      pool_alloc pool size fuel = .fail p' → p' = pool) ∧
    (∀ (pool : MemoryPool) (ptr : Option Nat) (fuel : Nat), free_arg_rejected pool ptr →
      pool_free pool ptr fuel = .done pool) :=
  ⟨fun _ _ _ _ hps h => pool_alloc_fail_eq hps h, pool_free_rejected_eq⟩

/-- C5 (witness): the amended theorem applied to a 64-byte pool with an
oversized request (the scan fails finding no fit) and to an
out-of-range pointer freed on the 80-byte pool. -/
theorem C5_witness :
    (pool_alloc pool64 999 10).stateD defaultPool = pool64 ∧
    pool_free pool80 (some 999) 10 = .done pool80 :=
  ⟨C5_abort_without_mutation.1 pool64 999 10 _ (by decide) (by rfl),
   C5_abort_without_mutation.2 pool80 (some 999) 10 (by decide)⟩

/-- C6.  Every pointer failing `pool_free`'s validation ladder — null,
below the first payload or past the pool end, misaligned, preceding
header misaligned or out of bounds, header failing the sanity predicate,
or free flag already set (double free) — makes `pool_free` return with
the pool state completely unchanged. -/
theorem C6_invalid_free_is_noop :
    ∀ (pool : MemoryPool) (ptr : Option Nat) (fuel : Nat), free_arg_rejected pool ptr →
      pool_free pool ptr fuel = .done pool :=
  fun pool ptr fuel h => pool_free_rejected_eq pool ptr fuel h

/-- C6 (witness): a double free on a fresh 80-byte pool (block at offset
0 is free, so its payload pointer 16 is rejected) is a no-op. -/
theorem C6_witness :
    free_arg_rejected pool80 (some 16) ∧ pool_free pool80 (some 16) 7 = .done pool80 :=
  ⟨by decide, C6_invalid_free_is_noop pool80 (some 16) 7 (by decide)⟩

/-- C10 (counterexample).  At `size = 2^32 - 1` the claimed formula
(clamp to 16 then round up to 8-byte alignment) yields `2^32`, but the
code's 32-bit `align_up_u32` wraps and the effective request is `0`, so
the claim's "for every nonzero size" is off in the seven top residues. -/
theorem C10_counterexample :
    requestOf (2 ^ 32 - 1) = 0 ∧ requestSpecRound (2 ^ 32 - 1) = 2 ^ 32 ∧ (0 : Nat) ≠ 2 ^ 32 := by
  decide

/-- C10 (amended).  `pool_alloc` truncates its size argument to 32 bits:
whenever `size mod 2^32` stays clear of the top seven residues (where
the 32-bit rounding itself wraps), the effective request is exactly
`size mod 2^32` clamped to the 16-byte minimum and rounded up to 8-byte
alignment; in particular a request of `2^32` bytes behaves exactly like
a 16-byte (minimum) request, and on a fresh 64-byte pool it succeeds
returning a 16-byte block. -/
theorem C10_size_truncation :
    (∀ size : Nat, size % U32 ≤ U32 - POOL_ALIGNMENT →
      requestOf size = requestSpecRound size) ∧
    (∀ (pool : MemoryPool) (fuel : Nat), pool_alloc pool (2 ^ 32) fuel = pool_alloc pool 16 fuel) ∧
    (pool_alloc pool64 (2 ^ 32) 10).isSuccess ∧
    (((pool_alloc pool64 (2 ^ 32) 10).stateD defaultPool).mem
      ((pool_alloc pool64 (2 ^ 32) 10).payloadD 0 - HEADER_SIZE)).size = MIN_ALLOC_SIZE :=
  ⟨requestOf_eq_specRound, pool_alloc_u32_wrap, by decide, by decide⟩

/-- C10 (witness): the amended theorem applied at `size = 40` and to the
fresh 80-byte pool. -/
theorem C10_witness :
    requestOf 40 = requestSpecRound 40 ∧
    pool_alloc pool80 (2 ^ 32) 5 = pool_alloc pool80 16 5 :=
  ⟨C10_size_truncation.1 40 (by decide), C10_size_truncation.2.1 pool80 5⟩

/-- C7 (counterexample).  Requesting `2^32 + 16` bytes on a fresh
64-byte pool succeeds — the `(uint32_t)` cast truncates the request to
16 — and the granted block holds only 16 payload bytes, far fewer than
requested, refuting "a payload region of at least the requested number
of bytes ... or a null result". -/
theorem C7_counterexample :
    (pool_alloc pool64 (2 ^ 32 + 16) 10).isSuccess ∧
    (((pool_alloc pool64 (2 ^ 32 + 16) 10).stateD defaultPool).mem
      ((pool_alloc pool64 (2 ^ 32 + 16) 10).payloadD 0 - HEADER_SIZE)).size = 16 ∧
    (16 : Nat) < 2 ^ 32 + 16 := by
  decide

/-- C8 (counterexample).  All three diagnostics visit the in-bounds
corrupt header (bad magic, bogus size 9999) without applying the sanity
predicate: `freelist_total_free` adds its bogus size, `freelist_count`
counts it, and the dump reports it — refuting "re-validates every
visited header ... and refuses to trust an invalid header". -/
theorem C8_counterexample :
    ¬ header_is_sane badMagicPool (badMagicPool.mem badMagicPool.free_list)
      badMagicPool.free_list ∧
    freelist_total_free badMagicPool = 9999 ∧
    freelist_count badMagicPool 10 = some 1 ∧
    freelist_dump_entries badMagicPool = [(0, 9999, 1, POOL_NULL_OFFSET)] := by
  decide

/-- C8 (amended).  The diagnostics bound their walks only partially: the
dump visits at most 1000 nodes and `freelist_total_free` counts every
iteration (so it terminates even on the cyclic list, with the sentinel
value), and any value `freelist_count` returns is at most 100000; but
`freelist_count` increments its loop bound only on free-flagged nodes,
so on a cyclic list of in-bounds non-free headers it never returns, and
none of the three re-validates headers with the sanity predicate (see
the counterexample). -/
theorem C8_diagnostics_bounded :
    (∀ pool : MemoryPool, (freelist_dump_entries pool).length ≤ 1000) ∧
    (∀ (pool : MemoryPool) (fuel n : Nat), freelist_count pool fuel = some n → n ≤ 100000) ∧
    (∀ fuel : Nat, freelist_count cyclicUsedPool fuel = none) ∧
    freelist_total_free cyclicFreePool = 1600000 := by
  refine ⟨fun pool => freelist_dump_go_length pool 1000 pool.free_list,
    fun pool fuel n h => freelist_count_go_le pool fuel pool.free_list 0 n (by omega) h,
    fun fuel => freelist_count_cyclic_none fuel 0 (by omega),
    ?_⟩
  show freelist_total_free_go cyclicFreePool 100000 cyclicFreePool.free_list 0 = 1600000
  rw [show cyclicFreePool.free_list = 0 from rfl, freelist_total_free_cyclic]

/-- C8 (witness): the amended theorem applied to the corrupt-magic pool
and to the cyclic non-free list. -/
theorem C8_witness :
    (freelist_dump_entries badMagicPool).length ≤ 1000 ∧ (1 : Nat) ≤ 100000 ∧
    freelist_count cyclicUsedPool 5 = none :=
  ⟨C8_diagnostics_bounded.1 badMagicPool,
   C8_diagnostics_bounded.2.1 badMagicPool 10 1 (by decide),
   C8_diagnostics_bounded.2.2.1 5⟩

/-- C2 (counterexample).  `pool_init` over a `2^32 + 32`-byte buffer
succeeds but truncates the initial block size through `(uint32_t)`:
`free_space` becomes 16, so `allocated + free_space` (plus the one live
header) is far from the pool's usable payload capacity already at
initialization. -/
theorem C2_counterexample :
    pool_init zeroMem (2 ^ 32 + 32) = some bigInitPool ∧
    bigInitPool.allocated + bigInitPool.free_space + HEADER_SIZE * 1 ≠ bigInitPool.pool_size ∧
    bigInitPool.allocated + bigInitPool.free_space ≠ bigInitPool.pool_size - HEADER_SIZE :=
  ⟨rfl, by decide, by decide⟩

/-! ## Further structural lemmas about the invariant -/

theorem clearFreeBit_not_free (f : Nat) : ¬ isFreeFlag (clearFreeBit f) := by
  unfold isFreeFlag clearFreeBit
  omega

theorem setFreeBit_free (f : Nat) : isFreeFlag (setFreeBit f) := by
  unfold isFreeFlag setFreeBit
  omega

theorem partSeg_congr_sane {p q : MemoryPool} (_hsz : q.pool_size = p.pool_size) :
    ∀ {bs : List Nat} {off stop : Nat},
      (∀ o ∈ bs, (q.mem o).size = (p.mem o).size ∧ header_is_sane q (q.mem o) o) →
      partSeg p off bs stop → partSeg q off bs stop := by
  intro bs
  induction bs with
  | nil => intro off stop _ h; exact h
  | cons o rest ih =>
    intro off stop hmem h
    obtain ⟨ho, hs, hrest⟩ := h
    refine ⟨ho, (hmem o (by simp)).2, ?_⟩
    have heq : blockEnd q o = blockEnd p o := by
      unfold blockEnd; rw [(hmem o (by simp)).1]
    rw [heq]
    exact ih (fun x hx => hmem x (List.mem_cons_of_mem o hx)) hrest

theorem partSeg_pairwise {p : MemoryPool} :
    ∀ {bs : List Nat} {off stop : Nat}, partSeg p off bs stop →
      List.Pairwise (fun a b => blockEnd p a ≤ b) bs := by
  intro bs
  induction bs with
  | nil => intro _ _ _; exact List.Pairwise.nil
  | cons o rest ih =>
    intro off stop h
    obtain ⟨ho, hs, hrest⟩ := h
    refine List.Pairwise.cons ?_ (ih hrest)
    intro b hb
    exact (partSeg_mem_range hrest hb).1

theorem partSeg_lt_of_pairwise {p : MemoryPool} {bs : List Nat} {off stop : Nat}
    (h : partSeg p off bs stop) : List.Pairwise (· < ·) bs := by
  refine List.Pairwise.imp_of_mem ?_ (partSeg_pairwise h)
  intro a b ha hb hab
  obtain ⟨_, _, hs16, _, _⟩ := partSeg_mem_sane h ha
  unfold blockEnd HEADER_SIZE MIN_ALLOC_SIZE at *
  omega

theorem sumSizes_filter_split (p : MemoryPool) :
    ∀ bs : List Nat,
      sumSizes p (freeBlocks p bs) + sumSizes p (usedBlocks p bs) = sumSizes p bs := by
  intro bs
  induction bs with
  | nil => rfl
  | cons o rest ih =>
    unfold freeBlocks usedBlocks at *
    by_cases h : isFreeH p o
    · have h1 : (o :: rest).filter (fun o => decide (isFreeH p o)) =
          o :: rest.filter (fun o => decide (isFreeH p o)) :=
        List.filter_cons_of_pos (by simpa using h)
      have h2 : (o :: rest).filter (fun o => ! decide (isFreeH p o)) =
          rest.filter (fun o => ! decide (isFreeH p o)) :=
        List.filter_cons_of_neg (by simpa using h)
      rw [h1, h2]
      unfold sumSizes at *
      simp only [List.map_cons, List.sum_cons]
      omega
    · have h1 : (o :: rest).filter (fun o => decide (isFreeH p o)) =
          rest.filter (fun o => decide (isFreeH p o)) :=
        List.filter_cons_of_neg (by simpa using h)
      have h2 : (o :: rest).filter (fun o => ! decide (isFreeH p o)) =
          o :: rest.filter (fun o => ! decide (isFreeH p o)) :=
        List.filter_cons_of_pos (by simpa using h)
      rw [h1, h2]
      unfold sumSizes at *
      simp only [List.map_cons, List.sum_cons]
      omega

theorem InvWith.sum_eq {pool : MemoryPool} {bs : List Nat} (h : InvWith pool bs) :
    pool.allocated + pool.free_space + HEADER_SIZE * bs.length = pool.pool_size := by
  obtain ⟨_, _, hpart, _, halloc, hfree, _⟩ := h
  have hsum := partSeg_sum hpart
  have hsplit := sumSizes_filter_split pool bs
  omega

theorem InvWith.free_le {pool : MemoryPool} {bs : List Nat} (h : InvWith pool bs) :
    pool.free_space ≤ pool.pool_size ∧ pool.allocated ≤ pool.pool_size := by
  have := h.sum_eq
  omega

theorem InvWith.mem_sane {pool : MemoryPool} {bs : List Nat} (h : InvWith pool bs)
    {o : Nat} (ho : o ∈ bs) : header_is_sane pool (pool.mem o) o := by
  obtain ⟨_, _, hpart, _, _, _, _⟩ := h
  exact partSeg_mem_sane hpart ho

theorem freeBlocks_sublist (pool : MemoryPool) (bs : List Nat) :
    ∀ o ∈ freeBlocks pool bs, o ∈ bs ∧ isFreeH pool o := by
  intro o ho
  unfold freeBlocks at ho
  have := List.mem_filter.mp ho
  exact ⟨this.1, by simpa using this.2⟩

theorem usedBlocks_sublist (pool : MemoryPool) (bs : List Nat) :
    ∀ o ∈ usedBlocks pool bs, o ∈ bs ∧ ¬ isFreeH pool o := by
  intro o ho
  unfold usedBlocks at ho
  have := List.mem_filter.mp ho
  exact ⟨this.1, by simpa using this.2⟩

/-- The walk of `freelist_total_free` along a well-formed chain of
fetchable free nodes sums exactly their sizes. -/
theorem totalFree_go_chain {pool : MemoryPool} :
    ∀ (fs : List Nat) (rem head acc : Nat),
      chainTo pool head fs POOL_NULL_OFFSET →
      (∀ o ∈ fs, o ≠ POOL_NULL_OFFSET ∧ (o + HEADER_SIZE) % U32 ≤ pool.pool_size ∧
        isFreeH pool o) →
      fs.length ≤ rem →
      freelist_total_free_go pool rem head acc = acc + sumSizes pool fs := by
  intro fs
  induction fs with
  | nil =>
    intro rem head acc hchain _ _
    unfold chainTo at hchain
    subst hchain
    cases rem with
    | zero => simp [freelist_total_free_go, sumSizes]
    | succ rem => simp [freelist_total_free_go, sumSizes]
  | cons o rest ih =>
    intro rem head acc hchain hmem hlen
    obtain ⟨heq, hrest⟩ := hchain
    subst heq
    obtain ⟨hne, hb, hfree⟩ := hmem head (by simp)
    cases rem with
    | zero => simp at hlen
    | succ rem =>
      unfold freelist_total_free_go
      rw [if_neg hne]
      have hf : hdr_from_offset pool head = some (pool.mem head) := by
        unfold hdr_from_offset
        rw [if_neg]
        push_neg
        exact ⟨hne, by omega⟩
      simp only [hf]
      unfold isFreeH at hfree
      rw [if_pos hfree]
      rw [ih rem (pool.mem head).next (acc + (pool.mem head).size) hrest
        (fun x hx => hmem x (by simp [hx])) (by simpa using hlen)]
      unfold sumSizes
      simp only [List.map_cons, List.sum_cons]
      omega

/-- Core of C1: on an uncorrupted pool whose free list has at most
100000 nodes, `freelist_total_free` equals the `free_space` counter. -/
theorem totalFree_eq_free_space {pool : MemoryPool} {bs : List Nat}
    (h : InvWith pool bs) (hlen : (freeBlocks pool bs).length ≤ 100000) :
    freelist_total_free pool = pool.free_space := by
  obtain ⟨_, hpsU, hpart, hchain, _, hfree, _⟩ := h
  unfold freelist_total_free
  rw [totalFree_go_chain (freeBlocks pool bs) 100000 pool.free_list 0 hchain ?_ hlen]
  · omega
  · intro o ho
    obtain ⟨hobs, hof⟩ := freeBlocks_sublist pool bs o ho
    obtain ⟨_, _, hs16, hend, _⟩ := partSeg_mem_sane hpart hobs
    have hoU : o + HEADER_SIZE ≤ pool.pool_size := by
      unfold HEADER_SIZE MIN_ALLOC_SIZE at *
      omega
    refine ⟨?_, ?_, hof⟩
    · unfold POOL_NULL_OFFSET
      unfold HEADER_SIZE U32 at *
      omega
    · rw [Nat.mod_eq_of_lt (by unfold HEADER_SIZE U32 at *; omega)]
      exact hoU

/-- An uncorrupted one-block pool: the shape `pool_init` produces. -/
theorem invWith_single {ps fsz : Nat} {m : Nat → BlockHeader}
    (hps8 : ps % POOL_ALIGNMENT = 0) (hpsU : ps + 32 ≤ U32) (hps32 : 32 ≤ ps)
    (hm : m 0 = { magic := POOL_MAGIC, size := fsz, next := POOL_NULL_OFFSET, flags := FLAG_FREE })
    (hfsz : fsz = ps - HEADER_SIZE) :
    InvWith { pool_size := ps, mem := m, free_list := 0, allocated := 0, free_space := fsz } [0] := by
  have hfree :
      isFreeH { pool_size := ps, mem := m, free_list := 0, allocated := 0, free_space := fsz } 0 := by
    unfold isFreeH isFreeFlag
    simp only [hm]
    rfl
  refine ⟨hps8, hpsU, ?_, ?_, ?_, ?_, ?_⟩
  · refine ⟨rfl, ?_, ?_⟩
    · simp only [hm]
      refine ⟨rfl, by norm_num, ?_, ?_, Or.inl rfl⟩
      · show MIN_ALLOC_SIZE ≤ fsz
        unfold MIN_ALLOC_SIZE HEADER_SIZE at *
        omega
      · show 0 + HEADER_SIZE + fsz ≤ ps
        unfold HEADER_SIZE at *
        omega
    · show partSeg _ (blockEnd _ 0) [] ps
      unfold partSeg blockEnd
      simp only [hm]
      show 0 + HEADER_SIZE + fsz = ps
      unfold HEADER_SIZE at *
      omega
  · show chainTo _ 0 (freeBlocks _ [0]) POOL_NULL_OFFSET
    unfold freeBlocks
    rw [List.filter_cons_of_pos (by simpa using hfree)]
    refine ⟨rfl, ?_⟩
    show chainTo _ (m 0).next [] POOL_NULL_OFFSET
    unfold chainTo
    simp only [hm]
  · show (0 : Nat) = sumSizes _ (usedBlocks _ [0])
    unfold usedBlocks
    rw [List.filter_cons_of_neg (by simpa using hfree)]
    rfl
  · show fsz = sumSizes _ (freeBlocks _ [0])
    unfold freeBlocks
    rw [List.filter_cons_of_pos (by simpa using hfree)]
    unfold sumSizes
    simp [hm]
  · show noAdjFree _ [0]
    unfold noAdjFree
    simp

/-- `pool_init` over a not-too-large buffer establishes the uncorrupted
invariant with a single free block. -/
theorem pool_init_inv {mem0 : Nat → BlockHeader} {size : Nat} {pool : MemoryPool}
    (hsz : size + 32 ≤ U32) (h : pool_init mem0 size = some pool) :
    InvWith pool [0] ∧ pool.allocated = 0 ∧
    pool.free_space = pool.pool_size - HEADER_SIZE ∧ pool.free_list = 0 := by
  unfold pool_init at h
  by_cases hc : size / POOL_ALIGNMENT * POOL_ALIGNMENT < HEADER_SIZE + MIN_ALLOC_SIZE
  · rw [if_pos hc] at h; cases h
  · rw [if_neg hc] at h
    have husable : size / POOL_ALIGNMENT * POOL_ALIGNMENT ≤ size :=
      Nat.div_mul_le_self size POOL_ALIGNMENT
    cases h
    push_neg at hc
    have hfs : (size / POOL_ALIGNMENT * POOL_ALIGNMENT - HEADER_SIZE) % U32 =
        size / POOL_ALIGNMENT * POOL_ALIGNMENT - HEADER_SIZE := by
      apply Nat.mod_eq_of_lt
      unfold HEADER_SIZE U32 at *
      omega
    refine ⟨?_, rfl, hfs, rfl⟩
    refine invWith_single ?_ ?_ ?_ ?_ ?_
    · exact Nat.mul_mod_left _ _
    · omega
    · unfold HEADER_SIZE MIN_ALLOC_SIZE at hc
      omega
    · exact Function.update_same _ _ _
    · exact hfs

/-! ## Computation of the matched branch of the allocator -/

theorem filter_split {α : Type} (p : α → Bool) :
    ∀ {l : List α} {d : List α} {f : α} {r : List α}, l.filter p = d ++ f :: r →
      ∃ u v, l = u ++ f :: v ∧ u.filter p = d ∧ v.filter p = r := by
  intro l
  induction l with
  | nil => intro d f r h; simp at h
  | cons a t ih =>
    intro d f r h
    by_cases hp : p a
    · rw [List.filter_cons_of_pos hp] at h
      cases d with
      | nil =>
        simp only [List.nil_append, List.cons.injEq] at h
        exact ⟨[], t, by simp [h.1], by simp, h.2⟩
      | cons d0 d' =>
        simp only [List.cons_append, List.cons.injEq] at h
        obtain ⟨heq, ht⟩ := h
        subst heq
        obtain ⟨u, v, rfl, hu, hv⟩ := ih ht
        exact ⟨a :: u, v, rfl, by rw [List.filter_cons_of_pos hp, hu], hv⟩
    · rw [List.filter_cons_of_neg hp] at h
      obtain ⟨u, v, rfl, hu, hv⟩ := ih h
      exact ⟨a :: u, v, rfl, by rw [List.filter_cons_of_neg hp, hu], hv⟩

theorem alloc_finish_eq_null (pool1 : MemoryPool) (replacement cur_off : Nat) :
    alloc_finish pool1 replacement POOL_NULL_OFFSET cur_off =
      .success { pool_size := pool1.pool_size,
                 mem := Function.update pool1.mem cur_off
                   { (pool1.mem cur_off) with
                     flags := clearFreeBit (pool1.mem cur_off).flags,
                     next := POOL_NULL_OFFSET },
                 free_list := replacement,
                 allocated := add64 pool1.allocated (pool1.mem cur_off).size,
                 free_space := pool1.free_space } (cur_off + HEADER_SIZE) := by
  unfold alloc_finish
  rw [if_pos rfl]
  simp [Function.update_same]

theorem alloc_finish_eq_prev (pool1 : MemoryPool) (replacement prev_off cur_off : Nat)
    (hne : prev_off ≠ POOL_NULL_OFFSET) (hnec : prev_off ≠ cur_off)
    (hb : (prev_off + HEADER_SIZE) % U32 ≤ pool1.pool_size)
    (hs : header_is_sane pool1 (pool1.mem prev_off) prev_off) :
    alloc_finish pool1 replacement prev_off cur_off =
      .success { pool_size := pool1.pool_size,
                 mem := Function.update
                   (Function.update pool1.mem cur_off
                     { (pool1.mem cur_off) with
                       flags := clearFreeBit (pool1.mem cur_off).flags,
                       next := POOL_NULL_OFFSET }) prev_off
                   { (pool1.mem prev_off) with next := replacement },
                 free_list := pool1.free_list,
                 allocated := add64 pool1.allocated (pool1.mem cur_off).size,
                 free_space := pool1.free_space } (cur_off + HEADER_SIZE) := by
  have hmemprev : Function.update pool1.mem cur_off
      { (pool1.mem cur_off) with
        flags := clearFreeBit (pool1.mem cur_off).flags,
        next := POOL_NULL_OFFSET } prev_off = pool1.mem prev_off :=
    Function.update_noteq hnec _ _
  have hb' : ¬ pool1.pool_size < (prev_off + HEADER_SIZE) % U32 := not_lt.mpr hb
  have hs' := sane_congr (p := pool1) (q := { pool1 with
    mem := Function.update pool1.mem cur_off
      { (pool1.mem cur_off) with
        flags := clearFreeBit (pool1.mem cur_off).flags,
        next := POOL_NULL_OFFSET } }) rfl (hmemprev.symm ▸ hs)
  simp [alloc_finish, hdr_from_offset, hne, hb', hs', hmemprev,
    Function.update_noteq (Ne.symm hnec), Function.update_same]
  exact sane_congr rfl hs

theorem freeBlocks_append (pool : MemoryPool) (l1 l2 : List Nat) :
    freeBlocks pool (l1 ++ l2) = freeBlocks pool l1 ++ freeBlocks pool l2 := by
  unfold freeBlocks
  simp [List.filter_append]

theorem usedBlocks_append (pool : MemoryPool) (l1 l2 : List Nat) :
    usedBlocks pool (l1 ++ l2) = usedBlocks pool l1 ++ usedBlocks pool l2 := by
  unfold usedBlocks
  simp [List.filter_append]

theorem freeBlocks_cons_pos {pool : MemoryPool} {o : Nat} (l : List Nat)
    (h : isFreeH pool o) : freeBlocks pool (o :: l) = o :: freeBlocks pool l := by
  unfold freeBlocks
  exact List.filter_cons_of_pos (by simpa using h)

theorem freeBlocks_cons_neg {pool : MemoryPool} {o : Nat} (l : List Nat)
    (h : ¬ isFreeH pool o) : freeBlocks pool (o :: l) = freeBlocks pool l := by
  unfold freeBlocks
  exact List.filter_cons_of_neg (by simpa using h)

theorem usedBlocks_cons_pos {pool : MemoryPool} {o : Nat} (l : List Nat)
    (h : ¬ isFreeH pool o) : usedBlocks pool (o :: l) = o :: usedBlocks pool l := by
  unfold usedBlocks
  exact List.filter_cons_of_pos (by simpa using h)

theorem usedBlocks_cons_neg {pool : MemoryPool} {o : Nat} (l : List Nat)
    (h : isFreeH pool o) : usedBlocks pool (o :: l) = usedBlocks pool l := by
  unfold usedBlocks
  exact List.filter_cons_of_neg (by simpa using h)

/-- Rebuilding the invariant after granting the whole matched block `f`
(no split): the caller supplies the new state's counters, the header
facts at and off `f`, and the relinked chain. -/
theorem alloc_nosplit_core {pool : MemoryPool} {u v : List Nat} {f : Nat}
    (hinv : InvWith pool (u ++ f :: v)) (hfreef : isFreeH pool f)
    {p' : MemoryPool}
    (hps' : p'.pool_size = pool.pool_size)
    (halloc' : p'.allocated = pool.allocated + (pool.mem f).size)
    (hfs' : p'.free_space = pool.free_space - (pool.mem f).size)
    (hszf : (p'.mem f).size = (pool.mem f).size)
    (hnotfree : ¬ isFreeH p' f)
    (hsanef : header_is_sane p' (p'.mem f) f)
    (hother : ∀ o ∈ u ++ f :: v, o ≠ f →
      (p'.mem o).size = (pool.mem o).size ∧ (p'.mem o).flags = (pool.mem o).flags ∧
      header_is_sane p' (p'.mem o) o)
    (hchain' : chainTo p' p'.free_list (freeBlocks pool u ++ freeBlocks pool v)
      POOL_NULL_OFFSET) :
    InvWith p' (u ++ f :: v) ∧
    p'.free_space = pool.free_space - (pool.mem f).size ∧
    p'.allocated = pool.allocated + (pool.mem f).size := by
  obtain ⟨hps8, hpsU, hpart, hchain, halloc, hfree, hnoadj⟩ := hinv
  have hlt := partSeg_lt_of_pairwise hpart
  have hmemne : ∀ o ∈ u ++ f :: v, o ≠ f → True := fun _ _ _ => trivial
  have hune : ∀ o ∈ u, o ≠ f := by
    intro o ho
    have := (List.pairwise_append.mp hlt).2.2 o ho f (by simp)
    omega
  have hvne : ∀ o ∈ v, o ≠ f := by
    intro o ho
    have hp2 := (List.pairwise_append.mp hlt).2.1
    have := (List.pairwise_cons.mp hp2).1 o ho
    omega
  -- free/used status transfer off f
  have hstat : ∀ o ∈ u ++ f :: v, o ≠ f → (isFreeH p' o ↔ isFreeH pool o) := by
    intro o ho hne
    obtain ⟨_, hfl, _⟩ := hother o ho hne
    unfold isFreeH isFreeFlag
    rw [hfl]
  have hfu : freeBlocks p' u = freeBlocks pool u :=
    freeBlocks_congr fun o ho => hstat o (by simp [ho]) (hune o ho)
  have hfv : freeBlocks p' v = freeBlocks pool v :=
    freeBlocks_congr fun o ho => hstat o (by simp [ho]) (hvne o ho)
  have huu : usedBlocks p' u = usedBlocks pool u :=
    usedBlocks_congr fun o ho => hstat o (by simp [ho]) (hune o ho)
  have huv : usedBlocks p' v = usedBlocks pool v :=
    usedBlocks_congr fun o ho => hstat o (by simp [ho]) (hvne o ho)
  have hsz : ∀ o ∈ u ++ f :: v, (p'.mem o).size = (pool.mem o).size := by
    intro o ho
    by_cases hne : o = f
    · subst hne; exact hszf
    · exact (hother o ho hne).1
  have hfreeList' : freeBlocks p' (u ++ f :: v) = freeBlocks pool u ++ freeBlocks pool v := by
    rw [freeBlocks_append, freeBlocks_cons_neg _ hnotfree, hfu, hfv]
  have husedList' : usedBlocks p' (u ++ f :: v) =
      usedBlocks pool u ++ f :: usedBlocks pool v := by
    rw [usedBlocks_append, usedBlocks_cons_pos _ hnotfree, huu, huv]
  have hfreeList : freeBlocks pool (u ++ f :: v) =
      freeBlocks pool u ++ f :: freeBlocks pool v := by
    rw [freeBlocks_append, freeBlocks_cons_pos _ hfreef]
  have husedList : usedBlocks pool (u ++ f :: v) =
      usedBlocks pool u ++ usedBlocks pool v := by
    rw [usedBlocks_append, usedBlocks_cons_neg _ hfreef]
  have hsum_eq : pool.allocated + pool.free_space + HEADER_SIZE * (u ++ f :: v).length =
      pool.pool_size := by
    have hsum := partSeg_sum hpart
    have hsplit := sumSizes_filter_split pool (u ++ f :: v)
    omega
  -- sizes sums transfer
  have hsumu : sumSizes p' (usedBlocks pool u) = sumSizes pool (usedBlocks pool u) :=
    sumSizes_congr fun o ho => hsz o (by simp [(usedBlocks_sublist pool u o ho).1])
  have hsumv : sumSizes p' (usedBlocks pool v) = sumSizes pool (usedBlocks pool v) :=
    sumSizes_congr fun o ho => hsz o (by simp [(usedBlocks_sublist pool v o ho).1])
  have hsumfu : sumSizes p' (freeBlocks pool u) = sumSizes pool (freeBlocks pool u) :=
    sumSizes_congr fun o ho => hsz o (by simp [(freeBlocks_sublist pool u o ho).1])
  have hsumfv : sumSizes p' (freeBlocks pool v) = sumSizes pool (freeBlocks pool v) :=
    sumSizes_congr fun o ho => hsz o (by simp [(freeBlocks_sublist pool v o ho).1])
  refine ⟨⟨?_, ?_, ?_, ?_, ?_, ?_, ?_⟩, hfs', halloc'⟩
  · rw [hps']; exact hps8
  · rw [hps']; exact hpsU
  · show partSeg p' 0 (u ++ f :: v) p'.pool_size
    rw [hps']
    refine partSeg_congr_sane hps' ?_ hpart
    intro o ho
    by_cases hne : o = f
    · subst hne; exact ⟨hszf, hsanef⟩
    · exact ⟨(hother o ho hne).1, (hother o ho hne).2.2⟩
  · rw [hfreeList']
    exact hchain'
  · rw [husedList', halloc', halloc, husedList]
    unfold sumSizes at *
    simp only [List.map_append, List.sum_append, List.map_cons, List.sum_cons]
    rw [show (List.map (fun o => (p'.mem o).size) (usedBlocks pool u)).sum =
        (List.map (fun o => (pool.mem o).size) (usedBlocks pool u)).sum from hsumu,
      show (List.map (fun o => (p'.mem o).size) (usedBlocks pool v)).sum =
        (List.map (fun o => (pool.mem o).size) (usedBlocks pool v)).sum from hsumv,
      hszf]
    omega
  · rw [hfreeList', hfs', hfree, hfreeList]
    unfold sumSizes at *
    simp only [List.map_append, List.sum_append, List.map_cons, List.sum_cons]
    rw [show (List.map (fun o => (p'.mem o).size) (freeBlocks pool u)).sum =
        (List.map (fun o => (pool.mem o).size) (freeBlocks pool u)).sum from hsumfu,
      show (List.map (fun o => (p'.mem o).size) (freeBlocks pool v)).sum =
        (List.map (fun o => (pool.mem o).size) (freeBlocks pool v)).sum from hsumfv]
    omega
  · refine noAdjFree_mono ?_ hnoadj
    intro o ho hfo
    by_cases hne : o = f
    · subst hne; exact absurd hfo hnotfree
    · exact (hstat o ho hne).mp hfo

theorem chain'_imp_mem {α : Type} {R S : α → α → Prop} :
    ∀ {l : List α}, (∀ a b, a ∈ l → b ∈ l → R a b → S a b) →
      List.Chain' R l → List.Chain' S l := by
  intro l
  induction l with
  | nil => intro _ _; simp
  | cons a t ih =>
    intro h hc
    rw [List.chain'_cons'] at hc ⊢
    refine ⟨?_, ?_⟩
    · intro y hy
      have hyt : y ∈ t := by
        cases t with
        | nil => simp at hy
        | cons b r =>
          simp only [List.head?_cons, Option.mem_def, Option.some.injEq] at hy
          subst hy
          simp
      exact h a y (by simp) (by simp [hyt]) (hc.1 y hy)
    · exact ih (fun x y hx hy => h x y (by simp [hx]) (by simp [hy])) hc.2

/-- Rebuilding the invariant after splitting the matched block `f` into a
granted block of `request` bytes and a free remainder at
`f + HEADER_SIZE + request`. -/
theorem alloc_split_core {pool : MemoryPool} {u v : List Nat} {f request : Nat}
    (hinv : InvWith pool (u ++ f :: v)) (hfreef : isFreeH pool f)
    (hSfit : request + HEADER_SIZE + MIN_ALLOC_SIZE ≤ (pool.mem f).size)
    {p' : MemoryPool}
    (hps' : p'.pool_size = pool.pool_size)
    (halloc' : p'.allocated = pool.allocated + request)
    (hfs' : p'.free_space = pool.free_space - (request + HEADER_SIZE))
    (hszf : (p'.mem f).size = request)
    (hnotfree : ¬ isFreeH p' f)
    (hsanef : header_is_sane p' (p'.mem f) f)
    (hszn : (p'.mem (f + HEADER_SIZE + request)).size =
      (pool.mem f).size - request - HEADER_SIZE)
    (hfreen : isFreeH p' (f + HEADER_SIZE + request))
    (hsanen : header_is_sane p' (p'.mem (f + HEADER_SIZE + request)) (f + HEADER_SIZE + request))
    (hother : ∀ o ∈ u ++ f :: v, o ≠ f →
      (p'.mem o).size = (pool.mem o).size ∧ (p'.mem o).flags = (pool.mem o).flags ∧
      header_is_sane p' (p'.mem o) o)
    (hchain' : chainTo p' p'.free_list
      (freeBlocks pool u ++ (f + HEADER_SIZE + request) :: freeBlocks pool v)
      POOL_NULL_OFFSET) :
    InvWith p' (u ++ f :: (f + HEADER_SIZE + request) :: v) := by
  obtain ⟨hps8, hpsU, hpart, hchain, halloc, hfree, hnoadj⟩ := hinv
  have hlt := partSeg_lt_of_pairwise hpart
  have hune : ∀ o ∈ u, o ≠ f := by
    intro o ho
    have := (List.pairwise_append.mp hlt).2.2 o ho f (by simp)
    omega
  have hvne : ∀ o ∈ v, o ≠ f := by
    intro o ho
    have hp2 := (List.pairwise_append.mp hlt).2.1
    have := (List.pairwise_cons.mp hp2).1 o ho
    omega
  have hstat : ∀ o ∈ u ++ f :: v, o ≠ f → (isFreeH p' o ↔ isFreeH pool o) := by
    intro o ho hne
    obtain ⟨_, hfl, _⟩ := hother o ho hne
    unfold isFreeH isFreeFlag
    rw [hfl]
  have hfu : freeBlocks p' u = freeBlocks pool u :=
    freeBlocks_congr fun o ho => hstat o (by simp [ho]) (hune o ho)
  have hfv : freeBlocks p' v = freeBlocks pool v :=
    freeBlocks_congr fun o ho => hstat o (by simp [ho]) (hvne o ho)
  have huu : usedBlocks p' u = usedBlocks pool u :=
    usedBlocks_congr fun o ho => hstat o (by simp [ho]) (hune o ho)
  have huv : usedBlocks p' v = usedBlocks pool v :=
    usedBlocks_congr fun o ho => hstat o (by simp [ho]) (hvne o ho)
  have hsz : ∀ o ∈ u ++ f :: v, o ≠ f → (p'.mem o).size = (pool.mem o).size :=
    fun o ho hne => (hother o ho hne).1
  -- decompose the partition at f
  obtain ⟨mid, hpu, hpfv⟩ := partSeg_append_split hpart
  obtain ⟨hfmid, hsanePf, hpv⟩ := hpfv
  have hsum := partSeg_sum hpart
  have hsplitsum := sumSizes_filter_split pool (u ++ f :: v)
  refine ⟨?_, ?_, ?_, ?_, ?_, ?_, ?_⟩
  · rw [hps']; exact hps8
  · rw [hps']; exact hpsU
  · show partSeg p' 0 (u ++ f :: (f + HEADER_SIZE + request) :: v) p'.pool_size
    rw [hps']
    refine partSeg_append (partSeg_congr_sane hps' ?_ hpu) ?_
    · intro o ho
      exact ⟨hsz o (by simp [ho]) (hune o ho), (hother o (by simp [ho]) (hune o ho)).2.2⟩
    · refine ⟨hfmid, hsanef, ?_⟩
      have hbe : blockEnd p' f = f + HEADER_SIZE + request := by
        unfold blockEnd; rw [hszf]
      rw [hbe]
      refine ⟨rfl, hsanen, ?_⟩
      have hbe2 : blockEnd p' (f + HEADER_SIZE + request) = blockEnd pool f := by
        unfold blockEnd
        rw [hszn]
        unfold HEADER_SIZE MIN_ALLOC_SIZE at *
        omega
      rw [hbe2]
      refine partSeg_congr_sane hps' ?_ hpv
      intro o ho
      exact ⟨hsz o (by simp [ho]) (hvne o ho), (hother o (by simp [ho]) (hvne o ho)).2.2⟩
  · show chainTo p' p'.free_list
      (freeBlocks p' (u ++ f :: (f + HEADER_SIZE + request) :: v)) POOL_NULL_OFFSET
    rw [freeBlocks_append, freeBlocks_cons_neg _ hnotfree, freeBlocks_cons_pos _ hfreen,
      hfu, hfv]
    exact hchain'
  · show p'.allocated = sumSizes p' (usedBlocks p' (u ++ f :: (f + HEADER_SIZE + request) :: v))
    rw [usedBlocks_append, usedBlocks_cons_pos _ hnotfree, usedBlocks_cons_neg _ hfreen,
      huu, huv, halloc', halloc, usedBlocks_append, usedBlocks_cons_neg _ hfreef]
    have hsumu : sumSizes p' (usedBlocks pool u) = sumSizes pool (usedBlocks pool u) :=
      sumSizes_congr fun o ho => hsz o (by simp [(usedBlocks_sublist pool u o ho).1])
        (hune o (usedBlocks_sublist pool u o ho).1)
    have hsumv : sumSizes p' (usedBlocks pool v) = sumSizes pool (usedBlocks pool v) :=
      sumSizes_congr fun o ho => hsz o (by simp [(usedBlocks_sublist pool v o ho).1])
        (hvne o (usedBlocks_sublist pool v o ho).1)
    unfold sumSizes at *
    simp only [List.map_append, List.sum_append, List.map_cons, List.sum_cons]
    rw [show (List.map (fun o => (p'.mem o).size) (usedBlocks pool u)).sum =
        (List.map (fun o => (pool.mem o).size) (usedBlocks pool u)).sum from hsumu,
      show (List.map (fun o => (p'.mem o).size) (usedBlocks pool v)).sum =
        (List.map (fun o => (pool.mem o).size) (usedBlocks pool v)).sum from hsumv,
      hszf]
    omega
  · show p'.free_space = sumSizes p' (freeBlocks p' (u ++ f :: (f + HEADER_SIZE + request) :: v))
    rw [freeBlocks_append, freeBlocks_cons_neg _ hnotfree, freeBlocks_cons_pos _ hfreen,
      hfu, hfv, hfs', hfree, freeBlocks_append, freeBlocks_cons_pos _ hfreef]
    have hsumfu : sumSizes p' (freeBlocks pool u) = sumSizes pool (freeBlocks pool u) :=
      sumSizes_congr fun o ho => hsz o (by simp [(freeBlocks_sublist pool u o ho).1])
        (hune o (freeBlocks_sublist pool u o ho).1)
    have hsumfv : sumSizes p' (freeBlocks pool v) = sumSizes pool (freeBlocks pool v) :=
      sumSizes_congr fun o ho => hsz o (by simp [(freeBlocks_sublist pool v o ho).1])
        (hvne o (freeBlocks_sublist pool v o ho).1)
    unfold sumSizes at *
    simp only [List.map_append, List.sum_append, List.map_cons, List.sum_cons]
    rw [show (List.map (fun o => (p'.mem o).size) (freeBlocks pool u)).sum =
        (List.map (fun o => (pool.mem o).size) (freeBlocks pool u)).sum from hsumfu,
      show (List.map (fun o => (p'.mem o).size) (freeBlocks pool v)).sum =
        (List.map (fun o => (pool.mem o).size) (freeBlocks pool v)).sum from hsumfv,
      hszn]
    unfold HEADER_SIZE MIN_ALLOC_SIZE at *
    omega
  · show noAdjFree p' (u ++ f :: (f + HEADER_SIZE + request) :: v)
    unfold noAdjFree at *
    rw [List.chain'_append] at hnoadj
    obtain ⟨hnu, hnfv, hlink⟩ := hnoadj
    rw [List.chain'_append]
    refine ⟨?_, ?_, ?_⟩
    · refine chain'_imp_mem ?_ hnu
      intro a b ha hb hR hab
      exact hR ⟨(hstat a (by simp [ha]) (hune a ha)).mp hab.1,
        (hstat b (by simp [hb]) (hune b hb)).mp hab.2⟩
    · rw [List.chain'_cons']
      refine ⟨?_, ?_⟩
      · intro y _ hy
        exact absurd hy.1 hnotfree
      · rw [List.chain'_cons']
        refine ⟨?_, ?_⟩
        · intro y hy hfree2
          -- y is the head of v; it was not free because f was free next to it
          rw [List.chain'_cons'] at hnfv
          cases v with
          | nil => simp at hy
          | cons v0 v' =>
            simp only [List.head?_cons, Option.mem_def, Option.some.injEq] at hy
            subst hy
            refine hnfv.1 v0 (by simp) ⟨hfreef, ?_⟩
            exact (hstat v0 (by simp) (hvne v0 (by simp))).mp hfree2.2
        · rw [List.chain'_cons'] at hnfv
          refine chain'_imp_mem ?_ hnfv.2
          intro a b ha hb hR hab
          exact hR ⟨(hstat a (by simp [ha]) (hvne a ha)).mp hab.1,
            (hstat b (by simp [hb]) (hvne b hb)).mp hab.2⟩
    · intro x hx y hy
      rw [List.head?_cons, Option.mem_def, Option.some.injEq] at hy
      subst hy
      intro hab
      exact hnotfree hab.2

theorem alloc_match_eq_nosplit {pool : MemoryPool} {request prev_off cur_off : Nat}
    {cur : BlockHeader}
    (hc : ¬ (request + HEADER_SIZE + MIN_ALLOC_SIZE) % U32 ≤ cur.size) :
    alloc_match pool request prev_off cur_off cur =
      alloc_finish { pool with free_space := sub64 pool.free_space cur.size }
        cur.next prev_off cur_off := by
  simp only [alloc_match]
  rw [if_neg hc]

theorem alloc_match_eq_split {pool : MemoryPool} {request prev_off cur_off : Nat}
    {cur : BlockHeader} {w : BlockHeader}
    (hc : (request + HEADER_SIZE + MIN_ALLOC_SIZE) % U32 ≤ cur.size)
    (hfetch : hdr_from_offset pool ((cur_off + HEADER_SIZE + request) % U32) = some w) :
    alloc_match pool request prev_off cur_off cur =
      alloc_finish { pool with
        mem := Function.update
          (Function.update pool.mem ((cur_off + HEADER_SIZE + request) % U32)
            { magic := POOL_MAGIC, size := sub32 (sub32 cur.size request) HEADER_SIZE,
              next := cur.next, flags := FLAG_FREE })
          cur_off
          { (Function.update pool.mem ((cur_off + HEADER_SIZE + request) % U32)
              { magic := POOL_MAGIC, size := sub32 (sub32 cur.size request) HEADER_SIZE,
                next := cur.next, flags := FLAG_FREE } cur_off) with
            size := request },
        free_space := sub64 (sub64 pool.free_space request) HEADER_SIZE }
        ((cur_off + HEADER_SIZE + request) % U32) prev_off cur_off := by
  simp only [alloc_match]
  rw [if_pos hc]
  simp only [hfetch]

theorem sumSizes_mem_le {pool : MemoryPool} : ∀ {l : List Nat} {o : Nat}, o ∈ l →
    (pool.mem o).size ≤ sumSizes pool l := by
  intro l
  induction l with
  | nil => intro o ho; cases ho
  | cons a t ih =>
    intro o ho
    unfold sumSizes at *
    simp only [List.map_cons, List.sum_cons]
    rcases List.mem_cons.mp ho with rfl | hot
    · omega
    · have := ih hot
      omega

theorem alloc_match_eq_split_f {pool : MemoryPool} {request prev_off f : Nat}
    {w : BlockHeader}
    (hc : (request + HEADER_SIZE + MIN_ALLOC_SIZE) % U32 ≤ (pool.mem f).size)
    (hfetch : hdr_from_offset pool ((f + HEADER_SIZE + request) % U32) = some w)
    (hNnw : (f + HEADER_SIZE + request) % U32 = f + HEADER_SIZE + request) :
    alloc_match pool request prev_off f (pool.mem f) =
      alloc_finish (splitState pool f request) (f + HEADER_SIZE + request)
        prev_off f := by
  rw [alloc_match_eq_split hc hfetch, hNnw]
  rfl

theorem alloc_match_spec {pool : MemoryPool} {bs : List Nat}
    (hinv : InvWith pool bs) {request prev_off f : Nat} {dn rs : List Nat}
    (hreq16 : MIN_ALLOC_SIZE ≤ request) (hreq8 : request % 8 = 0)
    (hfs : freeBlocks pool bs = dn ++ f :: rs)
    (hprevlink : (dn = [] ∧ prev_off = POOL_NULL_OFFSET) ∨ ∃ d', dn = d' ++ [prev_off])
    (hfit : request ≤ (pool.mem f).size) :
    ∃ p' po, alloc_match pool request prev_off f (pool.mem f) = .success p' po ∧
      AllocSuccessSpec pool bs request p' po := by
  obtain ⟨hps8, hpsU, hpart, hchain, halloc, hfree, hnoadj⟩ := hinv
  obtain ⟨u, v, hbs, hu, hv⟩ := filter_split _ hfs
  subst hbs
  have hfmem : f ∈ u ++ f :: v := by simp
  have hfreef : isFreeH pool f := by
    have hmem2 : f ∈ freeBlocks pool (u ++ f :: v) := by rw [hfs]; simp
    exact (freeBlocks_sublist _ _ f hmem2).2
  obtain ⟨hfm, hf8, hf16, hfend, hfnext⟩ := partSeg_mem_sane hpart hfmem
  have hlt := partSeg_lt_of_pairwise hpart
  have hltf : List.Pairwise (· < ·) (dn ++ f :: rs) := by
    rw [← hfs]
    exact List.Pairwise.sublist (by unfold freeBlocks; exact List.filter_sublist _) hlt
  have hcond : ((request + HEADER_SIZE + MIN_ALLOC_SIZE) % U32 ≤ (pool.mem f).size) ↔
      (request + HEADER_SIZE + MIN_ALLOC_SIZE ≤ (pool.mem f).size) := by
    rw [Nat.mod_eq_of_lt (by unfold HEADER_SIZE MIN_ALLOC_SIZE U32 at *; omega)]
  have hS_le_fs : (pool.mem f).size ≤ pool.free_space := by
    rw [hfree]
    exact sumSizes_mem_le (by rw [hfs]; simp)
  have hsum := partSeg_sum hpart
  have hsplitsum := sumSizes_filter_split pool (u ++ f :: v)
  have hfsU : pool.free_space < U64 := by
    unfold U64 U32 at *
    omega
  have hallocU : pool.allocated + (pool.mem f).size < U64 := by
    unfold U64 U32 at *
    omega
  have hinv' : InvWith pool (u ++ f :: v) :=
    ⟨hps8, hpsU, hpart, hchain, halloc, hfree, hnoadj⟩
  have hune : ∀ o ∈ u, o ≠ f := by
    intro o ho
    have := (List.pairwise_append.mp hlt).2.2 o ho f (by simp)
    omega
  have hvgt : ∀ o ∈ v, f + HEADER_SIZE + (pool.mem f).size ≤ o := by
    intro o ho
    obtain ⟨mid, hpu', hpf'⟩ := partSeg_append_split hpart
    obtain ⟨hfmid, _, hpv'⟩ := hpf'
    have := (partSeg_mem_range hpv' ho).1
    unfold blockEnd at this
    exact this
  have hvne : ∀ o ∈ v, o ≠ f := by
    intro o ho
    have := hvgt o ho
    unfold HEADER_SIZE MIN_ALLOC_SIZE at *
    omega
  by_cases hsplit : request + HEADER_SIZE + MIN_ALLOC_SIZE ≤ (pool.mem f).size
  · -- split branch: carve the remainder at f + HEADER_SIZE + request
    have hNnw : (f + HEADER_SIZE + request) % U32 = f + HEADER_SIZE + request := by
      apply Nat.mod_eq_of_lt
      have h1 := hfend
      have h2 := hpsU
      have h3 := hfit
      unfold HEADER_SIZE at h1 ⊢
      unfold U32 at h2 ⊢
      omega
    have hcondN : ¬ (f + HEADER_SIZE + request = POOL_NULL_OFFSET ∨
        pool.pool_size < (f + HEADER_SIZE + request + HEADER_SIZE) % U32) := by
      push_neg
      have h1 := hfend
      have h2 := hpsU
      have h3 := hsplit
      unfold HEADER_SIZE at h1 ⊢
      unfold HEADER_SIZE MIN_ALLOC_SIZE at h3
      unfold U32 at h2 ⊢
      unfold POOL_NULL_OFFSET
      constructor
      · omega
      · rw [Nat.mod_eq_of_lt (by omega)]
        omega
    have hfetch : hdr_from_offset pool ((f + HEADER_SIZE + request) % U32) =
        some (pool.mem (f + HEADER_SIZE + request)) := by
      unfold hdr_from_offset
      rw [hNnw, if_neg hcondN]
    have hSU : (pool.mem f).size < U32 := by
      have h1 := hfend
      have h2 := hpsU
      unfold HEADER_SIZE at h1
      unfold U32 at h2 ⊢
      omega
    have hsub32 : sub32 (sub32 (pool.mem f).size request) HEADER_SIZE =
        (pool.mem f).size - request - HEADER_SIZE := by
      have ha : HEADER_SIZE ≤ (pool.mem f).size - request := by
        have h1 := hsplit
        unfold HEADER_SIZE MIN_ALLOC_SIZE at h1
        unfold HEADER_SIZE
        omega
      have hb2 : (pool.mem f).size - request < U32 := by
        have := hSU
        omega
      rw [sub32_eq_sub hfit hSU, sub32_eq_sub ha hb2]
    have hreq_le_fs : request ≤ pool.free_space := le_trans hfit hS_le_fs
    have hfs64s : sub64 (sub64 pool.free_space request) HEADER_SIZE =
        pool.free_space - (request + HEADER_SIZE) := by
      have ha : HEADER_SIZE ≤ pool.free_space - request := by
        have h1 := hsplit
        have h2 := hS_le_fs
        unfold HEADER_SIZE MIN_ALLOC_SIZE at h1
        unfold HEADER_SIZE
        omega
      have hb2 : pool.free_space - request < U64 := by
        have := hfsU
        omega
      rw [sub64_eq_sub hreq_le_fs hfsU, sub64_eq_sub ha hb2]
      omega
    have halloc64s : add64 pool.allocated request = pool.allocated + request := by
      apply add64_eq_add
      have h1 := hallocU
      have h2 := hfit
      unfold U64 at h1 ⊢
      omega
    have hFneN : f ≠ f + HEADER_SIZE + request := by
      unfold HEADER_SIZE
      omega
    have hNneU : ∀ o ∈ u, o ≠ f + HEADER_SIZE + request := by
      intro o ho
      have := (List.pairwise_append.mp hlt).2.2 o ho f (by simp)
      unfold HEADER_SIZE
      omega
    have hNneV : ∀ o ∈ v, o ≠ f + HEADER_SIZE + request := by
      intro o ho
      have h1 := hvgt o ho
      have h2 := hsplit
      unfold HEADER_SIZE at h1 ⊢
      unfold HEADER_SIZE MIN_ALLOC_SIZE at h2
      omega
    rw [alloc_match_eq_split_f (hcond.mpr hsplit) hfetch hNnw]
    rcases hprevlink with ⟨hdnil, hpnull⟩ | ⟨d', hdn⟩
    · -- split, matched block was the list head
      subst hpnull
      rw [alloc_finish_eq_null]
      have hchain2 := hchain
      rw [hfs, hdnil, List.nil_append] at hchain2
      obtain ⟨-, hrest⟩ := hchain2
      have hrest2 : chainTo pool (pool.mem f).next (freeBlocks pool v)
          POOL_NULL_OFFSET := by
        unfold freeBlocks
        rw [hv]
        exact hrest
      have hu0 : freeBlocks pool u = [] := by
        unfold freeBlocks
        rw [hu, hdnil]
      refine ⟨_, _, rfl, u, f, v, rfl, rfl, hfreef, hfit, rfl, ?_, ?_, ?_,
        Or.inr ⟨hsplit, alloc_split_core hinv' hfreef hsplit ?_ ?_ ?_ ?_ ?_ ?_ ?_ ?_ ?_ ?_ ?_,
          ?_, ?_, ?_, ?_⟩⟩
      · unfold isFreeH
        simp only [splitState, Function.update_same, Function.update_noteq hFneN]
        exact clearFreeBit_not_free (pool.mem f).flags
      · intro o ho
        have hne : o ≠ f := by
          rcases ho with ho | ho
          · exact hune o ho
          · exact hvne o ho
        have hnN : o ≠ f + HEADER_SIZE + request := by
          rcases ho with ho | ho
          · exact hNneU o ho
          · exact hNneV o ho
        constructor
        · simp [splitState, Function.update_noteq hne, Function.update_noteq hnN]
        · simp [splitState, Function.update_noteq hne, Function.update_noteq hnN]
      · intro o ho hnf
        have hne : o ≠ f := fun he => hnf (he ▸ hfreef)
        have hnN : o ≠ f + HEADER_SIZE + request := by
          rcases List.mem_append.mp ho with hou | hov
          · exact hNneU o hou
          · rcases List.mem_cons.mp hov with he | hov2
            · exact absurd (he ▸ hfreef) hnf
            · exact hNneV o hov2
        simp only [splitState, hNnw]
        exact (Function.update_noteq hne _ _).trans
          ((Function.update_noteq hne _ _).trans (Function.update_noteq hnN _ _))
      · rfl
      · simp only [splitState, Function.update_same, Function.update_noteq hFneN]
        exact halloc64s
      · exact hfs64s
      · simp [splitState, Function.update_same, Function.update_noteq hFneN]
      · unfold isFreeH
        simp only [splitState, Function.update_same, Function.update_noteq hFneN]
        exact clearFreeBit_not_free (pool.mem f).flags
      · refine ⟨?_, hf8, ?_, ?_, ?_⟩
        · simp [splitState, Function.update_same, Function.update_noteq hFneN, hfm]
        · simp only [splitState, Function.update_same, Function.update_noteq hFneN]
          exact hreq16
        · simp only [splitState, Function.update_same, Function.update_noteq hFneN]
          have h1 := hfend
          have h2 := hsplit
          unfold HEADER_SIZE at h1 ⊢
          unfold HEADER_SIZE MIN_ALLOC_SIZE at h2
          omega
        · refine Or.inl ?_
          simp [splitState, Function.update_same, Function.update_noteq hFneN]
      · simp only [splitState, Function.update_noteq (Ne.symm hFneN),
          Function.update_same]
        exact hsub32
      · unfold isFreeH
        simp only [splitState, Function.update_noteq (Ne.symm hFneN),
          Function.update_same]
        unfold isFreeFlag FLAG_FREE
        decide
      · refine ⟨?_, ?_, ?_, ?_, ?_⟩
        · simp [splitState, Function.update_noteq (Ne.symm hFneN),
            Function.update_same]
        · have h1 := hf8
          have h2 := hreq8
          unfold POOL_ALIGNMENT at h1 ⊢
          unfold HEADER_SIZE
          omega
        · simp only [splitState, Function.update_noteq (Ne.symm hFneN),
            Function.update_same]
          rw [hsub32]
          have h2 := hsplit
          unfold HEADER_SIZE MIN_ALLOC_SIZE at h2 ⊢
          omega
        · simp only [splitState, Function.update_noteq (Ne.symm hFneN),
            Function.update_same]
          rw [hsub32]
          have h1 := hfend
          have h2 := hsplit
          unfold HEADER_SIZE at h1 ⊢
          unfold HEADER_SIZE MIN_ALLOC_SIZE at h2
          omega
        · simp only [splitState, Function.update_noteq (Ne.symm hFneN),
            Function.update_same]
          exact hfnext
      · intro o ho hne
        have hnN : o ≠ f + HEADER_SIZE + request := by
          rcases List.mem_append.mp ho with hou | hov
          · exact hNneU o hou
          · rcases List.mem_cons.mp hov with he | hov2
            · exact absurd he hne
            · exact hNneV o hov2
        refine ⟨?_, ?_, ?_⟩
        · simp [splitState, Function.update_noteq hne, Function.update_noteq hnN]
        · simp [splitState, Function.update_noteq hne, Function.update_noteq hnN]
        · simp only [splitState, Function.update_noteq hne, Function.update_noteq hnN]
          exact sane_congr rfl (partSeg_mem_sane hpart ho)
      · rw [hu0, List.nil_append]
        refine ⟨rfl, ?_⟩
        simp only [splitState, Function.update_noteq (Ne.symm hFneN),
          Function.update_same]
        refine chainTo_congr (fun o ho => ?_) hrest2
        have h1 := (freeBlocks_sublist pool v o ho).1
        have hne : o ≠ f := hvne o h1
        have hnN : o ≠ f + HEADER_SIZE + request := hNneV o h1
        simp [splitState, Function.update_noteq hne, Function.update_noteq hnN]
      · simp [splitState, Function.update_same, Function.update_noteq hFneN]
      · unfold isFreeH
        simp only [splitState, Function.update_noteq (Ne.symm hFneN),
          Function.update_same]
        unfold isFreeFlag FLAG_FREE
        decide
      · simp only [splitState, Function.update_same, Function.update_noteq hFneN]
        exact halloc64s
      · exact hfs64s
    · -- split, prev links to the matched block
      have hdprev_mem : prev_off ∈ freeBlocks pool u := by
        unfold freeBlocks
        rw [hu, hdn]
        simp
      have hprev_in_u : prev_off ∈ u := (freeBlocks_sublist pool u prev_off hdprev_mem).1
      have hprev_free : isFreeH pool prev_off :=
        (freeBlocks_sublist pool u prev_off hdprev_mem).2
      have hPsaneP := partSeg_mem_sane hpart (List.mem_append_left _ hprev_in_u)
      have hPsaneQ := hPsaneP
      obtain ⟨hPm, hP8, hP16, hPend, hPnext⟩ := hPsaneQ
      have hprev_lt_f : prev_off < f := by
        have := (List.pairwise_append.mp hltf).2.2 prev_off (by rw [hdn]; simp) f (by simp)
        omega
      have hPneNull : prev_off ≠ POOL_NULL_OFFSET := by
        have h1 := hPend
        have h2 := hpsU
        unfold HEADER_SIZE at h1
        unfold U32 at h2
        unfold POOL_NULL_OFFSET
        omega
      have hPneF : prev_off ≠ f := hune prev_off hprev_in_u
      have hPb : (prev_off + HEADER_SIZE) % U32 ≤ pool.pool_size := by
        have h1 := hPend
        have h2 := hpsU
        have h3 := hP16
        unfold HEADER_SIZE at h1 ⊢
        unfold U32 at h2 ⊢
        unfold MIN_ALLOC_SIZE at h3
        rw [Nat.mod_eq_of_lt (by omega)]
        omega
      have hchain2 := hchain
      rw [hfs, hdn, List.append_assoc] at hchain2
      obtain ⟨m, hcd', hctail⟩ := chainTo_append_split hchain2
      rw [List.singleton_append] at hctail
      obtain ⟨hm, hPnF, hrest⟩ := hctail
      rw [hm] at hcd'
      have hrest2 : chainTo pool (pool.mem f).next (freeBlocks pool v)
          POOL_NULL_OFFSET := by
        unfold freeBlocks
        rw [hv]
        exact hrest
      have hd'lt : ∀ o ∈ d', o < prev_off := by
        have hpw : List.Pairwise (· < ·) dn := (List.pairwise_append.mp hltf).1
        rw [hdn] at hpw
        intro o ho
        exact (List.pairwise_append.mp hpw).2.2 o ho prev_off (by simp)
      have hd'neF : ∀ o ∈ d', o ≠ f := by
        intro o ho
        have ho2 : o ∈ freeBlocks pool u := by
          unfold freeBlocks
          rw [hu, hdn]
          simp [ho]
        exact hune o (freeBlocks_sublist pool u o ho2).1
      have hu1 : freeBlocks pool u = d' ++ [prev_off] := by
        unfold freeBlocks
        rw [hu, hdn]
      have hPneN2 : prev_off ≠ f + HEADER_SIZE + request := by
        have := hprev_lt_f
        unfold HEADER_SIZE
        omega
      have hNnp : f + HEADER_SIZE + request ≠ prev_off := Ne.symm hPneN2
      have hs2 : header_is_sane (splitState pool f request)
          ((splitState pool f request).mem prev_off) prev_off := by
        have hmp : (splitState pool f request).mem prev_off = pool.mem prev_off := by
          simp [splitState, Function.update_noteq hPneF,
            Function.update_noteq hPneN2]
        rw [hmp]
        exact sane_congr rfl hPsaneP
      have hPb2 : (prev_off + HEADER_SIZE) % U32 ≤ (splitState pool f request).pool_size :=
        hPb
      rw [alloc_finish_eq_prev (splitState pool f request) (f + HEADER_SIZE + request)
        prev_off f hPneNull hPneF hPb2 hs2]
      refine ⟨_, _, rfl, u, f, v, rfl, rfl, hfreef, hfit, rfl, ?_, ?_, ?_,
        Or.inr ⟨hsplit, alloc_split_core hinv' hfreef hsplit ?_ ?_ ?_ ?_ ?_ ?_ ?_ ?_ ?_ ?_ ?_,
          ?_, ?_, ?_, ?_⟩⟩
      · unfold isFreeH
        simp only [splitState, Function.update_noteq (Ne.symm hPneF),
          Function.update_same, Function.update_noteq hFneN]
        exact clearFreeBit_not_free (pool.mem f).flags
      · intro o ho
        have hne : o ≠ f := by
          rcases ho with ho | ho
          · exact hune o ho
          · exact hvne o ho
        have hnN : o ≠ f + HEADER_SIZE + request := by
          rcases ho with ho | ho
          · exact hNneU o ho
          · exact hNneV o ho
        by_cases hop : o = prev_off
        · subst hop
          constructor
          · simp [splitState, Function.update_same, Function.update_noteq hPneF,
              Function.update_noteq hPneN2]
          · simp [splitState, Function.update_same, Function.update_noteq hPneF,
              Function.update_noteq hPneN2]
        · constructor
          · simp [splitState, Function.update_noteq hop, Function.update_noteq hne,
              Function.update_noteq hnN]
          · simp [splitState, Function.update_noteq hop, Function.update_noteq hne,
              Function.update_noteq hnN]
      · intro o ho hnf
        have hne : o ≠ f := fun he => hnf (he ▸ hfreef)
        have hop : o ≠ prev_off := fun he => hnf (he ▸ hprev_free)
        have hnN : o ≠ f + HEADER_SIZE + request := by
          rcases List.mem_append.mp ho with hou | hov
          · exact hNneU o hou
          · rcases List.mem_cons.mp hov with he | hov2
            · exact absurd (he ▸ hfreef) hnf
            · exact hNneV o hov2
        simp only [splitState, hNnw]
        exact (Function.update_noteq hop _ _).trans
          ((Function.update_noteq hne _ _).trans
            ((Function.update_noteq hne _ _).trans (Function.update_noteq hnN _ _)))
      · rfl
      · simp only [splitState, Function.update_same, Function.update_noteq hFneN]
        exact halloc64s
      · exact hfs64s
      · simp [splitState, Function.update_noteq (Ne.symm hPneF),
          Function.update_same, Function.update_noteq hFneN]
      · unfold isFreeH
        simp only [splitState, Function.update_noteq (Ne.symm hPneF),
          Function.update_same, Function.update_noteq hFneN]
        exact clearFreeBit_not_free (pool.mem f).flags
      · refine ⟨?_, hf8, ?_, ?_, ?_⟩
        · simp [splitState, Function.update_noteq (Ne.symm hPneF),
            Function.update_same, Function.update_noteq hFneN, hfm]
        · simp only [splitState, Function.update_noteq (Ne.symm hPneF),
            Function.update_same, Function.update_noteq hFneN]
          exact hreq16
        · simp only [splitState, Function.update_noteq (Ne.symm hPneF),
            Function.update_same, Function.update_noteq hFneN]
          have h1 := hfend
          have h2 := hsplit
          unfold HEADER_SIZE at h1 ⊢
          unfold HEADER_SIZE MIN_ALLOC_SIZE at h2
          omega
        · refine Or.inl ?_
          simp [splitState, Function.update_noteq (Ne.symm hPneF),
            Function.update_same, Function.update_noteq hFneN]
      · simp only [splitState, Function.update_noteq hNnp,
          Function.update_noteq (Ne.symm hFneN), Function.update_same]
        exact hsub32
      · unfold isFreeH
        simp only [splitState, Function.update_noteq hNnp,
          Function.update_noteq (Ne.symm hFneN), Function.update_same]
        unfold isFreeFlag FLAG_FREE
        decide
      · refine ⟨?_, ?_, ?_, ?_, ?_⟩
        · simp [splitState, Function.update_noteq hNnp,
            Function.update_noteq (Ne.symm hFneN), Function.update_same]
        · have h1 := hf8
          have h2 := hreq8
          unfold POOL_ALIGNMENT at h1 ⊢
          unfold HEADER_SIZE
          omega
        · simp only [splitState, Function.update_noteq hNnp,
            Function.update_noteq (Ne.symm hFneN), Function.update_same]
          rw [hsub32]
          have h2 := hsplit
          unfold HEADER_SIZE MIN_ALLOC_SIZE at h2 ⊢
          omega
        · simp only [splitState, Function.update_noteq hNnp,
            Function.update_noteq (Ne.symm hFneN), Function.update_same]
          rw [hsub32]
          have h1 := hfend
          have h2 := hsplit
          unfold HEADER_SIZE at h1 ⊢
          unfold HEADER_SIZE MIN_ALLOC_SIZE at h2
          omega
        · simp only [splitState, Function.update_noteq hNnp,
            Function.update_noteq (Ne.symm hFneN), Function.update_same]
          exact hfnext
      · intro o ho hne
        have hnN : o ≠ f + HEADER_SIZE + request := by
          rcases List.mem_append.mp ho with hou | hov
          · exact hNneU o hou
          · rcases List.mem_cons.mp hov with he | hov2
            · exact absurd he hne
            · exact hNneV o hov2
        by_cases hop : o = prev_off
        · subst hop
          refine ⟨?_, ?_, ?_⟩
          · simp [splitState, Function.update_same, Function.update_noteq hPneF,
              Function.update_noteq hPneN2]
          · simp [splitState, Function.update_same, Function.update_noteq hPneF,
              Function.update_noteq hPneN2]
          · simp only [splitState, Function.update_same, Function.update_noteq hPneF,
              Function.update_noteq hPneN2]
            refine ⟨hPm, hP8, hP16, hPend, Or.inr ⟨?_, ?_⟩⟩
            · show (f + HEADER_SIZE + request) % POOL_ALIGNMENT = 0
              have h1 := hf8
              have h2 := hreq8
              unfold POOL_ALIGNMENT at h1 ⊢
              unfold HEADER_SIZE
              omega
            · show (f + HEADER_SIZE + request + HEADER_SIZE) % U32 ≤ pool.pool_size
              have h1 := hfend
              have h2 := hsplit
              have h3 := hpsU
              unfold HEADER_SIZE at h1 ⊢
              unfold HEADER_SIZE MIN_ALLOC_SIZE at h2
              unfold U32 at h3 ⊢
              rw [Nat.mod_eq_of_lt (by omega)]
              omega
        · refine ⟨?_, ?_, ?_⟩
          · simp [splitState, Function.update_noteq hop, Function.update_noteq hne,
              Function.update_noteq hnN]
          · simp [splitState, Function.update_noteq hop, Function.update_noteq hne,
              Function.update_noteq hnN]
          · simp only [splitState, Function.update_noteq hop,
              Function.update_noteq hne, Function.update_noteq hnN]
            exact sane_congr rfl (partSeg_mem_sane hpart ho)
      · rw [hu1, List.append_assoc, List.singleton_append]
        refine chainTo_append (chainTo_congr (fun o ho => ?_) hcd') ?_
        · have hop : o ≠ prev_off := Nat.ne_of_lt (hd'lt o ho)
          have hnef3 : o ≠ f := hd'neF o ho
          have hnN3 : o ≠ f + HEADER_SIZE + request := by
            have h1 := hd'lt o ho
            have h2 := hprev_lt_f
            unfold HEADER_SIZE
            omega
          simp [splitState, Function.update_noteq hop, Function.update_noteq hnef3,
            Function.update_noteq hnN3]
        · refine ⟨rfl, ?_⟩
          simp only [Function.update_same]
          refine ⟨rfl, ?_⟩
          simp only [splitState, Function.update_noteq hNnp,
            Function.update_noteq (Ne.symm hFneN), Function.update_same]
          refine chainTo_congr (fun o ho => ?_) hrest2
          have h1 := (freeBlocks_sublist pool v o ho).1
          have hne4 : o ≠ f := hvne o h1
          have hnN4 : o ≠ f + HEADER_SIZE + request := hNneV o h1
          have hop4 : o ≠ prev_off := by
            have h2 := hvgt o h1
            have h3 := hprev_lt_f
            unfold HEADER_SIZE at h2
            omega
          simp [splitState, Function.update_noteq hop4, Function.update_noteq hne4,
            Function.update_noteq hnN4]
      · simp [splitState, Function.update_noteq (Ne.symm hPneF),
          Function.update_same, Function.update_noteq hFneN]
      · unfold isFreeH
        simp only [splitState, Function.update_noteq hNnp,
          Function.update_noteq (Ne.symm hFneN), Function.update_same]
        unfold isFreeFlag FLAG_FREE
        decide
      · simp only [splitState, Function.update_same, Function.update_noteq hFneN]
        exact halloc64s
      · exact hfs64s
  · -- no split: the whole block is granted
    rw [alloc_match_eq_nosplit (by rw [hcond]; exact hsplit)]
    have halloc64 : add64 pool.allocated (pool.mem f).size =
        pool.allocated + (pool.mem f).size := add64_eq_add hallocU
    have hfs64 : sub64 pool.free_space (pool.mem f).size =
        pool.free_space - (pool.mem f).size := sub64_eq_sub hS_le_fs hfsU
    rcases hprevlink with ⟨hdnil, hpnull⟩ | ⟨d', hdn⟩
    · -- no split, matched block was the list head
      subst hpnull
      rw [alloc_finish_eq_null]
      have hchain2 := hchain
      rw [hfs, hdnil, List.nil_append] at hchain2
      obtain ⟨-, hrest⟩ := hchain2
      have hrest2 : chainTo pool (pool.mem f).next (freeBlocks pool v)
          POOL_NULL_OFFSET := by
        unfold freeBlocks
        rw [hv]
        exact hrest
      have hu0 : freeBlocks pool u = [] := by
        unfold freeBlocks
        rw [hu, hdnil]
      refine ⟨_, _, rfl, u, f, v, rfl, rfl, hfreef, hfit, rfl, ?_, ?_, ?_,
        Or.inl ⟨?_, (alloc_nosplit_core hinv' hfreef ?_ ?_ ?_ ?_ ?_ ?_ ?_ ?_).1,
          ?_, ?_, ?_⟩⟩
      · unfold isFreeH
        simp only [Function.update_same]
        exact clearFreeBit_not_free (pool.mem f).flags
      · intro o ho
        have hne : o ≠ f := by
          rcases ho with ho | ho
          · exact hune o ho
          · exact hvne o ho
        constructor
        · simp [Function.update_noteq hne]
        · simp [Function.update_noteq hne]
      · intro o ho hnf
        have hne : o ≠ f := fun he => hnf (he ▸ hfreef)
        exact Function.update_noteq hne _ _
      · unfold HEADER_SIZE MIN_ALLOC_SIZE at hsplit ⊢
        omega
      · rfl
      · exact halloc64
      · exact hfs64
      · simp [Function.update_same]
      · unfold isFreeH
        simp only [Function.update_same]
        exact clearFreeBit_not_free (pool.mem f).flags
      · simp only [Function.update_same]
        exact ⟨hfm, hf8, hf16, hfend, Or.inl rfl⟩
      · intro o ho hne
        refine ⟨?_, ?_, ?_⟩
        · simp [Function.update_noteq hne]
        · simp [Function.update_noteq hne]
        · simp only [Function.update_noteq hne]
          exact sane_congr rfl (partSeg_mem_sane hpart ho)
      · rw [hu0, List.nil_append]
        refine chainTo_congr (fun o ho => ?_) hrest2
        have hne : o ≠ f := hvne o (freeBlocks_sublist pool v o ho).1
        exact congrArg BlockHeader.next (Function.update_noteq hne _ _)
      · simp [Function.update_same]
      · exact halloc64
      · exact hfs64
    · -- no split, prev links to the matched block
      have hdprev_mem : prev_off ∈ freeBlocks pool u := by
        unfold freeBlocks
        rw [hu, hdn]
        simp
      have hprev_in_u : prev_off ∈ u := (freeBlocks_sublist pool u prev_off hdprev_mem).1
      have hprev_free : isFreeH pool prev_off :=
        (freeBlocks_sublist pool u prev_off hdprev_mem).2
      have hPsaneP := partSeg_mem_sane hpart (List.mem_append_left _ hprev_in_u)
      have hPsaneQ := hPsaneP
      obtain ⟨hPm, hP8, hP16, hPend, hPnext⟩ := hPsaneQ
      have hprev_lt_f : prev_off < f := by
        have := (List.pairwise_append.mp hltf).2.2 prev_off (by rw [hdn]; simp) f (by simp)
        omega
      have hPneNull : prev_off ≠ POOL_NULL_OFFSET := by
        have h1 := hPend
        have h2 := hpsU
        unfold HEADER_SIZE at h1
        unfold U32 at h2
        unfold POOL_NULL_OFFSET
        omega
      have hPneF : prev_off ≠ f := hune prev_off hprev_in_u
      have hPb : (prev_off + HEADER_SIZE) % U32 ≤ pool.pool_size := by
        have h1 := hPend
        have h2 := hpsU
        have h3 := hP16
        unfold HEADER_SIZE at h1 ⊢
        unfold U32 at h2 ⊢
        unfold MIN_ALLOC_SIZE at h3
        rw [Nat.mod_eq_of_lt (by omega)]
        omega
      have hchain2 := hchain
      rw [hfs, hdn, List.append_assoc] at hchain2
      obtain ⟨m, hcd', hctail⟩ := chainTo_append_split hchain2
      rw [List.singleton_append] at hctail
      obtain ⟨hm, hPnF, hrest⟩ := hctail
      rw [hm] at hcd'
      have hrest2 : chainTo pool (pool.mem f).next (freeBlocks pool v)
          POOL_NULL_OFFSET := by
        unfold freeBlocks
        rw [hv]
        exact hrest
      have hd'lt : ∀ o ∈ d', o < prev_off := by
        have hpw : List.Pairwise (· < ·) dn := (List.pairwise_append.mp hltf).1
        rw [hdn] at hpw
        intro o ho
        exact (List.pairwise_append.mp hpw).2.2 o ho prev_off (by simp)
      have hd'neF : ∀ o ∈ d', o ≠ f := by
        intro o ho
        have ho2 : o ∈ freeBlocks pool u := by
          unfold freeBlocks
          rw [hu, hdn]
          simp [ho]
        exact hune o (freeBlocks_sublist pool u o ho2).1
      have hu1 : freeBlocks pool u = d' ++ [prev_off] := by
        unfold freeBlocks
        rw [hu, hdn]
      have hs1 : header_is_sane
          { pool with free_space := sub64 pool.free_space (pool.mem f).size }
          (pool.mem prev_off) prev_off := sane_congr rfl hPsaneP
      rw [alloc_finish_eq_prev
        { pool with free_space := sub64 pool.free_space (pool.mem f).size }
        ((pool.mem f).next) prev_off f hPneNull hPneF hPb hs1]
      refine ⟨_, _, rfl, u, f, v, rfl, rfl, hfreef, hfit, rfl, ?_, ?_, ?_,
        Or.inl ⟨?_, (alloc_nosplit_core hinv' hfreef ?_ ?_ ?_ ?_ ?_ ?_ ?_ ?_).1,
          ?_, ?_, ?_⟩⟩
      · unfold isFreeH
        simp only [Function.update_noteq (Ne.symm hPneF), Function.update_same]
        exact clearFreeBit_not_free (pool.mem f).flags
      · intro o ho
        have hne : o ≠ f := by
          rcases ho with ho | ho
          · exact hune o ho
          · exact hvne o ho
        by_cases hop : o = prev_off
        · subst hop
          constructor
          · simp [Function.update_same]
          · simp [Function.update_same]
        · constructor
          · simp [Function.update_noteq hop, Function.update_noteq hne]
          · simp [Function.update_noteq hop, Function.update_noteq hne]
      · intro o ho hnf
        have hne : o ≠ f := fun he => hnf (he ▸ hfreef)
        have hop : o ≠ prev_off := fun he => hnf (he ▸ hprev_free)
        exact (Function.update_noteq hop _ _).trans (Function.update_noteq hne _ _)
      · unfold HEADER_SIZE MIN_ALLOC_SIZE at hsplit ⊢
        omega
      · rfl
      · exact halloc64
      · exact hfs64
      · simp [Function.update_noteq (Ne.symm hPneF), Function.update_same]
      · unfold isFreeH
        simp only [Function.update_noteq (Ne.symm hPneF), Function.update_same]
        exact clearFreeBit_not_free (pool.mem f).flags
      · simp only [Function.update_noteq (Ne.symm hPneF), Function.update_same]
        exact ⟨hfm, hf8, hf16, hfend, Or.inl rfl⟩
      · intro o ho hne
        by_cases hop : o = prev_off
        · subst hop
          refine ⟨?_, ?_, ?_⟩
          · simp [Function.update_same]
          · simp [Function.update_same]
          · simp only [Function.update_same]
            exact ⟨hPm, hP8, hP16, hPend, hfnext⟩
        · refine ⟨?_, ?_, ?_⟩
          · simp [Function.update_noteq hop, Function.update_noteq hne]
          · simp [Function.update_noteq hop, Function.update_noteq hne]
          · simp only [Function.update_noteq hop, Function.update_noteq hne]
            exact sane_congr rfl (partSeg_mem_sane hpart ho)
      · rw [hu1, List.append_assoc, List.singleton_append]
        refine chainTo_append (chainTo_congr (fun o ho => ?_) hcd') ?_
        · have hop : o ≠ prev_off := Nat.ne_of_lt (hd'lt o ho)
          have hnef3 : o ≠ f := hd'neF o ho
          exact congrArg BlockHeader.next
            ((Function.update_noteq hop _ _).trans (Function.update_noteq hnef3 _ _))
        · refine ⟨rfl, ?_⟩
          simp only [Function.update_same]
          refine chainTo_congr (fun o ho => ?_) hrest2
          have h1 := (freeBlocks_sublist pool v o ho).1
          have hnef4 : o ≠ f := hvne o h1
          have hop2 : o ≠ prev_off := by
            have h2 := hvgt o h1
            have h3 := hprev_lt_f
            unfold HEADER_SIZE at h2
            omega
          exact congrArg BlockHeader.next
            ((Function.update_noteq hop2 _ _).trans (Function.update_noteq hnef4 _ _))
      · simp [Function.update_noteq (Ne.symm hPneF), Function.update_same]
      · exact halloc64
      · exact hfs64

theorem sane_ne_null {pool : MemoryPool} {o : Nat} (hps : pool.pool_size + 32 ≤ U32)
    (hs : header_is_sane pool (pool.mem o) o) : o ≠ POOL_NULL_OFFSET := by
  obtain ⟨-, -, h16, hend, -⟩ := hs
  unfold POOL_NULL_OFFSET U32 HEADER_SIZE MIN_ALLOC_SIZE at *
  omega

theorem hdr_from_offset_sane {pool : MemoryPool} {o : Nat} (hps : pool.pool_size + 32 ≤ U32)
    (hs : header_is_sane pool (pool.mem o) o) :
    hdr_from_offset pool o = some (pool.mem o) := by
  have hnn := sane_ne_null hps hs
  obtain ⟨-, -, h16, hend, -⟩ := hs
  have hcond : ¬ (o = POOL_NULL_OFFSET ∨ pool.pool_size < (o + HEADER_SIZE) % U32) := by
    push_neg
    refine ⟨hnn, ?_⟩
    rw [Nat.mod_eq_of_lt (by unfold HEADER_SIZE MIN_ALLOC_SIZE U32 at *; omega)]
    unfold HEADER_SIZE MIN_ALLOC_SIZE at *
    omega
  unfold hdr_from_offset
  rw [if_neg hcond]

/-- The first-fit scan of `pool_alloc`, walking the suffix `rest` of the
free list: when some visited block fits, the allocation succeeds and
satisfies `AllocSuccessSpec`. -/
theorem alloc_loop_spec_fit {pool : MemoryPool} {bs : List Nat} (hinv : InvWith pool bs)
    {request : Nat} (hreq16 : MIN_ALLOC_SIZE ≤ request) (hreq8 : request % 8 = 0) :
    ∀ {rest : List Nat} (dn : List Nat) {prev_off cur_off fuel : Nat},
      freeBlocks pool bs = dn ++ rest →
      chainTo pool cur_off rest POOL_NULL_OFFSET →
      ((dn = [] ∧ prev_off = POOL_NULL_OFFSET) ∨ ∃ d', dn = d' ++ [prev_off]) →
      rest.length < fuel →
      (∃ f ∈ rest, request ≤ (pool.mem f).size) →
      ∃ p' po, alloc_loop pool request fuel prev_off cur_off = .success p' po ∧
        AllocSuccessSpec pool bs request p' po := by
  intro rest
  induction rest with
  | nil =>
    intro dn prev_off cur_off fuel
    intro _ _ _ _ hex
    simp at hex
  | cons c rest ih =>
    intro dn prev_off cur_off fuel hfs hchainR hprevlink hfuel hex
    obtain ⟨hcur, hchain'⟩ := hchainR
    rw [hcur]
    have hcmem := freeBlocks_sublist pool bs c (by rw [hfs]; simp)
    have hinv2 := hinv
    obtain ⟨hps8, hpsU, hpart, -, -, -, -⟩ := hinv2
    have hsane := partSeg_mem_sane hpart hcmem.1
    have hnn : c ≠ POOL_NULL_OFFSET := sane_ne_null hpsU hsane
    have hfet := hdr_from_offset_sane hpsU hsane
    obtain ⟨fuel', rfl⟩ : ∃ k, fuel = k + 1 := ⟨fuel - 1, by omega⟩
    simp only [alloc_loop]
    rw [if_neg hnn]
    simp only [hfet]
    rw [if_neg (not_not_intro hsane)]
    by_cases hfit : request ≤ (pool.mem c).size
    · rw [if_pos ⟨hcmem.2, hfit⟩]
      exact alloc_match_spec hinv hreq16 hreq8 hfs hprevlink hfit
    · rw [if_neg (fun h => hfit h.2)]
      refine ih (dn ++ [c]) (by rw [hfs]; simp) hchain' (Or.inr ⟨dn, rfl⟩)
        (by simp only [List.length_cons] at hfuel; omega) ?_
      obtain ⟨f, hf, hffit⟩ := hex
      rcases List.mem_cons.mp hf with rfl | hf2
      · exact absurd hffit hfit
      · exact ⟨f, hf2, hffit⟩

/-- The first-fit scan of `pool_alloc` when no visited block fits: the scan
reaches the list end and fails without mutating the pool. -/
theorem alloc_loop_spec_nofit {pool : MemoryPool} {bs : List Nat} (hinv : InvWith pool bs)
    {request : Nat} :
    ∀ {rest : List Nat} (dn : List Nat) {prev_off cur_off fuel : Nat},
      freeBlocks pool bs = dn ++ rest →
      chainTo pool cur_off rest POOL_NULL_OFFSET →
      rest.length < fuel →
      (∀ o ∈ rest, (pool.mem o).size < request) →
      alloc_loop pool request fuel prev_off cur_off = .fail pool := by
  intro rest
  induction rest with
  | nil =>
    intro dn prev_off cur_off fuel hfs hchainR hfuel hno
    obtain ⟨fuel', rfl⟩ : ∃ k, fuel = k + 1 := ⟨fuel - 1, by omega⟩
    have hcur : cur_off = POOL_NULL_OFFSET := hchainR
    rw [hcur]
    simp [alloc_loop]
  | cons c rest ih =>
    intro dn prev_off cur_off fuel hfs hchainR hfuel hno
    obtain ⟨hcur, hchain'⟩ := hchainR
    rw [hcur]
    have hcmem := freeBlocks_sublist pool bs c (by rw [hfs]; simp)
    have hinv2 := hinv
    obtain ⟨hps8, hpsU, hpart, -, -, -, -⟩ := hinv2
    have hsane := partSeg_mem_sane hpart hcmem.1
    have hnn : c ≠ POOL_NULL_OFFSET := sane_ne_null hpsU hsane
    have hfet := hdr_from_offset_sane hpsU hsane
    obtain ⟨fuel', rfl⟩ : ∃ k, fuel = k + 1 := ⟨fuel - 1, by omega⟩
    simp only [alloc_loop]
    rw [if_neg hnn]
    simp only [hfet]
    rw [if_neg (not_not_intro hsane)]
    rw [if_neg (fun h => absurd h.2 (not_le.mpr (hno c (by simp))))]
    exact ih (dn ++ [c]) (by rw [hfs]; simp) hchain'
      (by simp only [List.length_cons] at hfuel; omega) (fun o ho => hno o (by simp [ho]))

/-- `pool_alloc` on an uncorrupted pool, when some free block fits the
clamped rounded request: success satisfying `AllocSuccessSpec`. -/
theorem pool_alloc_spec_fit {pool : MemoryPool} {bs : List Nat} (hinv : InvWith pool bs)
    {size fuel : Nat} (hsz : size ≠ 0)
    (hreq16 : MIN_ALLOC_SIZE ≤ requestOf size)
    (hfuel : (freeBlocks pool bs).length < fuel)
    (hex : ∃ f ∈ freeBlocks pool bs, requestOf size ≤ (pool.mem f).size) :
    ∃ p' po, pool_alloc pool size fuel = .success p' po ∧
      AllocSuccessSpec pool bs (requestOf size) p' po := by
  unfold pool_alloc
  rw [if_neg hsz]
  exact alloc_loop_spec_fit hinv hreq16 (requestOf_mod8 size) [] (by simp)
    hinv.2.2.2.1 (Or.inl ⟨rfl, rfl⟩) hfuel hex

/-- `pool_alloc` on an uncorrupted pool, when no free block fits the
clamped rounded request: it fails and returns the pool unchanged. -/
theorem pool_alloc_spec_nofit {pool : MemoryPool} {bs : List Nat} (hinv : InvWith pool bs)
    {size fuel : Nat} (hsz : size ≠ 0)
    (hfuel : (freeBlocks pool bs).length < fuel)
    (hno : ∀ o ∈ freeBlocks pool bs, (pool.mem o).size < requestOf size) :
    pool_alloc pool size fuel = .fail pool := by
  unfold pool_alloc
  rw [if_neg hsz]
  exact alloc_loop_spec_nofit hinv [] (by simp) hinv.2.2.2.1 hfuel hno

/-- The address-sorted insertion scan: walking the `< b` prefix `L` of the
free list returns the last visited node (or the initial `prev`) and the
stopping offset. -/
theorem insertScan_spec {p1 : MemoryPool} {b : Nat} (hpsU : p1.pool_size + 32 ≤ U32) :
    ∀ {L : List Nat} {prev cur stop fuel : Nat},
      chainTo p1 cur L stop →
      (∀ o ∈ L, o < b ∧ header_is_sane p1 (p1.mem o) o) →
      (stop = POOL_NULL_OFFSET ∨ b ≤ stop) →
      L.length < fuel →
      insertScan p1 b fuel prev cur = some (some (L.getLastD prev, stop)) := by
  intro L
  induction L with
  | nil =>
    intro prev cur stop fuel hchain hmem hstop hfuel
    obtain ⟨fuel', rfl⟩ : ∃ k, fuel = k + 1 := ⟨fuel - 1, by omega⟩
    have hcs : cur = stop := hchain
    rw [hcs]
    simp only [insertScan]
    rw [if_pos hstop]
    rfl
  | cons c L' ih =>
    intro prev cur stop fuel hchain hmem hstop hfuel
    obtain ⟨hcur, hchain'⟩ := hchain
    rw [hcur]
    obtain ⟨fuel', rfl⟩ : ∃ k, fuel = k + 1 := ⟨fuel - 1, by omega⟩
    have hc := hmem c (by simp)
    have hnn : c ≠ POOL_NULL_OFFSET := sane_ne_null hpsU hc.2
    have hfet := hdr_from_offset_sane hpsU hc.2
    simp only [insertScan]
    rw [if_neg (by push_neg; exact ⟨hnn, hc.1⟩)]
    simp only [hfet]
    rw [if_neg (not_not_intro hc.2)]
    rw [List.getLastD_cons]
    exact ih hchain' (fun o ho => hmem o (by simp [ho])) hstop
      (by simp only [List.length_cons] at hfuel; omega)

/-- `coalesce_forward` stops immediately on a non-free block or a null
next offset. -/
theorem coalesce_eq_stop1 {p : MemoryPool} {b fuel : Nat}
    (h : ¬ isFreeFlag (p.mem b).flags ∨ (p.mem b).next = POOL_NULL_OFFSET) :
    coalesce_forward (fuel + 1) p b = some p := by
  simp only [coalesce_forward]
  rw [if_pos h]

/-- `coalesce_forward` stops when the next node is insane, not free, or
not physically adjacent. -/
theorem coalesce_eq_stop2 {p : MemoryPool} {b fuel : Nat}
    (hf : isFreeFlag (p.mem b).flags) (hnn : (p.mem b).next ≠ POOL_NULL_OFFSET)
    (hfet : hdr_from_offset p (p.mem b).next = some (p.mem (p.mem b).next))
    (h : ¬ header_is_sane p (p.mem (p.mem b).next) (p.mem b).next ∨
      ¬ isFreeFlag (p.mem (p.mem b).next).flags ∨
      (b + HEADER_SIZE + (p.mem b).size) % U32 ≠ (p.mem b).next) :
    coalesce_forward (fuel + 1) p b = some p := by
  simp only [coalesce_forward]
  rw [if_neg (by push_neg; exact ⟨hf, hnn⟩)]
  simp only [hfet]
  by_cases hs : header_is_sane p (p.mem (p.mem b).next) (p.mem b).next
  · rw [if_neg (not_not_intro hs)]
    by_cases hfn : isFreeFlag (p.mem (p.mem b).next).flags
    · rw [if_neg (not_not_intro hfn)]
      rcases h with h | h | h
      · exact absurd hs h
      · exact absurd hfn h
      · rw [if_pos h]
    · rw [if_pos hfn]
  · rw [if_pos hs]

/-- The merging step of `coalesce_forward`: a sane free physically
adjacent successor is absorbed and the walk continues from the grown
block. -/
theorem coalesce_eq_merge {p : MemoryPool} {b fuel : Nat}
    (hf : isFreeFlag (p.mem b).flags) (hnn : (p.mem b).next ≠ POOL_NULL_OFFSET)
    (hfet : hdr_from_offset p (p.mem b).next = some (p.mem (p.mem b).next))
    (hs : header_is_sane p (p.mem (p.mem b).next) (p.mem b).next)
    (hfn : isFreeFlag (p.mem (p.mem b).next).flags)
    (hadj : (b + HEADER_SIZE + (p.mem b).size) % U32 = (p.mem b).next) :
    coalesce_forward (fuel + 1) p b =
      coalesce_forward fuel
        { p with
          mem := Function.update p.mem b
            { (p.mem b) with
              size := ((p.mem b).size + HEADER_SIZE + (p.mem (p.mem b).next).size) % U32,
              next := (p.mem (p.mem b).next).next },
          free_space := add64 p.free_space HEADER_SIZE } b := by
  simp only [coalesce_forward]
  rw [if_neg (by push_neg; exact ⟨hf, hnn⟩)]
  simp only [hfet]
  rw [if_neg (not_not_intro hs), if_neg (not_not_intro hfn), if_neg (not_not_intro hadj)]

theorem invCore_of_invWith {p : MemoryPool} {bs : List Nat} (h : InvWith p bs) :
    InvCore p bs :=
  ⟨h.1, h.2.1, h.2.2.1, h.2.2.2.1, h.2.2.2.2.1, h.2.2.2.2.2.1⟩

theorem invWith_of_core {p : MemoryPool} {bs : List Nat} (h : InvCore p bs)
    (hadj : noAdjFree p bs) : InvWith p bs :=
  ⟨h.1, h.2.1, h.2.2.1, h.2.2.2.1, h.2.2.2.2.1, h.2.2.2.2.2, hadj⟩

/-- The free space counter is bounded by the pool size under the core
invariant. -/
theorem invCore_fs_le {p : MemoryPool} {bs : List Nat} (h : InvCore p bs) :
    p.free_space ≤ p.pool_size := by
  obtain ⟨-, -, hpart, -, -, hfree⟩ := h
  have hsum := partSeg_sum hpart
  have hsplit := sumSizes_filter_split p bs
  rw [hfree]
  unfold HEADER_SIZE at hsum
  omega

theorem invCore_alloc_le {p : MemoryPool} {bs : List Nat} (h : InvCore p bs) :
    p.allocated ≤ p.pool_size := by
  obtain ⟨-, -, hpart, -, halloc, -⟩ := h
  have hsum := partSeg_sum hpart
  have hsplit := sumSizes_filter_split p bs
  rw [halloc]
  unfold HEADER_SIZE at hsum
  omega

/-- Absorbing the physically adjacent free successor `d` into the free
block `c`: the partition loses `d`, the free list skips it, `free_space`
grows by the reclaimed header and `allocated` is unchanged. -/
theorem merge_core {p : MemoryPool} {x y : List Nat} {c d : Nat} {p' : MemoryPool}
    (hinv : InvCore p (x ++ c :: d :: y))
    (hfc : isFreeH p c) (hfd : isFreeH p d)
    (hps' : p'.pool_size = p.pool_size)
    (hfl' : p'.free_list = p.free_list)
    (halloc' : p'.allocated = p.allocated)
    (hfs' : p'.free_space = p.free_space + HEADER_SIZE)
    (hmemc : p'.mem c = { (p.mem c) with
      size := (p.mem c).size + HEADER_SIZE + (p.mem d).size,
      next := (p.mem d).next })
    (hmemo : ∀ o, o ≠ c → p'.mem o = p.mem o) :
    InvCore p' (x ++ c :: y) := by
  obtain ⟨hps8, hpsU, hpart, hchain, halloc, hfree⟩ := hinv
  have hlt := partSeg_lt_of_pairwise hpart
  obtain ⟨mid, hpx, hpcdy⟩ := partSeg_append_split hpart
  obtain ⟨hcm, hsc, hrest⟩ := hpcdy
  obtain ⟨hd, hsd, hpy⟩ := hrest
  have hsc2 : header_is_sane p (p.mem c) c := hsc
  have hsd2 : header_is_sane p (p.mem d) d := hsd
  obtain ⟨hcmag, hc8, hc16, hcend, hcnext⟩ := hsc
  obtain ⟨hdmag, hd8, hd16, hdend, hdnext⟩ := hsd
  have hben : blockEnd p d ≤ p.pool_size := partSeg_le hpy
  -- distinctness from the sorted partition
  have hxlt : ∀ o ∈ x, o < c := by
    intro o ho
    exact (List.pairwise_append.mp hlt).2.2 o ho c (by simp)
  have hxnec : ∀ o ∈ x, o ≠ c := fun o ho => Nat.ne_of_lt (hxlt o ho)
  have hcd : c < d := by
    have hp2 := (List.pairwise_append.mp hlt).2.1
    exact (List.pairwise_cons.mp hp2).1 d (by simp)
  have hylt : ∀ o ∈ y, d < o := by
    intro o ho
    have hp2 := (List.pairwise_append.mp hlt).2.1
    have hp3 := (List.pairwise_cons.mp hp2).2
    exact (List.pairwise_cons.mp hp3).1 o ho
  have hynec : ∀ o ∈ y, o ≠ c := by
    intro o ho
    have h1 := hylt o ho
    omega
  -- free/used status transfer
  have hstat : ∀ o, o ≠ c → (isFreeH p' o ↔ isFreeH p o) := by
    intro o hne
    unfold isFreeH
    rw [hmemo o hne]
  have hfcP : isFreeH p' c := by
    unfold isFreeH
    rw [hmemc]
    exact hfc
  have hfbx : freeBlocks p' x = freeBlocks p x :=
    freeBlocks_congr fun o ho => hstat o (hxnec o ho)
  have hfby : freeBlocks p' y = freeBlocks p y :=
    freeBlocks_congr fun o ho => hstat o (hynec o ho)
  have hubx : usedBlocks p' x = usedBlocks p x :=
    usedBlocks_congr fun o ho => hstat o (hxnec o ho)
  have huby : usedBlocks p' y = usedBlocks p y :=
    usedBlocks_congr fun o ho => hstat o (hynec o ho)
  have hfbs : freeBlocks p (x ++ c :: d :: y) =
      freeBlocks p x ++ c :: d :: freeBlocks p y := by
    rw [freeBlocks_append, freeBlocks_cons_pos _ hfc, freeBlocks_cons_pos _ hfd]
  have hubs : usedBlocks p (x ++ c :: d :: y) = usedBlocks p x ++ usedBlocks p y := by
    rw [usedBlocks_append, usedBlocks_cons_neg _ hfc, usedBlocks_cons_neg _ hfd]
  refine ⟨by rw [hps']; exact hps8, by rw [hps']; exact hpsU, ?_, ?_, ?_, ?_⟩
  · -- partition
    show partSeg p' 0 (x ++ c :: y) p'.pool_size
    rw [hps']
    refine partSeg_append (partSeg_congr_sane hps' ?_ hpx) ?_
    · intro o ho
      rw [hmemo o (hxnec o ho)]
      exact ⟨rfl, sane_congr hps' (partSeg_mem_sane hpart (by simp [ho]))⟩
    · refine ⟨hcm, ?_, ?_⟩
      · -- sanity of the merged block
        rw [hmemc]
        refine ⟨hcmag, hc8, ?_, ?_, ?_⟩
        · show MIN_ALLOC_SIZE ≤ (p.mem c).size + HEADER_SIZE + (p.mem d).size
          unfold HEADER_SIZE MIN_ALLOC_SIZE at *
          omega
        · show c + HEADER_SIZE + ((p.mem c).size + HEADER_SIZE + (p.mem d).size) ≤
            p'.pool_size
          rw [hps']
          unfold blockEnd at hd hben
          unfold HEADER_SIZE at *
          omega
        · show (p.mem d).next = POOL_NULL_OFFSET ∨ _
          rw [hps']
          exact hdnext
      · have hbe : blockEnd p' c = blockEnd p d := by
          unfold blockEnd at *
          rw [hmemc]
          show c + HEADER_SIZE + ((p.mem c).size + HEADER_SIZE + (p.mem d).size) = _
          unfold HEADER_SIZE at *
          omega
        rw [hbe]
        refine partSeg_congr_sane hps' ?_ hpy
        intro o ho
        rw [hmemo o (hynec o ho)]
        exact ⟨rfl, sane_congr hps' (partSeg_mem_sane hpart (by simp [ho]))⟩
  · -- free list chain
    show chainTo p' p'.free_list (freeBlocks p' (x ++ c :: y)) POOL_NULL_OFFSET
    rw [freeBlocks_append, freeBlocks_cons_pos _ hfcP, hfbx, hfby, hfl']
    rw [hfbs] at hchain
    obtain ⟨m1, hFx, htail⟩ := chainTo_append_split hchain
    obtain ⟨hm1, hcnd, hdchain⟩ := htail
    refine chainTo_append (chainTo_congr ?_ hFx) ?_
    · intro o ho
      rw [hmemo o (hxnec o (freeBlocks_sublist p x o ho).1)]
    · refine ⟨hm1, ?_⟩
      rw [hmemc]
      show chainTo p' (p.mem d).next (freeBlocks p y) POOL_NULL_OFFSET
      refine chainTo_congr ?_ hdchain
      intro o ho
      rw [hmemo o (hynec o (freeBlocks_sublist p y o ho).1)]
  · -- allocated counter
    show p'.allocated = sumSizes p' (usedBlocks p' (x ++ c :: y))
    rw [usedBlocks_append, usedBlocks_cons_neg _ hfcP, hubx, huby, halloc', halloc, hubs]
    refine (sumSizes_congr ?_).symm
    intro o ho
    rcases List.mem_append.mp ho with h1 | h1
    · rw [hmemo o (hxnec o (usedBlocks_sublist p x o h1).1)]
    · rw [hmemo o (hynec o (usedBlocks_sublist p y o h1).1)]
  · -- free-space counter
    show p'.free_space = sumSizes p' (freeBlocks p' (x ++ c :: y))
    rw [freeBlocks_append, freeBlocks_cons_pos _ hfcP, hfbx, hfby, hfs', hfree, hfbs]
    have hszc : (p'.mem c).size = (p.mem c).size + HEADER_SIZE + (p.mem d).size := by
      rw [hmemc]
    unfold sumSizes
    simp only [List.map_append, List.map_cons, List.sum_append, List.sum_cons]
    have hmx : List.map (fun o => (p'.mem o).size) (freeBlocks p x) =
        List.map (fun o => (p.mem o).size) (freeBlocks p x) :=
      List.map_congr_left fun o ho => by
        rw [hmemo o (hxnec o (freeBlocks_sublist p x o ho).1)]
    have hmy : List.map (fun o => (p'.mem o).size) (freeBlocks p y) =
        List.map (fun o => (p.mem o).size) (freeBlocks p y) :=
      List.map_congr_left fun o ho => by
        rw [hmemo o (hynec o (freeBlocks_sublist p y o ho).1)]
    rw [hmx, hmy, hszc]
    omega

/-- `pool_free` on a valid allocated block reduces to the splice-and-
coalesce tail, after marking the block free and moving both counters. -/
theorem pool_free_eq_link {pool : MemoryPool} {bs w z : List Nat} {b fuel : Nat}
    (hinv : InvWith pool bs) (hbs : bs = w ++ b :: z) (hnf : ¬ isFreeH pool b)
    (hfuel : (freeBlocks pool bs).length < fuel) :
    pool_free pool (some (b + HEADER_SIZE)) fuel =
      pool_free_link fuel (markFree pool b) b
        ((freeBlocks pool w).getLastD POOL_NULL_OFFSET)
        ((freeBlocks pool z).headD POOL_NULL_OFFSET) := by
  obtain ⟨hps8, hpsU, hpart, hchain, halloc, hfree, hnoadj⟩ := hinv
  have hlt := partSeg_lt_of_pairwise hpart
  have hbmem : b ∈ bs := by rw [hbs]; simp
  have hsb : header_is_sane pool (pool.mem b) b := partSeg_mem_sane hpart hbmem
  have hsb2 := hsb
  obtain ⟨hbm, hb8, hb16, hbend, hbnext⟩ := hsb2
  have hfbs : freeBlocks pool bs = freeBlocks pool w ++ freeBlocks pool z := by
    rw [hbs, freeBlocks_append, freeBlocks_cons_neg _ hnf]
  -- the validation ladder passes
  have hc1 : ¬ (b + HEADER_SIZE < HEADER_SIZE ∨ pool.pool_size ≤ b + HEADER_SIZE) := by
    push_neg
    unfold HEADER_SIZE MIN_ALLOC_SIZE at *
    omega
  have hpo8 : (b + HEADER_SIZE) % POOL_ALIGNMENT = 0 := by
    unfold HEADER_SIZE POOL_ALIGNMENT at *
    omega
  have hoff : (b + HEADER_SIZE - HEADER_SIZE) % U32 = b := by
    unfold HEADER_SIZE MIN_ALLOC_SIZE U32 at *
    omega
  have hc3 : ¬ (¬ b % POOL_ALIGNMENT = 0 ∨
      pool.pool_size < (b + HEADER_SIZE) % U32) := by
    push_neg
    refine ⟨hb8, ?_⟩
    rw [Nat.mod_eq_of_lt (by unfold HEADER_SIZE MIN_ALLOC_SIZE U32 at *; omega)]
    unfold HEADER_SIZE MIN_ALLOC_SIZE at *
    omega
  have hfetb : hdr_from_offset pool b = some (pool.mem b) :=
    hdr_from_offset_sane hpsU hsb
  simp only [pool_free]
  rw [if_neg hc1, if_neg (not_not_intro hpo8), hoff, if_neg hc3]
  simp only [hfetb]
  rw [if_neg (not_not_intro hsb),
    if_neg (show ¬ isFreeFlag (pool.mem b).flags from hnf)]
  rw [show { pool with
      mem := Function.update pool.mem b
        { (pool.mem b) with flags := setFreeBit (pool.mem b).flags },
      allocated := sub64 pool.allocated (pool.mem b).size,
      free_space := add64 pool.free_space (pool.mem b).size } = markFree pool b from rfl]
  -- decompose the free-list chain around the insertion point
  rw [hfbs] at hchain
  obtain ⟨m, hL, hR⟩ := chainTo_append_split hchain
  have hmv : m = (freeBlocks pool z).headD POOL_NULL_OFFSET := by
    cases hz : freeBlocks pool z with
    | nil =>
      rw [hz] at hR
      exact hR
    | cons r R' =>
      rw [hz] at hR
      exact hR.1
  have hwlt : ∀ o ∈ w, o < b := by
    intro o ho
    rw [hbs] at hlt
    exact (List.pairwise_append.mp hlt).2.2 o ho b (by simp)
  have hzgt : ∀ o ∈ z, b < o := by
    intro o ho
    rw [hbs] at hlt
    have hp2 := (List.pairwise_append.mp hlt).2.1
    exact (List.pairwise_cons.mp hp2).1 o ho
  have hnextP : ∀ o, ((markFree pool b).mem o).next = (pool.mem o).next := by
    intro o
    by_cases ho : o = b
    · subst ho
      simp [markFree, Function.update_same]
    · simp [markFree, Function.update_noteq ho]
  have hmemP : ∀ o, o ≠ b → (markFree pool b).mem o = pool.mem o := by
    intro o ho
    simp [markFree, Function.update_noteq ho]
  have hscan : insertScan (markFree pool b) b fuel POOL_NULL_OFFSET
      pool.free_list =
      some (some ((freeBlocks pool w).getLastD POOL_NULL_OFFSET,
        (freeBlocks pool z).headD POOL_NULL_OFFSET)) := by
    refine insertScan_spec
      (show (markFree pool b).pool_size + 32 ≤ U32 from hpsU) ?_ ?_ ?_ ?_
    · show chainTo _ pool.free_list (freeBlocks pool w) _
      rw [← hmv]
      exact chainTo_congr (fun o _ => hnextP o) hL
    · intro o ho
      have how : o ∈ w := (freeBlocks_sublist pool w o ho).1
      have hne : o ≠ b := Nat.ne_of_lt (hwlt o how)
      refine ⟨hwlt o how, ?_⟩
      rw [hmemP o hne]
      exact sane_congr rfl (partSeg_mem_sane hpart (by rw [hbs]; simp [how]))
    · cases hz : freeBlocks pool z with
      | nil => left; rfl
      | cons r R' =>
        right
        have : r ∈ z := by
          have : r ∈ freeBlocks pool z := by rw [hz]; simp
          exact (freeBlocks_sublist pool z r this).1
        have := hzgt r this
        simp only [List.headD_cons]
        omega
    · have : (freeBlocks pool w).length ≤ (freeBlocks pool bs).length := by
        rw [hfbs]
        simp
      omega
  rw [hscan]

/-- Rebuilding the core invariant after `pool_free` marks block `b` free,
moves both counters and splices `b` into the sorted free list. -/
theorem free_link_core {pool : MemoryPool} {w z : List Nat} {b : Nat} {p' : MemoryPool}
    (hinv : InvWith pool (w ++ b :: z)) (hnf : ¬ isFreeH pool b)
    (hps' : p'.pool_size = pool.pool_size)
    (halloc' : p'.allocated = pool.allocated - (pool.mem b).size)
    (hfs' : p'.free_space = pool.free_space + (pool.mem b).size)
    (hbsz : (p'.mem b).size = (pool.mem b).size)
    (hbmag : (p'.mem b).magic = (pool.mem b).magic)
    (hbfree : isFreeH p' b)
    (hbnext : (p'.mem b).next = (freeBlocks pool z).headD POOL_NULL_OFFSET)
    (hlink : chainTo p' p'.free_list
      (freeBlocks pool w ++ b :: freeBlocks pool z) POOL_NULL_OFFSET)
    (hother : ∀ o ∈ w ++ b :: z, o ≠ b →
      (p'.mem o).size = (pool.mem o).size ∧ (p'.mem o).flags = (pool.mem o).flags ∧
      header_is_sane p' (p'.mem o) o) :
    InvCore p' (w ++ b :: z) := by
  obtain ⟨hps8, hpsU, hpart, hchain, halloc, hfree, hnoadj⟩ := hinv
  have hlt := partSeg_lt_of_pairwise hpart
  have hbmem : b ∈ w ++ b :: z := by simp
  have hsb : header_is_sane pool (pool.mem b) b := partSeg_mem_sane hpart hbmem
  have hsb2 := hsb
  obtain ⟨hbm, hb8, hb16, hbend, hbn0⟩ := hsb2
  have hwne : ∀ o ∈ w, o ≠ b := by
    intro o ho
    have := (List.pairwise_append.mp hlt).2.2 o ho b (by simp)
    omega
  have hzne : ∀ o ∈ z, o ≠ b := by
    intro o ho
    have hp2 := (List.pairwise_append.mp hlt).2.1
    have := (List.pairwise_cons.mp hp2).1 o ho
    omega
  have hstat : ∀ o ∈ w ++ b :: z, o ≠ b → (isFreeH p' o ↔ isFreeH pool o) := by
    intro o ho hne
    obtain ⟨-, hfl, -⟩ := hother o ho hne
    unfold isFreeH isFreeFlag
    rw [hfl]
  have hfw : freeBlocks p' w = freeBlocks pool w :=
    freeBlocks_congr fun o ho => hstat o (by simp [ho]) (hwne o ho)
  have hfz : freeBlocks p' z = freeBlocks pool z :=
    freeBlocks_congr fun o ho => hstat o (by simp [ho]) (hzne o ho)
  have huw : usedBlocks p' w = usedBlocks pool w :=
    usedBlocks_congr fun o ho => hstat o (by simp [ho]) (hwne o ho)
  have huz : usedBlocks p' z = usedBlocks pool z :=
    usedBlocks_congr fun o ho => hstat o (by simp [ho]) (hzne o ho)
  have hsz : ∀ o ∈ w ++ b :: z, (p'.mem o).size = (pool.mem o).size := by
    intro o ho
    by_cases hne : o = b
    · subst hne; exact hbsz
    · exact (hother o ho hne).1
  -- sanity of b in the new state
  have hsaneb : header_is_sane p' (p'.mem b) b := by
    refine ⟨by rw [hbmag]; exact hbm, hb8, by rw [hbsz]; exact hb16, ?_, ?_⟩
    · rw [hbsz, hps']
      exact hbend
    · rw [hbnext, hps']
      cases hz : freeBlocks pool z with
      | nil => left; rfl
      | cons r R' =>
        simp only [List.headD_cons]
        right
        have hrz : r ∈ z := by
          have : r ∈ freeBlocks pool z := by rw [hz]; simp
          exact (freeBlocks_sublist pool z r this).1
        have hsr := partSeg_mem_sane hpart (show r ∈ w ++ b :: z by simp [hrz])
        obtain ⟨-, hr8, hr16, hrend, -⟩ := hsr
        refine ⟨hr8, ?_⟩
        rw [Nat.mod_eq_of_lt (by unfold HEADER_SIZE MIN_ALLOC_SIZE U32 at *; omega)]
        unfold HEADER_SIZE MIN_ALLOC_SIZE at *
        omega
  refine ⟨by rw [hps']; exact hps8, by rw [hps']; exact hpsU, ?_, ?_, ?_, ?_⟩
  · show partSeg p' 0 (w ++ b :: z) p'.pool_size
    rw [hps']
    refine partSeg_congr_sane hps' ?_ hpart
    intro o ho
    by_cases hne : o = b
    · subst hne
      exact ⟨hbsz, hsaneb⟩
    · exact ⟨(hother o ho hne).1, (hother o ho hne).2.2⟩
  · show chainTo p' p'.free_list (freeBlocks p' (w ++ b :: z)) POOL_NULL_OFFSET
    rw [freeBlocks_append, freeBlocks_cons_pos _ hbfree, hfw, hfz]
    exact hlink
  · show p'.allocated = sumSizes p' (usedBlocks p' (w ++ b :: z))
    rw [usedBlocks_append, usedBlocks_cons_neg _ hbfree, huw, huz, halloc', halloc]
    rw [show usedBlocks pool (w ++ b :: z) =
      usedBlocks pool w ++ b :: usedBlocks pool z from by
        rw [usedBlocks_append, usedBlocks_cons_pos _ hnf]]
    unfold sumSizes
    simp only [List.map_append, List.map_cons, List.sum_append, List.sum_cons]
    have hmw : List.map (fun o => (p'.mem o).size) (usedBlocks pool w) =
        List.map (fun o => (pool.mem o).size) (usedBlocks pool w) :=
      List.map_congr_left fun o ho =>
        (hother o (by simp [(usedBlocks_sublist pool w o ho).1])
          (hwne o (usedBlocks_sublist pool w o ho).1)).1
    have hmz : List.map (fun o => (p'.mem o).size) (usedBlocks pool z) =
        List.map (fun o => (pool.mem o).size) (usedBlocks pool z) :=
      List.map_congr_left fun o ho =>
        (hother o (by simp [(usedBlocks_sublist pool z o ho).1])
          (hzne o (usedBlocks_sublist pool z o ho).1)).1
    rw [hmw, hmz]
    omega
  · show p'.free_space = sumSizes p' (freeBlocks p' (w ++ b :: z))
    rw [freeBlocks_append, freeBlocks_cons_pos _ hbfree, hfw, hfz, hfs', hfree]
    rw [show freeBlocks pool (w ++ b :: z) =
      freeBlocks pool w ++ freeBlocks pool z from by
        rw [freeBlocks_append, freeBlocks_cons_neg _ hnf]]
    unfold sumSizes
    simp only [List.map_append, List.map_cons, List.sum_append, List.sum_cons]
    have hmw : List.map (fun o => (p'.mem o).size) (freeBlocks pool w) =
        List.map (fun o => (pool.mem o).size) (freeBlocks pool w) :=
      List.map_congr_left fun o ho =>
        (hother o (by simp [(freeBlocks_sublist pool w o ho).1])
          (hwne o (freeBlocks_sublist pool w o ho).1)).1
    have hmz : List.map (fun o => (p'.mem o).size) (freeBlocks pool z) =
        List.map (fun o => (pool.mem o).size) (freeBlocks pool z) :=
      List.map_congr_left fun o ho =>
        (hother o (by simp [(freeBlocks_sublist pool z o ho).1])
          (hzne o (freeBlocks_sublist pool z o ho).1)).1
    rw [hmw, hmz, hbsz]
    omega

/-- Forward coalescing from the freed block `b` on a state satisfying the
core invariant: it merges the physical successor exactly when that block
is free, and stops after at most one merge. -/
theorem fwd_step {p : MemoryPool} {u zz : List Nat} {b fuel : Nat}
    (hinv : InvCore p (u ++ b :: zz)) (hfb : isFreeH p b)
    (hnext : (p.mem b).next = (freeBlocks p zz).headD POOL_NULL_OFFSET)
    (hnoadj2 : ∀ s s' r, zz = s :: s' :: r → isFreeH p s → ¬ isFreeH p s')
    (hfuel : 2 ≤ fuel) :
    ∃ p4, coalesce_forward fuel p b = some p4 ∧
      ((headFreeB p zz = false ∧ p4 = p) ∨
       (∃ s zz', zz = s :: zz' ∧ isFreeH p s ∧
         InvCore p4 (u ++ b :: zz') ∧
         p4.pool_size = p.pool_size ∧ p4.free_list = p.free_list ∧
         p4.allocated = p.allocated ∧
         p4.free_space = p.free_space + HEADER_SIZE ∧
         (p4.mem b).size = (p.mem b).size + HEADER_SIZE + (p.mem s).size ∧
         (p4.mem b).next = (freeBlocks p zz').headD POOL_NULL_OFFSET ∧
         isFreeH p4 b ∧
         (∀ o, o ≠ b → p4.mem o = p.mem o))) := by
  obtain ⟨k, rfl⟩ : ∃ k, fuel = k + 2 := ⟨fuel - 2, by omega⟩
  have hinv2 := hinv
  obtain ⟨hps8, hpsU, hpart, hchain, halloc, hfree⟩ := hinv2
  have hlt := partSeg_lt_of_pairwise hpart
  have hbmem : b ∈ u ++ b :: zz := by simp
  have hsb := partSeg_mem_sane hpart hbmem
  have hsb2 := hsb
  obtain ⟨hbm, hb8, hb16, hbend, -⟩ := hsb2
  obtain ⟨mid, hpu, hpbz⟩ := partSeg_append_split hpart
  obtain ⟨hbm2, hsb3, hpz⟩ := hpbz
  cases hzz : zz with
  | nil =>
    subst hzz
    refine ⟨p, ?_, Or.inl ⟨rfl, rfl⟩⟩
    apply coalesce_eq_stop1
    right
    rw [hnext]
    rfl
  | cons s zz' =>
    subst hzz
    have hsmem : s ∈ u ++ b :: s :: zz' := by simp
    have hss := partSeg_mem_sane hpart hsmem
    have hss2 := hss
    obtain ⟨hsm, hs8, hs16, hsend, -⟩ := hss2
    have hbe : blockEnd p b = s := by
      obtain ⟨hseq, -, -⟩ := hpz
      exact hseq.symm
    have hadj : (b + HEADER_SIZE + (p.mem b).size) % U32 = s := by
      rw [show b + HEADER_SIZE + (p.mem b).size = blockEnd p b from rfl, hbe]
      apply Nat.mod_eq_of_lt
      unfold blockEnd at hbe
      unfold HEADER_SIZE MIN_ALLOC_SIZE U32 at *
      omega
    have hblt : b < s := by
      unfold blockEnd at hbe
      unfold HEADER_SIZE MIN_ALLOC_SIZE at *
      omega
    by_cases hfs : isFreeH p s
    · -- the successor is free: exactly one merge
      have hfz : freeBlocks p (s :: zz') = s :: freeBlocks p zz' :=
        freeBlocks_cons_pos _ hfs
      have hnexts : (p.mem b).next = s := by
        rw [hnext, hfz]
        rfl
      have hfbs : freeBlocks p (u ++ b :: s :: zz') =
          freeBlocks p u ++ b :: s :: freeBlocks p zz' := by
        rw [freeBlocks_append, freeBlocks_cons_pos _ hfb, hfz]
      have hchain2 := hchain
      rw [hfbs] at hchain2
      obtain ⟨m1, hFu, htail⟩ := chainTo_append_split hchain2
      obtain ⟨hm1, hbn, hschain⟩ := htail
      have hsnext : (p.mem s).next = (freeBlocks p zz').headD POOL_NULL_OFFSET := by
        cases hz' : freeBlocks p zz' with
        | nil =>
          rw [hz'] at hschain
          exact hschain
        | cons r R' =>
          rw [hz'] at hschain
          exact hschain.1
      have hsnn : s ≠ POOL_NULL_OFFSET := sane_ne_null hpsU hss
      have hfets : hdr_from_offset p s = some (p.mem s) := hdr_from_offset_sane hpsU hss
      have hmerge := @coalesce_eq_merge p b (k + 1)
        (show isFreeFlag (p.mem b).flags from hfb)
        (by rw [hnexts]; exact hsnn)
        (by rw [hnexts]; exact hfets)
        (by rw [hnexts]; exact hss)
        (by rw [hnexts]; exact hfs)
        (by rw [hnexts]; exact hadj)
      rw [hnexts] at hmerge
      have hben2 : blockEnd p s ≤ p.pool_size := by
        unfold blockEnd
        unfold HEADER_SIZE at *
        omega
      have hmod : ((p.mem b).size + HEADER_SIZE + (p.mem s).size) % U32 =
          (p.mem b).size + HEADER_SIZE + (p.mem s).size := by
        apply Nat.mod_eq_of_lt
        unfold blockEnd at hbe hben2
        unfold HEADER_SIZE U32 at *
        omega
      have hfs64 : add64 p.free_space HEADER_SIZE = p.free_space + HEADER_SIZE := by
        apply add64_eq_add
        have := invCore_fs_le hinv
        unfold HEADER_SIZE U64 U32 at *
        omega
      have hcore : InvCore { p with
            mem := Function.update p.mem b
              { (p.mem b) with
                size := ((p.mem b).size + HEADER_SIZE + (p.mem s).size) % U32,
                next := (p.mem s).next },
            free_space := add64 p.free_space HEADER_SIZE } (u ++ b :: zz') := by
        refine merge_core hinv hfb hfs rfl rfl rfl ?_ ?_ ?_
        · show add64 p.free_space HEADER_SIZE = _
          exact hfs64
        · show Function.update p.mem b _ b = _
          rw [Function.update_same, hmod]
        · intro o ho
          exact Function.update_noteq ho _ _
      rw [hmerge]
      have hq_next : (({ p with
            mem := Function.update p.mem b
              { (p.mem b) with
                size := ((p.mem b).size + HEADER_SIZE + (p.mem s).size) % U32,
                next := (p.mem s).next },
            free_space := add64 p.free_space HEADER_SIZE }).mem b).next =
          (freeBlocks p zz').headD POOL_NULL_OFFSET := by
        simp only [Function.update_same]
        exact hsnext
      have hq_free : isFreeH { p with
            mem := Function.update p.mem b
              { (p.mem b) with
                size := ((p.mem b).size + HEADER_SIZE + (p.mem s).size) % U32,
                next := (p.mem s).next },
            free_space := add64 p.free_space HEADER_SIZE } b := by
        unfold isFreeH
        simp only [Function.update_same]
        exact hfb
      have hstop : coalesce_forward (k + 1) { p with
            mem := Function.update p.mem b
              { (p.mem b) with
                size := ((p.mem b).size + HEADER_SIZE + (p.mem s).size) % U32,
                next := (p.mem s).next },
            free_space := add64 p.free_space HEADER_SIZE } b =
          some { p with
            mem := Function.update p.mem b
              { (p.mem b) with
                size := ((p.mem b).size + HEADER_SIZE + (p.mem s).size) % U32,
                next := (p.mem s).next },
            free_space := add64 p.free_space HEADER_SIZE } := by
        cases hz' : freeBlocks p zz' with
        | nil =>
          apply coalesce_eq_stop1
          right
          rw [hq_next, hz']
          rfl
        | cons r R' =>
          have hrz : r ∈ zz' := by
            have : r ∈ freeBlocks p zz' := by rw [hz']; simp
            exact (freeBlocks_sublist p zz' r this).1
          have hrfree : isFreeH p r := by
            have : r ∈ freeBlocks p zz' := by rw [hz']; simp
            exact (freeBlocks_sublist p zz' r this).2
          have hrmem : r ∈ u ++ b :: s :: zz' := by simp [hrz]
          have hsr := partSeg_mem_sane hpart hrmem
          have hrneb : r ≠ b := by
            have hp2 := (List.pairwise_append.mp hlt).2.1
            have := (List.pairwise_cons.mp hp2).1 r (by simp [hrz])
            omega
          have hmemr : ({ p with
            mem := Function.update p.mem b
              { (p.mem b) with
                size := ((p.mem b).size + HEADER_SIZE + (p.mem s).size) % U32,
                next := (p.mem s).next },
            free_space := add64 p.free_space HEADER_SIZE }).mem r = p.mem r :=
            Function.update_noteq hrneb _ _
          have hpsP4 : ({ p with
            mem := Function.update p.mem b
              { (p.mem b) with
                size := ((p.mem b).size + HEADER_SIZE + (p.mem s).size) % U32,
                next := (p.mem s).next },
            free_space := add64 p.free_space HEADER_SIZE }).pool_size = p.pool_size := rfl
          have hnextq : (({ p with
            mem := Function.update p.mem b
              { (p.mem b) with
                size := ((p.mem b).size + HEADER_SIZE + (p.mem s).size) % U32,
                next := (p.mem s).next },
            free_space := add64 p.free_space HEADER_SIZE }).mem b).next = r := by
            rw [hq_next, hz']
            rfl
          -- zz' is nonempty; its head is the physical end of the merged block
          cases hzz2 : zz' with
          | nil => rw [hzz2] at hrz; cases hrz
          | cons s2 rest =>
            subst hzz2
            obtain ⟨-, -, hpz2⟩ := hpz
            obtain ⟨hs2eq, -, -⟩ := hpz2
            have hs2nf : ¬ isFreeH p s2 := hnoadj2 s s2 rest rfl hfs
            have hrnes2 : r ≠ s2 := fun he => hs2nf (he ▸ hrfree)
            have hs2lt : s2 ≤ r := by
              rcases List.mem_cons.mp hrz with he | hmem2
              · omega
              · have hp2 := (List.pairwise_append.mp hlt).2.1
                have hp3 := (List.pairwise_cons.mp hp2).2
                have hp4 := (List.pairwise_cons.mp hp3).2
                have := (List.pairwise_cons.mp hp4).1 r hmem2
                omega
            apply coalesce_eq_stop2 hq_free
              (by rw [hnextq]; exact sane_ne_null hpsU hsr)
              (by
                rw [hnextq]
                rw [hdr_from_offset_congr hpsP4 hmemr]
                rw [hmemr]
                exact hdr_from_offset_sane hpsU hsr)
            right
            right
            rw [hnextq]
            have hqsz : (({ p with
            mem := Function.update p.mem b
              { (p.mem b) with
                size := ((p.mem b).size + HEADER_SIZE + (p.mem s).size) % U32,
                next := (p.mem s).next },
            free_space := add64 p.free_space HEADER_SIZE }).mem b).size =
                (p.mem b).size + HEADER_SIZE + (p.mem s).size := by
              simp only [Function.update_same]
              exact hmod
            rw [hqsz]
            have hend2 : b + HEADER_SIZE +
                ((p.mem b).size + HEADER_SIZE + (p.mem s).size) = blockEnd p s := by
              unfold blockEnd at hbe ⊢
              unfold HEADER_SIZE at *
              omega
            rw [hend2]
            rw [Nat.mod_eq_of_lt (by
              unfold blockEnd at hben2 ⊢
              unfold HEADER_SIZE U32 at *
              omega)]
            rw [← hs2eq]
            exact Ne.symm hrnes2
      rw [hstop]
      refine ⟨_, rfl, Or.inr ⟨s, zz', rfl, hfs, hcore, rfl, rfl, rfl, hfs64, ?_, hq_next,
        hq_free, fun o ho => Function.update_noteq ho _ _⟩⟩
      simp only [Function.update_same]
      exact hmod
    · -- the successor is allocated: no merge
      have hfz : freeBlocks p (s :: zz') = freeBlocks p zz' :=
        freeBlocks_cons_neg _ hfs
      refine ⟨p, ?_, Or.inl ⟨by simp [headFreeB, hfs], rfl⟩⟩
      cases hz' : freeBlocks p zz' with
      | nil =>
        apply coalesce_eq_stop1
        right
        rw [hnext, hfz, hz']
        rfl
      | cons r R' =>
        have hrz : r ∈ zz' := by
          have : r ∈ freeBlocks p zz' := by rw [hz']; simp
          exact (freeBlocks_sublist p zz' r this).1
        have hrmem : r ∈ u ++ b :: s :: zz' := by simp [hrz]
        have hsr := partSeg_mem_sane hpart hrmem
        have hnextr : (p.mem b).next = r := by
          rw [hnext, hfz, hz']
          rfl
        have hslt : s < r := by
          have hp2 := (List.pairwise_append.mp hlt).2.1
          have hp3 := (List.pairwise_cons.mp hp2).2
          exact (List.pairwise_cons.mp hp3).1 r hrz
        apply coalesce_eq_stop2
          (show isFreeFlag (p.mem b).flags from hfb)
          (by rw [hnextr]; exact sane_ne_null hpsU hsr)
          (by rw [hnextr]; exact hdr_from_offset_sane hpsU hsr)
        right
        right
        rw [hnextr, hadj]
        omega

theorem headFreeB_congr {q p : MemoryPool} :
    ∀ {l : List Nat}, (∀ o ∈ l, (isFreeH q o ↔ isFreeH p o)) →
      headFreeB q l = headFreeB p l := by
  intro l h
  cases l with
  | nil => rfl
  | cons a t =>
    simp only [headFreeB]
    exact decide_eq_decide.mpr (h a (by simp))

theorem lastFreeB_concat (p : MemoryPool) (l : List Nat) (a : Nat) :
    lastFreeB p (l ++ [a]) = decide (isFreeH p a) := by
  unfold lastFreeB
  rw [List.reverse_append]
  rfl

theorem lastFreeB_nil (p : MemoryPool) : lastFreeB p [] = false := rfl

/-- Rebuilding the no-adjacent-free-blocks clause around a middle block
`B` whose neighbours are allocated. -/
theorem noAdj_mid {pf pool : MemoryPool} {W Z : List Nat} {B : Nat}
    (hstat : ∀ o, o ≠ B → (isFreeH pf o ↔ isFreeH pool o))
    (hWadj : List.Chain' (fun a b => ¬(isFreeH pool a ∧ isFreeH pool b)) W)
    (hZadj : List.Chain' (fun a b => ¬(isFreeH pool a ∧ isFreeH pool b)) Z)
    (hWB : ∀ o ∈ W, o ≠ B) (hZB : ∀ o ∈ Z, o ≠ B)
    (hlast : ∀ t, W.getLast? = some t → ¬ isFreeH pool t)
    (hhead : ∀ s, Z.head? = some s → ¬ isFreeH pool s) :
    noAdjFree pf (W ++ B :: Z) := by
  unfold noAdjFree
  rw [List.chain'_append]
  refine ⟨?_, ?_, ?_⟩
  · refine chain'_imp_mem ?_ hWadj
    intro a c ha hc hR hf
    exact hR ⟨(hstat a (hWB a ha)).mp hf.1, (hstat c (hWB c hc)).mp hf.2⟩
  · rw [List.chain'_cons']
    refine ⟨?_, ?_⟩
    · intro y hy hf
      cases Z with
      | nil => simp at hy
      | cons s Z' =>
        have hys : s = y := by simpa using hy
        subst hys
        exact hhead s rfl ((hstat s (hZB s (by simp))).mp hf.2)
    · refine chain'_imp_mem ?_ hZadj
      intro a c ha hc hR hf
      exact hR ⟨(hstat a (hZB a ha)).mp hf.1, (hstat c (hZB c hc)).mp hf.2⟩
  · intro x hx y hy hf
    cases Z with
    | nil =>
      simp only [List.head?_cons, Option.mem_def, Option.some.injEq] at hy
      subst hy
      rw [Option.mem_def] at hx
      exact hlast x hx ((hstat x (hWB x (List.mem_of_getLast?_eq_some hx))).mp hf.1)
    | cons s Z' =>
      simp only [List.head?_cons, Option.mem_def, Option.some.injEq] at hy
      subst hy
      rw [Option.mem_def] at hx
      exact hlast x hx ((hstat x (hWB x (List.mem_of_getLast?_eq_some hx))).mp hf.1)

theorem lastFreeB_false_of_no_free {pool : MemoryPool} {w : List Nat}
    (h : freeBlocks pool w = []) : lastFreeB pool w = false := by
  rcases List.eq_nil_or_concat w with rfl | ⟨w', t, rfl⟩
  · rfl
  · rw [List.concat_eq_append] at h ⊢
    rw [lastFreeB_concat]
    simp only [decide_eq_false_iff_not]
    intro hft
    have : t ∈ freeBlocks pool (w' ++ [t]) := by
      unfold freeBlocks
      simp [List.mem_filter, hft]
    rw [h] at this
    cases this

theorem pool_free_link_eq_head (fuel : Nat) (p1 : MemoryPool) (b stop : Nat) :
    pool_free_link fuel p1 b POOL_NULL_OFFSET stop =
      match coalesce_forward fuel (freeSplicedHead p1 b stop) b with
      | none => FreeResult.diverge
      | some p4 => FreeResult.done p4 := by
  simp only [pool_free_link]
  rfl

theorem pool_free_link_eq_prev (fuel : Nat) (p1 : MemoryPool) (b pl stop : Nat)
    {w : BlockHeader}
    (hne : pl ≠ POOL_NULL_OFFSET)
    (hfet : hdr_from_offset
      { p1 with mem := Function.update p1.mem b { (p1.mem b) with next := stop } } pl =
      some w)
    (hsane : header_is_sane
      { p1 with mem := Function.update p1.mem b { (p1.mem b) with next := stop } } w pl) :
    pool_free_link fuel p1 b pl stop =
      match coalesce_forward fuel (freeSplicedPrev p1 b pl stop w) b with
      | none => FreeResult.diverge
      | some p4 =>
        if pl = POOL_NULL_OFFSET then FreeResult.done p4
        else
          match hdr_from_offset p4 pl with
          | none => FreeResult.done p4
          | some prev2 =>
            if header_is_sane p4 prev2 pl ∧ isFreeFlag prev2.flags then
              if (pl + HEADER_SIZE + prev2.size) % U32 = b then
                match coalesce_forward fuel
                  { p4 with
                    mem := Function.update p4.mem pl
                      { prev2 with
                        size := (prev2.size + HEADER_SIZE + (p4.mem b).size) % U32,
                        next := (p4.mem b).next },
                    free_space := add64 p4.free_space HEADER_SIZE } pl with
                | none => FreeResult.diverge
                | some p6 => FreeResult.done p6
              else FreeResult.done p4
            else FreeResult.done p4 := by
  simp only [pool_free_link]
  rw [if_neg hne]
  simp only [hfet]
  rw [if_neg (not_not_intro hsane)]
  rfl

/-- The backward-coalescing tail of `pool_free_link`: after the forward
pass, the last free block `pl` before `b` is merged with `b` exactly when
it is physically adjacent, i.e. when no allocated block (`w2`) separates
them; `free_space` gains the reclaimed header exactly in that case. -/
theorem back_step {pool p4 : MemoryPool} {w1 w2 Y : List Nat} {pl b fuel : Nat}
    (hinv4 : InvCore p4 ((w1 ++ pl :: w2) ++ b :: Y))
    (hplmem : p4.mem pl = { pool.mem pl with next := b })
    (hplfree : isFreeH pool pl)
    (hfree4b : isFreeH p4 b)
    (hnext4 : (p4.mem b).next = (freeBlocks p4 Y).headD POOL_NULL_OFFSET)
    (hWadj : List.Chain' (fun a c => ¬(isFreeH p4 a ∧ isFreeH p4 c)) (w1 ++ pl :: w2))
    (hw2free : ∀ o ∈ w2, ¬ isFreeH p4 o)
    (hYadj : List.Chain' (fun a c => ¬(isFreeH p4 a ∧ isFreeH p4 c)) Y)
    (hYhead : ∀ t, Y.head? = some t → ¬ isFreeH p4 t)
    (hfuel : 2 ≤ fuel) :
    ∃ pf bsF,
      (if (pl + HEADER_SIZE + (p4.mem pl).size) % U32 = b then
         match coalesce_forward fuel
           { p4 with
             mem := Function.update p4.mem pl
               { magic := (p4.mem pl).magic,
                 size := ((p4.mem pl).size + HEADER_SIZE + (p4.mem b).size) % U32,
                 next := (p4.mem b).next,
                 flags := (p4.mem pl).flags },
             free_space := add64 p4.free_space HEADER_SIZE } pl with
         | none => FreeResult.diverge
         | some p6 => FreeResult.done p6
       else FreeResult.done p4) = FreeResult.done pf ∧
      InvWith pf bsF ∧
      pf.pool_size = p4.pool_size ∧ pf.allocated = p4.allocated ∧
      pf.free_space = p4.free_space + (if w2 = [] then HEADER_SIZE else 0) ∧
      bsF.length ≤ ((w1 ++ pl :: w2) ++ b :: Y).length := by
  have hinvC := hinv4
  obtain ⟨hps8, hpsU, hpart, hchain, halloc, hfree⟩ := hinvC
  have hlt := partSeg_lt_of_pairwise hpart
  have hfree4pl : isFreeH p4 pl := by
    unfold isFreeH
    rw [hplmem]
    exact hplfree
  have hw1lt : ∀ o ∈ w1, o < pl := by
    intro o ho
    have h1 := (List.pairwise_append.mp (List.pairwise_append.mp hlt).1).2.2
    exact h1 o ho pl (by simp)
  have hwltb : ∀ o ∈ w1 ++ pl :: w2, o < b := by
    intro o ho
    exact (List.pairwise_append.mp hlt).2.2 o ho b (by simp)
  have hYgtb : ∀ o ∈ Y, b < o := by
    intro o ho
    exact (List.pairwise_cons.mp (List.pairwise_append.mp hlt).2.1).1 o ho
  have hplltb : pl < b := hwltb pl (by simp)
  obtain ⟨mid1, hseg1, hseg2⟩ := partSeg_append_split hpart
  obtain ⟨mid2, hsegw1, hsegpl⟩ := partSeg_append_split hseg1
  obtain ⟨hpleqm, hplsane4, hsegw2⟩ := hsegpl
  obtain ⟨hbeqm, hbsane4, hsegY⟩ := hseg2
  have hplend4 := hplsane4.2.2.2.1
  have hbend4 := hbsane4.2.2.2.1
  have hmodid : (pl + HEADER_SIZE + (p4.mem pl).size) % U32 =
      pl + HEADER_SIZE + (p4.mem pl).size := by
    apply Nat.mod_eq_of_lt
    have h2 := hpsU
    unfold U32 at h2 ⊢
    omega
  rcases w2 with _ | ⟨a, w2'⟩
  · -- `pl` is physically adjacent to `b`: backward merge
    have hble : blockEnd p4 pl = mid1 := hsegw2
    have hadjU : pl + HEADER_SIZE + (p4.mem pl).size = b := by
      unfold blockEnd at hble
      omega
    have hadj : (pl + HEADER_SIZE + (p4.mem pl).size) % U32 = b := by
      rw [hmodid]
      exact hadjU
    rw [if_pos hadj]
    have hmod2 : ((p4.mem pl).size + HEADER_SIZE + (p4.mem b).size) % U32 =
        (p4.mem pl).size + HEADER_SIZE + (p4.mem b).size := by
      apply Nat.mod_eq_of_lt
      have h2 := hpsU
      unfold U32 at h2 ⊢
      unfold HEADER_SIZE at *
      omega
    set P5 : MemoryPool := { p4 with
             mem := Function.update p4.mem pl
               { magic := (p4.mem pl).magic,
                 size := ((p4.mem pl).size + HEADER_SIZE + (p4.mem b).size) % U32,
                 next := (p4.mem b).next,
                 flags := (p4.mem pl).flags },
             free_space := add64 p4.free_space HEADER_SIZE } with hP5
    have hinv4n : InvCore p4 (w1 ++ pl :: b :: Y) := by
      have h := hinv4
      simp only [List.append_assoc, List.cons_append, List.nil_append] at h
      exact h
    have hfs5 : P5.free_space = p4.free_space + HEADER_SIZE := by
      show add64 p4.free_space HEADER_SIZE = p4.free_space + HEADER_SIZE
      apply add64_eq_add
      have h1 := invCore_fs_le hinv4
      have h2 := hpsU
      unfold U32 at h2
      unfold U64 HEADER_SIZE
      omega
    have hcore5 : InvCore P5 (w1 ++ pl :: Y) := by
      refine merge_core hinv4n hfree4pl hfree4b rfl rfl rfl hfs5 ?_ ?_
      · show Function.update p4.mem pl
            { magic := (p4.mem pl).magic,
              size := ((p4.mem pl).size + HEADER_SIZE + (p4.mem b).size) % U32,
              next := (p4.mem b).next,
              flags := (p4.mem pl).flags } pl =
            { (p4.mem pl) with
              size := (p4.mem pl).size + HEADER_SIZE + (p4.mem b).size,
              next := (p4.mem b).next }
        rw [Function.update_same, hmod2]
      · intro o ho
        show Function.update p4.mem pl
            { magic := (p4.mem pl).magic,
              size := ((p4.mem pl).size + HEADER_SIZE + (p4.mem b).size) % U32,
              next := (p4.mem b).next,
              flags := (p4.mem pl).flags } o = p4.mem o
        rw [Function.update_noteq ho]
    have hstat5 : ∀ o, o ≠ pl → (isFreeH P5 o ↔ isFreeH p4 o) := by
      intro o ho
      unfold isFreeH
      show isFreeFlag ((Function.update p4.mem pl
        { magic := (p4.mem pl).magic,
          size := ((p4.mem pl).size + HEADER_SIZE + (p4.mem b).size) % U32,
          next := (p4.mem b).next,
          flags := (p4.mem pl).flags }) o).flags ↔ _
      rw [Function.update_noteq ho]
    have hfree5pl : isFreeH P5 pl := by
      unfold isFreeH
      show isFreeFlag ((Function.update p4.mem pl
        { magic := (p4.mem pl).magic,
          size := ((p4.mem pl).size + HEADER_SIZE + (p4.mem b).size) % U32,
          next := (p4.mem b).next,
          flags := (p4.mem pl).flags }) pl).flags
      rw [Function.update_same]
      exact hfree4pl
    have hYne : ∀ o ∈ Y, o ≠ pl := by
      intro o ho
      have := hYgtb o ho
      omega
    have hfb5Y : freeBlocks P5 Y = freeBlocks p4 Y :=
      freeBlocks_congr (fun o ho => hstat5 o (hYne o ho))
    have hnext5pl : (P5.mem pl).next = (freeBlocks P5 Y).headD POOL_NULL_OFFSET := by
      rw [hfb5Y, ← hnext4]
      show ((Function.update p4.mem pl
        { magic := (p4.mem pl).magic,
          size := ((p4.mem pl).size + HEADER_SIZE + (p4.mem b).size) % U32,
          next := (p4.mem b).next,
          flags := (p4.mem pl).flags }) pl).next = (p4.mem b).next
      rw [Function.update_same]
    have hnoadjY5 : ∀ s s' r, Y = s :: s' :: r → isFreeH P5 s → ¬ isFreeH P5 s' := by
      intro s s' r hY hs hs'
      have hsY : s ∈ Y := by rw [hY]; simp
      have hs'Y : s' ∈ Y := by rw [hY]; simp
      have h2 := hYadj
      rw [hY] at h2
      exact (List.chain'_cons.mp h2).1
        ⟨(hstat5 s (hYne s hsY)).mp hs, (hstat5 s' (hYne s' hs'Y)).mp hs'⟩
    have hheadY5 : headFreeB P5 Y = false := by
      cases hY : Y with
      | nil => rfl
      | cons t Y' =>
        simp only [headFreeB, decide_eq_false_iff_not]
        intro hf
        refine hYhead t (by rw [hY]; rfl) ?_
        exact (hstat5 t (hYne t (by rw [hY]; simp))).mp hf
    obtain ⟨p6, hp6eq, hdisj6⟩ := @fwd_step P5 w1 Y pl fuel hcore5 hfree5pl hnext5pl hnoadjY5 hfuel
    simp only [hp6eq]
    rcases hdisj6 with ⟨-, rfl⟩ | ⟨s6, Y6, hY6, hsf6, -⟩
    · refine ⟨P5, w1 ++ pl :: Y, rfl, ?_, rfl, rfl, ?_, by simp⟩
      · refine invWith_of_core hcore5 ?_
        refine noAdj_mid hstat5 ?_ hYadj ?_ hYne ?_ hYhead
        · exact (List.chain'_append.mp hWadj).1
        · exact fun o ho => Nat.ne_of_lt (hw1lt o ho)
        · intro t ht hf
          exact (List.chain'_append.mp hWadj).2.2 t ht pl rfl ⟨hf, hfree4pl⟩
      · simpa using hfs5
    · exfalso
      rw [hY6] at hheadY5
      simp only [headFreeB, decide_eq_false_iff_not] at hheadY5
      exact hheadY5 hsf6
  · -- an allocated block separates `pl` from `b`: no backward merge
    obtain ⟨hae, -, -⟩ := hsegw2
    have hnadj : (pl + HEADER_SIZE + (p4.mem pl).size) % U32 ≠ b := by
      rw [hmodid]
      have hab : a < b := hwltb a (by simp)
      unfold blockEnd at hae
      omega
    rw [if_neg hnadj]
    refine ⟨p4, (w1 ++ pl :: a :: w2') ++ b :: Y, rfl, ?_, rfl, rfl, by simp, Nat.le_refl _⟩
    refine invWith_of_core hinv4 ?_
    refine noAdj_mid (fun o ho => Iff.rfl) hWadj hYadj ?_ ?_ ?_ hYhead
    · exact fun o ho => Nat.ne_of_lt (hwltb o ho)
    · intro o ho
      have := hYgtb o ho
      omega
    · intro t ht
      have hg2 : (w1 ++ pl :: a :: w2').getLast? = (a :: w2').getLast? := by
        rw [show w1 ++ pl :: a :: w2' = (w1 ++ [pl]) ++ (a :: w2') by simp]
        exact List.getLast?_append_of_ne_nil _ (by simp)
      have hg3 : (a :: w2').getLast? = some t := hg2.symm.trans ht
      exact hw2free t (List.mem_of_getLast?_eq_some hg3)

/-- `pool_free` of a valid allocated block on an uncorrupted pool: the
call completes, the invariant is re-established on a (possibly smaller)
block tiling, `allocated` drops by the payload size and `free_space` grows
by the payload plus one reclaimed header per coalesced free neighbour. -/
theorem pool_free_spec {pool : MemoryPool} {bs w z : List Nat} {b fuel : Nat}
    (hinv : InvWith pool bs) (hbs : bs = w ++ b :: z) (hnf : ¬ isFreeH pool b)
    (hfuel : (freeBlocks pool bs).length + 2 ≤ fuel) :
    ∃ pf bsF, pool_free pool (some (b + HEADER_SIZE)) fuel = FreeResult.done pf ∧
      InvWith pf bsF ∧
      pf.pool_size = pool.pool_size ∧
      pf.allocated = pool.allocated - (pool.mem b).size ∧
      pf.free_space = pool.free_space + (pool.mem b).size +
        (if headFreeB pool z then HEADER_SIZE else 0) +
        (if lastFreeB pool w then HEADER_SIZE else 0) ∧
      bsF.length ≤ (w ++ b :: z).length := by
  subst hbs
  rw [pool_free_eq_link hinv rfl hnf (by omega)]
  have hinvwc := invCore_of_invWith hinv
  have hinv0 := hinv
  obtain ⟨hps8, hpsU, hpart, hchain, halloc, hfree, hnoadj⟩ := hinv0
  have hlt := partSeg_lt_of_pairwise hpart
  have hbmem : b ∈ w ++ b :: z := by simp
  have hsb := partSeg_mem_sane hpart hbmem
  have hsb2 := hsb
  obtain ⟨hbm, hb8, hb16, hbend, hbn0⟩ := hsb2
  have hwlt : ∀ o ∈ w, o < b := by
    intro o ho
    exact (List.pairwise_append.mp hlt).2.2 o ho b (by simp)
  have hzgt : ∀ o ∈ z, b < o := by
    intro o ho
    have hp2 := (List.pairwise_append.mp hlt).2.1
    exact (List.pairwise_cons.mp hp2).1 o ho
  have hwne : ∀ o ∈ w, o ≠ b := fun o ho => Nat.ne_of_lt (hwlt o ho)
  have hzne : ∀ o ∈ z, o ≠ b := by
    intro o ho
    have := hzgt o ho
    omega
  have hbused : b ∈ usedBlocks pool (w ++ b :: z) := by
    unfold usedBlocks
    rw [List.mem_filter]
    exact ⟨hbmem, by simpa using hnf⟩
  have hSalloc : (pool.mem b).size ≤ pool.allocated := by
    rw [halloc]
    exact sumSizes_mem_le hbused
  have hallocle := invCore_alloc_le hinvwc
  have hfsle := invCore_fs_le hinvwc
  have halloc64 : sub64 pool.allocated (pool.mem b).size =
      pool.allocated - (pool.mem b).size :=
    sub64_eq_sub hSalloc (by unfold U64 U32 at *; omega)
  have hfs64 : add64 pool.free_space (pool.mem b).size =
      pool.free_space + (pool.mem b).size :=
    add64_eq_add (by unfold HEADER_SIZE U64 U32 at *; omega)
  have hnoadj0 : List.Chain' (fun a c => ¬(isFreeH pool a ∧ isFreeH pool c))
      (w ++ b :: z) := hnoadj
  rw [List.chain'_append] at hnoadj0
  obtain ⟨hWadj, hBZ, hWlink⟩ := hnoadj0
  rw [List.chain'_cons'] at hBZ
  obtain ⟨hBhead, hZadj⟩ := hBZ
  have hfbs : freeBlocks pool (w ++ b :: z) = freeBlocks pool w ++ freeBlocks pool z := by
    rw [freeBlocks_append, freeBlocks_cons_neg _ hnf]
  have hchain2 := hchain
  rw [hfbs] at hchain2
  obtain ⟨m, hLch, hRch⟩ := chainTo_append_split hchain2
  have hmv : m = (freeBlocks pool z).headD POOL_NULL_OFFSET := by
    cases hz : freeBlocks pool z with
    | nil =>
      rw [hz] at hRch
      exact hRch
    | cons r R' =>
      rw [hz] at hRch
      exact hRch.1
  rcases List.eq_nil_or_concat (freeBlocks pool w) with hLw | ⟨L', pl, hLw⟩
  · -- the freed block becomes the new list head
    have hwnf : ∀ o ∈ w, ¬ isFreeH pool o := by
      intro o ho hf
      have : o ∈ freeBlocks pool w := by
        unfold freeBlocks
        rw [List.mem_filter]
        exact ⟨ho, by simpa using hf⟩
      rw [hLw] at this
      cases this
    rw [hLw, show ([] : List Nat).getLastD POOL_NULL_OFFSET = POOL_NULL_OFFSET from rfl]
    rw [pool_free_link_eq_head]
    have hmem3o : ∀ o, o ≠ b → (freeSplicedHead (markFree pool b) b ((freeBlocks pool z).headD POOL_NULL_OFFSET)).mem o = pool.mem o := by
      intro o ho
      simp [freeSplicedHead, markFree, Function.update_noteq ho]
    have hstat3 : ∀ o, o ≠ b →
        (isFreeH (freeSplicedHead (markFree pool b) b ((freeBlocks pool z).headD POOL_NULL_OFFSET)) o ↔ isFreeH pool o) := by
      intro o ho
      unfold isFreeH
      rw [hmem3o o ho]
    have hfreeb3 : isFreeH (freeSplicedHead (markFree pool b) b ((freeBlocks pool z).headD POOL_NULL_OFFSET)) b := by
      unfold isFreeH
      simp only [freeSplicedHead, markFree, Function.update_same]
      exact setFreeBit_free _
    have hinv3 : InvCore (freeSplicedHead (markFree pool b) b ((freeBlocks pool z).headD POOL_NULL_OFFSET)) (w ++ b :: z) := by
      refine free_link_core hinv hnf rfl ?_ ?_ ?_ ?_ hfreeb3 ?_ ?_ ?_
      · exact halloc64
      · exact hfs64
      · simp [freeSplicedHead, markFree, Function.update_same]
      · simp [freeSplicedHead, markFree, Function.update_same]
      · simp [freeSplicedHead, markFree, Function.update_same]
      · rw [hLw, List.nil_append]
        refine ⟨rfl, ?_⟩
        show chainTo _ (((freeSplicedHead (markFree pool b) b ((freeBlocks pool z).headD POOL_NULL_OFFSET)).mem b).next) (freeBlocks pool z)
          POOL_NULL_OFFSET
        have hbn3 : ((freeSplicedHead (markFree pool b) b ((freeBlocks pool z).headD POOL_NULL_OFFSET)).mem b).next =
            (freeBlocks pool z).headD POOL_NULL_OFFSET := by
          simp [freeSplicedHead, markFree, Function.update_same]
        rw [hbn3, ← hmv]
        refine chainTo_congr ?_ hRch
        intro o ho
        rw [hmv, hmem3o o (hzne o (freeBlocks_sublist pool z o ho).1)]
      · intro o ho hne
        rw [hmem3o o hne]
        exact ⟨rfl, rfl, sane_congr rfl (partSeg_mem_sane hpart ho)⟩
    have hnoadj2 : ∀ s s' r, z = s :: s' :: r →
        isFreeH (freeSplicedHead (markFree pool b) b ((freeBlocks pool z).headD POOL_NULL_OFFSET)) s → ¬ isFreeH (freeSplicedHead (markFree pool b) b ((freeBlocks pool z).headD POOL_NULL_OFFSET)) s' := by
      intro s s' r hz hfs3 hfs'3
      have hsz2 : s ∈ z := by rw [hz]; simp
      have hs'z : s' ∈ z := by rw [hz]; simp
      have hZ2 := hZadj
      rw [hz] at hZ2
      exact (List.chain'_cons.mp hZ2).1
        ⟨(hstat3 s (hzne s hsz2)).mp hfs3, (hstat3 s' (hzne s' hs'z)).mp hfs'3⟩
    have hnext3 : (((freeSplicedHead (markFree pool b) b ((freeBlocks pool z).headD POOL_NULL_OFFSET)).mem b)).next =
        (freeBlocks (freeSplicedHead (markFree pool b) b ((freeBlocks pool z).headD POOL_NULL_OFFSET)) z).headD POOL_NULL_OFFSET := by
      have hfz3 : freeBlocks (freeSplicedHead (markFree pool b) b ((freeBlocks pool z).headD POOL_NULL_OFFSET)) z = freeBlocks pool z :=
        freeBlocks_congr (fun o ho => hstat3 o (hzne o ho))
      rw [hfz3]
      simp [freeSplicedHead, markFree, Function.update_same]
    obtain ⟨p4, hp4eq, hdisj⟩ := @fwd_step _ w z b fuel hinv3 hfreeb3 hnext3 hnoadj2 (by omega)
    simp only [hp4eq]
    have hlast : ∀ t, w.getLast? = some t → ¬ isFreeH pool t :=
      fun t ht => hwnf t (List.mem_of_getLast?_eq_some ht)
    rcases hdisj with ⟨htag, rfl⟩ | ⟨s, z', hzz, hsfree3, hinv4, hps4, hfl4, halloc4,
      hfs4p, hsz4, hnext4, hfree4, hmem4⟩
    · -- no forward merge
      have hheadP : headFreeB pool z = false := by
        rw [← headFreeB_congr (fun o ho => hstat3 o (hzne o ho))]
        exact htag
      have hhead : ∀ s0, z.head? = some s0 → ¬ isFreeH pool s0 := by
        intro s0 hs0
        cases z with
        | nil => simp at hs0
        | cons a t =>
          have ha : a = s0 := by simpa using hs0
          subst ha
          simpa [headFreeB, decide_eq_false_iff_not] using hheadP
      refine ⟨_, w ++ b :: z, rfl, invWith_of_core hinv3 ?_, rfl, halloc64, ?_, Nat.le_refl _⟩
      · exact noAdj_mid hstat3 hWadj hZadj hwne hzne hlast hhead
      · show add64 pool.free_space (pool.mem b).size = _
        rw [hfs64, hheadP, lastFreeB_false_of_no_free hLw]
        simp
    · -- forward merge with the physical successor
      have hsz2 : s ∈ z := by rw [hzz]; simp
      have hsfreeP : isFreeH pool s := (hstat3 s (hzne s hsz2)).mp hsfree3
      have hstat4 : ∀ o, o ≠ b → (isFreeH p4 o ↔ isFreeH pool o) := by
        intro o ho
        unfold isFreeH
        rw [hmem4 o ho]
        exact hstat3 o ho
      have hz'sub : ∀ o ∈ z', o ∈ z := by
        intro o ho
        rw [hzz]
        simp [ho]
      have hZadj' : List.Chain' (fun a c => ¬(isFreeH pool a ∧ isFreeH pool c)) z' := by
        have hZ2 := hZadj
        rw [hzz] at hZ2
        exact (List.chain'_cons'.mp hZ2).2
      have hhead' : ∀ s0, z'.head? = some s0 → ¬ isFreeH pool s0 := by
        intro s0 hs0 hf
        cases z' with
        | nil => simp at hs0
        | cons a t =>
          have ha : a = s0 := by simpa using hs0
          subst ha
          have hZ2 := hZadj
          rw [hzz] at hZ2
          exact (List.chain'_cons.mp hZ2).1 ⟨hsfreeP, hf⟩
      refine ⟨_, w ++ b :: z', rfl, invWith_of_core hinv4 ?_, hps4, ?_, ?_, ?_⟩
      · exact noAdj_mid hstat4 hWadj hZadj' hwne
          (fun o ho => hzne o (hz'sub o ho)) hlast hhead'
      · rw [halloc4]
        exact halloc64
      · rw [hfs4p]
        show add64 pool.free_space (pool.mem b).size + HEADER_SIZE = _
        rw [hfs64, lastFreeB_false_of_no_free hLw]
        rw [show headFreeB pool z = true by
          rw [hzz]
          simp [headFreeB, hsfreeP]]
        simp
      · rw [hzz]
        simp
  · -- the freed block is spliced after the last free block `pl` of `w`
    rw [List.concat_eq_append] at hLw
    have hglD : (freeBlocks pool w).getLastD POOL_NULL_OFFSET = pl := by
      rw [hLw]
      exact List.getLastD_concat _ _ _
    rw [hglD]
    have hplfw : pl ∈ freeBlocks pool w := by rw [hLw]; simp
    have hplw : pl ∈ w := (freeBlocks_sublist pool w pl hplfw).1
    have hplfree : isFreeH pool pl := (freeBlocks_sublist pool w pl hplfw).2
    have hplmemw : pl ∈ w ++ b :: z := List.mem_append_left _ hplw
    have hplsane : header_is_sane pool (pool.mem pl) pl := partSeg_mem_sane hpart hplmemw
    have hplltb : pl < b := hwlt pl hplw
    have hplneb : pl ≠ b := Nat.ne_of_lt hplltb
    have hplnn : pl ≠ POOL_NULL_OFFSET := sane_ne_null hpsU hplsane
    have hfw_pair : List.Pairwise (fun x1 x2 => x1 < x2) (freeBlocks pool w) := by
      have h1 : List.Pairwise (fun x1 x2 => x1 < x2) w := (List.pairwise_append.mp hlt).1
      unfold freeBlocks
      exact h1.filter _
    have hL'lt : ∀ o ∈ L', o < pl := by
      intro o ho
      rw [hLw] at hfw_pair
      exact (List.pairwise_append.mp hfw_pair).2.2 o ho pl (by simp)
    -- the insertion predecessor is fetchable and sane in the spliced state
    have hmemP2pl : ({ markFree pool b with mem := Function.update (markFree pool b).mem b ({ ((markFree pool b).mem b) with next := ((freeBlocks pool z).headD POOL_NULL_OFFSET) }) } : MemoryPool).mem pl = pool.mem pl := by
      show Function.update (markFree pool b).mem b _ pl = pool.mem pl
      rw [Function.update_noteq hplneb]
      show Function.update pool.mem b _ pl = pool.mem pl
      rw [Function.update_noteq hplneb]
    have hsaneP2 : header_is_sane ({ markFree pool b with mem := Function.update (markFree pool b).mem b ({ ((markFree pool b).mem b) with next := ((freeBlocks pool z).headD POOL_NULL_OFFSET) }) } : MemoryPool) (pool.mem pl) pl :=
      sane_congr rfl hplsane
    have hfetP2 : hdr_from_offset ({ markFree pool b with mem := Function.update (markFree pool b).mem b ({ ((markFree pool b).mem b) with next := ((freeBlocks pool z).headD POOL_NULL_OFFSET) }) } : MemoryPool) pl = some (pool.mem pl) := by
      have h2 : header_is_sane ({ markFree pool b with mem := Function.update (markFree pool b).mem b ({ ((markFree pool b).mem b) with next := ((freeBlocks pool z).headD POOL_NULL_OFFSET) }) } : MemoryPool)
          (({ markFree pool b with mem := Function.update (markFree pool b).mem b ({ ((markFree pool b).mem b) with next := ((freeBlocks pool z).headD POOL_NULL_OFFSET) }) } : MemoryPool).mem pl) pl := by
        rw [hmemP2pl]
        exact hsaneP2
      have h3 := hdr_from_offset_sane
        (show ({ markFree pool b with mem := Function.update (markFree pool b).mem b ({ ((markFree pool b).mem b) with next := ((freeBlocks pool z).headD POOL_NULL_OFFSET) }) } : MemoryPool).pool_size + 32 ≤ U32 from hpsU) h2
      rw [hmemP2pl] at h3
      exact h3
    rw [pool_free_link_eq_prev fuel (markFree pool b) b pl
      ((freeBlocks pool z).headD POOL_NULL_OFFSET) hplnn hfetP2 hsaneP2]
    -- the spliced state satisfies the core invariant
    have hmem3 : ∀ o, o ≠ b → o ≠ pl → (freeSplicedPrev (markFree pool b) b pl ((freeBlocks pool z).headD POOL_NULL_OFFSET) (pool.mem pl)).mem o = pool.mem o := by
      intro o hob hopl
      simp [freeSplicedPrev, markFree, Function.update_noteq hopl, Function.update_noteq hob]
    have hmem3pl : (freeSplicedPrev (markFree pool b) b pl ((freeBlocks pool z).headD POOL_NULL_OFFSET) (pool.mem pl)).mem pl = { (pool.mem pl) with next := b } := by
      simp [freeSplicedPrev, Function.update_same]
    have hbnext3 : ((freeSplicedPrev (markFree pool b) b pl ((freeBlocks pool z).headD POOL_NULL_OFFSET) (pool.mem pl)).mem b).next =
        (freeBlocks pool z).headD POOL_NULL_OFFSET := by
      simp [freeSplicedPrev, markFree, Function.update_noteq (Ne.symm hplneb),
        Function.update_same]
    have hfree3b : isFreeH (freeSplicedPrev (markFree pool b) b pl ((freeBlocks pool z).headD POOL_NULL_OFFSET) (pool.mem pl)) b := by
      unfold isFreeH
      simp only [freeSplicedPrev, markFree, Function.update_noteq (Ne.symm hplneb),
        Function.update_same]
      exact setFreeBit_free _
    have hstat3' : ∀ o, o ≠ b → (isFreeH (freeSplicedPrev (markFree pool b) b pl ((freeBlocks pool z).headD POOL_NULL_OFFSET) (pool.mem pl)) o ↔ isFreeH pool o) := by
      intro o h1
      by_cases h2 : o = pl
      · subst h2
        unfold isFreeH
        rw [hmem3pl]
      · unfold isFreeH
        rw [hmem3 o h1 h2]
    rw [hmv] at hRch
    have hinv3B : InvCore (freeSplicedPrev (markFree pool b) b pl ((freeBlocks pool z).headD POOL_NULL_OFFSET) (pool.mem pl)) (w ++ b :: z) := by
      refine free_link_core hinv hnf rfl ?_ ?_ ?_ ?_ hfree3b hbnext3 ?_ ?_
      · exact halloc64
      · exact hfs64
      · simp [freeSplicedPrev, markFree, Function.update_noteq (Ne.symm hplneb),
          Function.update_same]
      · simp [freeSplicedPrev, markFree, Function.update_noteq (Ne.symm hplneb),
          Function.update_same]
      · -- the relinked free list: old frees of `w`, then `b`, then frees of `z`
        show chainTo _ pool.free_list _ _
        rw [hLw]
        rw [hLw] at hLch
        obtain ⟨m2, hcL, hcpl⟩ := chainTo_append_split hLch
        obtain ⟨hm2, hplnext⟩ := hcpl
        rw [hm2] at hcL
        have hL'b : ∀ o ∈ L', o < b := by
          intro o ho
          have hofw : o ∈ freeBlocks pool w := by
            rw [hLw]
            exact List.mem_append_left _ ho
          exact hwlt o (freeBlocks_sublist pool w o hofw).1
        have hcL3 : chainTo (freeSplicedPrev (markFree pool b) b pl ((freeBlocks pool z).headD POOL_NULL_OFFSET) (pool.mem pl)) pool.free_list L' pl := by
          refine chainTo_congr ?_ hcL
          intro o ho
          rw [hmem3 o (Nat.ne_of_lt (hL'b o ho)) (Nat.ne_of_lt (hL'lt o ho))]
        refine chainTo_append (m := b) ?_ ?_
        · refine chainTo_append (m := pl) ?_ ?_
          · exact hcL3
          · refine ⟨rfl, ?_⟩
            show ((freeSplicedPrev (markFree pool b) b pl ((freeBlocks pool z).headD POOL_NULL_OFFSET) (pool.mem pl)).mem pl).next = b
            rw [hmem3pl]
        · refine ⟨rfl, ?_⟩
          show chainTo _ ((freeSplicedPrev (markFree pool b) b pl ((freeBlocks pool z).headD POOL_NULL_OFFSET) (pool.mem pl)).mem b).next _ _
          rw [hbnext3]
          refine chainTo_congr ?_ hRch
          intro o ho
          have hoz := (freeBlocks_sublist pool z o ho).1
          rw [hmem3 o (hzne o hoz) (by have := hzgt o hoz; omega)]
      · intro o ho hne
        by_cases hopl : o = pl
        · subst hopl
          rw [hmem3pl]
          refine ⟨rfl, rfl, ?_⟩
          unfold header_is_sane at hplsane ⊢
          obtain ⟨h1, h2, h3, h4, -⟩ := hplsane
          refine ⟨h1, h2, h3, h4, Or.inr ⟨hb8, ?_⟩⟩
          show (b + HEADER_SIZE) % U32 ≤ pool.pool_size
          rw [Nat.mod_eq_of_lt (by unfold HEADER_SIZE MIN_ALLOC_SIZE U32 at *; omega)]
          unfold HEADER_SIZE MIN_ALLOC_SIZE at *
          omega
        · rw [hmem3 o hne hopl]
          exact ⟨rfl, rfl, sane_congr rfl (partSeg_mem_sane hpart ho)⟩
    -- forward coalescing pass at `b`
    have hnext3' : ((freeSplicedPrev (markFree pool b) b pl ((freeBlocks pool z).headD POOL_NULL_OFFSET) (pool.mem pl)).mem b).next =
        (freeBlocks (freeSplicedPrev (markFree pool b) b pl ((freeBlocks pool z).headD POOL_NULL_OFFSET) (pool.mem pl)) z).headD POOL_NULL_OFFSET := by
      have hfz : freeBlocks (freeSplicedPrev (markFree pool b) b pl ((freeBlocks pool z).headD POOL_NULL_OFFSET) (pool.mem pl)) z = freeBlocks pool z :=
        freeBlocks_congr (fun o ho => hstat3' o (hzne o ho))
      rw [hfz]
      exact hbnext3
    have hnoadj2' : ∀ s s' r, z = s :: s' :: r →
        isFreeH (freeSplicedPrev (markFree pool b) b pl ((freeBlocks pool z).headD POOL_NULL_OFFSET) (pool.mem pl)) s → ¬ isFreeH (freeSplicedPrev (markFree pool b) b pl ((freeBlocks pool z).headD POOL_NULL_OFFSET) (pool.mem pl)) s' := by
      intro s s' r hz hs3 hs'3
      have hsz2 : s ∈ z := by rw [hz]; simp
      have hs'z : s' ∈ z := by rw [hz]; simp
      have hZ2 := hZadj
      rw [hz] at hZ2
      exact (List.chain'_cons.mp hZ2).1
        ⟨(hstat3' s (hzne s hsz2)).mp hs3, (hstat3' s' (hzne s' hs'z)).mp hs'3⟩
    obtain ⟨p4, hp4eq, hdisj⟩ :=
      @fwd_step (freeSplicedPrev (markFree pool b) b pl ((freeBlocks pool z).headD POOL_NULL_OFFSET) (pool.mem pl)) w z b fuel hinv3B hfree3b hnext3' hnoadj2' (by omega)
    simp only [hp4eq]
    -- package the state after the forward pass, for either outcome
    have hYpack : ∃ Y, InvCore p4 (w ++ b :: Y) ∧
        p4.pool_size = pool.pool_size ∧
        p4.allocated = pool.allocated - (pool.mem b).size ∧
        p4.free_space = pool.free_space + (pool.mem b).size +
          (if headFreeB pool z then HEADER_SIZE else 0) ∧
        (p4.mem b).next = (freeBlocks p4 Y).headD POOL_NULL_OFFSET ∧
        isFreeH p4 b ∧
        (∀ o, o ≠ b → p4.mem o = (freeSplicedPrev (markFree pool b) b pl ((freeBlocks pool z).headD POOL_NULL_OFFSET) (pool.mem pl)).mem o) ∧
        (∀ o ∈ Y, o ∈ z) ∧
        (∀ t, Y.head? = some t → ¬ isFreeH pool t) ∧
        List.Chain' (fun a c => ¬(isFreeH pool a ∧ isFreeH pool c)) Y ∧
        Y.length ≤ z.length := by
      rcases hdisj with ⟨htag, rfl⟩ | ⟨s, z', hzz, hsfree3, hinv4, hps4, hfl4, halloc4,
        hfs4p, hsz4, hnext4, hfree4, hmem4x⟩
      · -- no forward merge: the successor of `b` is allocated (or absent)
        have hheadP : headFreeB pool z = false := by
          rw [← headFreeB_congr (fun o ho => hstat3' o (hzne o ho))]
          exact htag
        refine ⟨z, hinv3B, rfl, halloc64, ?_, hnext3', hfree3b, fun o _ => rfl,
          fun o ho => ho, ?_, hZadj, Nat.le_refl _⟩
        · rw [hheadP]
          simpa using hfs64
        · intro t ht hf
          cases z with
          | nil => cases ht
          | cons a t' =>
            have hat : a = t := by simpa using ht
            subst hat
            simp [headFreeB, hf] at hheadP
      · -- forward merge with the free successor `s`
        have hsz2 : s ∈ z := by rw [hzz]; simp
        have hsfreeP : isFreeH pool s := (hstat3' s (hzne s hsz2)).mp hsfree3
        have hz'sub : ∀ o ∈ z', o ∈ z := by
          intro o ho
          rw [hzz]
          simp [ho]
        have hfz' : freeBlocks p4 z' = freeBlocks (freeSplicedPrev (markFree pool b) b pl ((freeBlocks pool z).headD POOL_NULL_OFFSET) (pool.mem pl)) z' := by
          refine freeBlocks_congr ?_
          intro o ho
          unfold isFreeH
          rw [hmem4x o (hzne o (hz'sub o ho))]
        have hfz'P : freeBlocks (freeSplicedPrev (markFree pool b) b pl ((freeBlocks pool z).headD POOL_NULL_OFFSET) (pool.mem pl)) z' = freeBlocks pool z' :=
          freeBlocks_congr (fun o ho => hstat3' o (hzne o (hz'sub o ho)))
        refine ⟨z', hinv4, hps4.trans rfl, halloc4.trans halloc64, ?_, ?_, hfree4, hmem4x,
          hz'sub, ?_, ?_, by rw [hzz]; simp⟩
        · rw [hfs4p]
          rw [show headFreeB pool z = true by rw [hzz]; simp [headFreeB, hsfreeP]]
          show (freeSplicedPrev (markFree pool b) b pl ((freeBlocks pool z).headD POOL_NULL_OFFSET) (pool.mem pl)).free_space + HEADER_SIZE = _
          rw [show (freeSplicedPrev (markFree pool b) b pl ((freeBlocks pool z).headD POOL_NULL_OFFSET) (pool.mem pl)).free_space =
            pool.free_space + (pool.mem b).size from hfs64]
          simp
        · rw [hfz', hfz'P]
          rw [hfz'P] at hnext4
          exact hnext4
        · intro t ht hf
          have hZ2 := hZadj
          rw [hzz] at hZ2
          exact (List.chain'_cons'.mp hZ2).1 t ht ⟨hsfreeP, hf⟩
        · have hZ2 := hZadj
          rw [hzz] at hZ2
          exact (List.chain'_cons'.mp hZ2).2
    obtain ⟨Y, hinv4B, hps4B, halloc4B, hfs4B, hnext4B, hfree4Bb, hmem4B, hYsub,
      hYheadP, hYadjP, hYlen⟩ := hYpack
    -- reduce the backward-merge tower and apply back_step
    rw [if_neg hplnn]
    obtain ⟨w1, w2, hw⟩ := List.append_of_mem hplw
    have hinv4n : InvCore p4 ((w1 ++ pl :: w2) ++ b :: Y) := by
      rw [← hw]
      exact hinv4B
    have hsane4pl : header_is_sane p4 (p4.mem pl) pl :=
      partSeg_mem_sane hinv4n.2.2.1 (show pl ∈ (w1 ++ pl :: w2) ++ b :: Y by simp)
    have hfet4 : hdr_from_offset p4 pl = some (p4.mem pl) :=
      hdr_from_offset_sane (show p4.pool_size + 32 ≤ U32 by rw [hps4B]; exact hpsU) hsane4pl
    have hplmem4 : p4.mem pl = { (pool.mem pl) with next := b } :=
      (hmem4B pl hplneb).trans hmem3pl
    simp only [hfet4]
    rw [if_pos (show header_is_sane p4 (p4.mem pl) pl ∧ isFreeFlag (p4.mem pl).flags
      from ⟨hsane4pl, by rw [hplmem4]; exact hplfree⟩)]
    have hstat4P : ∀ o, o ≠ b → (isFreeH p4 o ↔ isFreeH pool o) := by
      intro o ho
      have h1 : isFreeH p4 o ↔ isFreeH (freeSplicedPrev (markFree pool b) b pl ((freeBlocks pool z).headD POOL_NULL_OFFSET) (pool.mem pl)) o := by
        unfold isFreeH
        rw [hmem4B o ho]
      exact h1.trans (hstat3' o ho)
    have hWadj4 : List.Chain' (fun a c => ¬(isFreeH p4 a ∧ isFreeH p4 c)) (w1 ++ pl :: w2) := by
      rw [← hw]
      refine chain'_imp_mem ?_ hWadj
      intro a c ha hc hR hf
      exact hR ⟨(hstat4P a (hwne a ha)).mp hf.1, (hstat4P c (hwne c hc)).mp hf.2⟩
    have hw2gtP : ∀ o ∈ w2, pl < o := by
      intro o ho
      have h1 : List.Pairwise (fun x1 x2 => x1 < x2) w := (List.pairwise_append.mp hlt).1
      rw [hw] at h1
      exact (List.pairwise_cons.mp (List.pairwise_append.mp h1).2.1).1 o ho
    have hw2freeP : ∀ o ∈ w2, ¬ isFreeH pool o := by
      intro o ho hf
      have how : o ∈ w := by
        rw [hw]
        exact List.mem_append_right _ (List.mem_cons_of_mem _ ho)
      have hofw : o ∈ freeBlocks pool w := by
        unfold freeBlocks
        rw [List.mem_filter]
        exact ⟨how, by simpa using hf⟩
      rw [hLw] at hofw
      rcases List.mem_append.mp hofw with h1 | h1
      · have h2 := hL'lt o h1
        have h3 := hw2gtP o ho
        omega
      · have h2 : o = pl := by simpa using h1
        have h3 := hw2gtP o ho
        omega
    have hw2free4 : ∀ o ∈ w2, ¬ isFreeH p4 o := by
      intro o ho hf
      refine hw2freeP o ho ?_
      refine (hstat4P o (hwne o ?_)).mp hf
      rw [hw]
      exact List.mem_append_right _ (List.mem_cons_of_mem _ ho)
    have hYadj4 : List.Chain' (fun a c => ¬(isFreeH p4 a ∧ isFreeH p4 c)) Y := by
      refine chain'_imp_mem ?_ hYadjP
      intro a c ha hc hR hf
      exact hR ⟨(hstat4P a (hzne a (hYsub a ha))).mp hf.1,
        (hstat4P c (hzne c (hYsub c hc))).mp hf.2⟩
    have hYhead4 : ∀ t, Y.head? = some t → ¬ isFreeH p4 t := by
      intro t ht hf
      have htY : t ∈ Y := by
        cases Y with
        | nil => cases ht
        | cons a t' =>
          have hat : a = t := by simpa using ht
          subst hat
          exact List.mem_cons_self _ _
      exact hYheadP t ht ((hstat4P t (hzne t (hYsub t htY))).mp hf)
    obtain ⟨pf, bsF, htower, hinvF, hpsF, hallocF, hfsF, hlenF⟩ :=
      @back_step pool p4 w1 w2 Y pl b fuel hinv4n hplmem4 hplfree hfree4Bb hnext4B
        hWadj4 hw2free4 hYadj4 hYhead4 (by omega)
    refine ⟨pf, bsF, htower, hinvF, hpsF.trans hps4B, hallocF.trans halloc4B, ?_, ?_⟩
    have hlastw : (if lastFreeB pool w then HEADER_SIZE else 0) =
        (if w2 = [] then HEADER_SIZE else 0) := by
      cases hw2c : w2 with
      | nil =>
        have hwlast : lastFreeB pool w = true := by
          rw [hw, hw2c, lastFreeB_concat]
          simpa using hplfree
        rw [hwlast]
        simp
      | cons a w2' =>
        rcases List.eq_nil_or_concat w with rfl | ⟨w', t, hwt⟩
        · cases hplw
        · rw [List.concat_eq_append] at hwt
          have hg1 : w.getLast? = some t := by
            rw [hwt]
            exact List.getLast?_concat _
          have hg2 : w.getLast? = w2.getLast? := by
            rw [hw, show w1 ++ pl :: w2 = (w1 ++ [pl]) ++ w2 by simp]
            exact List.getLast?_append_of_ne_nil _ (by rw [hw2c]; simp)
          have hg3 : w2.getLast? = some t := hg2.symm.trans hg1
          have htw2 : t ∈ w2 := List.mem_of_getLast?_eq_some hg3
          have hwlastF : lastFreeB pool w = false := by
            rw [hwt, lastFreeB_concat]
            simpa using hw2freeP t htw2
          rw [hwlastF]
          simp
    · rw [hfsF, hfs4B, hlastw]
    · have h1 : ((w1 ++ pl :: w2) ++ b :: Y).length = w.length + 1 + Y.length := by
        rw [← hw]
        simp only [List.length_append, List.length_cons]
        omega
      have h2 : (w ++ b :: z).length = w.length + 1 + z.length := by
        simp only [List.length_append, List.length_cons]
        omega
      omega

/-! ## Conservation and allocation-contract consequences -/

/-- Under the invariant, the two counters and the per-block header
overhead tile the pool exactly. -/
theorem inv_conservation {pool : MemoryPool} {bs : List Nat} (h : InvWith pool bs) :
    pool.allocated + pool.free_space + HEADER_SIZE * bs.length = pool.pool_size := by
  obtain ⟨-, -, hpart, -, halloc, hfree, -⟩ := h
  have hsum := partSeg_sum hpart
  have hsplit := sumSizes_filter_split pool bs
  rw [halloc, hfree]
  omega

/-- Distinct blocks of the tiling have disjoint extents. -/
theorem partSeg_separated {p : MemoryPool} :
    ∀ {bs : List Nat} {off stop : Nat}, partSeg p off bs stop →
      ∀ o1 ∈ bs, ∀ o2 ∈ bs, o1 < o2 → blockEnd p o1 ≤ o2 := by
  intro bs
  induction bs with
  | nil => intro off stop _ o1 h1; cases h1
  | cons o rest ih =>
    intro off stop h o1 h1 o2 h2 hlt12
    obtain ⟨ho, hs, hrest⟩ := h
    rcases List.mem_cons.mp h1 with rfl | h1m
    · rcases List.mem_cons.mp h2 with rfl | h2m
      · omega
      · exact (partSeg_mem_range hrest h2m).1
    · rcases List.mem_cons.mp h2 with rfl | h2m
      · have h3 := (partSeg_mem_range hrest h1m).1
        unfold blockEnd at h3
        omega
      · exact ih hrest o1 h1m o2 h2m hlt12

theorem length_freeBlocks_le (pool : MemoryPool) (bs : List Nat) :
    (freeBlocks pool bs).length ≤ bs.length := by
  unfold freeBlocks
  exact List.length_filter_le _ _

/-- Inversion of a successful `pool_alloc` on an uncorrupted pool: the
success postcondition holds for the returned state and offset. -/
theorem pool_alloc_success_spec {pool : MemoryPool} {bs : List Nat} {size fuel : Nat}
    {p' : MemoryPool} {po : Nat} (hinv : InvWith pool bs) (hsz : size ≠ 0)
    (hreq16 : MIN_ALLOC_SIZE ≤ requestOf size)
    (hfuel : (freeBlocks pool bs).length < fuel)
    (hsucc : pool_alloc pool size fuel = AllocResult.success p' po) :
    AllocSuccessSpec pool bs (requestOf size) p' po := by
  by_cases hex : ∃ f ∈ freeBlocks pool bs, requestOf size ≤ (pool.mem f).size
  · obtain ⟨p2, po2, heq, hspec⟩ := pool_alloc_spec_fit hinv hsz hreq16 hfuel hex
    rw [hsucc] at heq
    obtain ⟨h1, h2⟩ := AllocResult.success.inj heq
    rw [h1, h2]
    exact hspec
  · push_neg at hex
    have hfail := pool_alloc_spec_nofit hinv hsz hfuel fun o ho => hex o ho
    rw [hsucc] at hfail
    cases hfail

/-- C2: conservation.  Under the uncorrupted-pool invariant,
`allocated + free_space + HEADER_SIZE * (number of blocks) = pool_size`
(so `allocated + free_space` is exactly the usable payload capacity and
the inequality form of the claim holds with equality); the identity is
established by `pool_init` on buffers whose size stays below 2^32 - 32
and is preserved by successful `pool_alloc` and completed `pool_free`
calls, whose final states are again uncorrupted. -/
theorem C2_conservation :
    (∀ (pool : MemoryPool) (bs : List Nat), InvWith pool bs →
      pool.allocated + pool.free_space + HEADER_SIZE * bs.length = pool.pool_size) ∧
    (∀ (mem0 : Nat → BlockHeader) (size : Nat) (pool : MemoryPool), size + 32 ≤ U32 →
      pool_init mem0 size = some pool →
      pool.allocated + pool.free_space + HEADER_SIZE * 1 = pool.pool_size) ∧
    (∀ (pool : MemoryPool) (bs : List Nat) (size fuel : Nat) (p' : MemoryPool) (po : Nat),
      InvWith pool bs → size ≠ 0 → MIN_ALLOC_SIZE ≤ requestOf size →
      (freeBlocks pool bs).length < fuel →
      pool_alloc pool size fuel = AllocResult.success p' po →
      ∃ bs', InvWith p' bs' ∧
        p'.allocated + p'.free_space + HEADER_SIZE * bs'.length = p'.pool_size ∧
        p'.pool_size = pool.pool_size) ∧
    (∀ (pool : MemoryPool) (w z : List Nat) (b fuel : Nat) (pf : MemoryPool),
      InvWith pool (w ++ b :: z) → ¬ isFreeH pool b →
      (freeBlocks pool (w ++ b :: z)).length + 2 ≤ fuel →
      pool_free pool (some (b + HEADER_SIZE)) fuel = FreeResult.done pf →
      ∃ bsF, InvWith pf bsF ∧
        pf.allocated + pf.free_space + HEADER_SIZE * bsF.length = pf.pool_size ∧
        pf.pool_size = pool.pool_size) := by
  refine ⟨fun pool bs h => inv_conservation h, ?_, ?_, ?_⟩
  · intro mem0 size pool hsz h
    obtain ⟨hinv, -, -, -⟩ := pool_init_inv hsz h
    simpa using inv_conservation hinv
  · intro pool bs size fuel p' po hinv hsz hreq hfuel hsucc
    have hspec := pool_alloc_success_spec hinv hsz hreq hfuel hsucc
    obtain ⟨u, f, v, hbs, hpo, hffree, hle, hps', hnf', hflags, hused, hdisj⟩ := hspec
    rcases hdisj with ⟨-, hinv', -, -, -⟩ | ⟨-, hinv', -, -, -, -⟩
    · exact ⟨u ++ f :: v, hinv', inv_conservation hinv', hps'⟩
    · exact ⟨u ++ f :: (f + HEADER_SIZE + requestOf size) :: v, hinv',
        inv_conservation hinv', hps'⟩
  · intro pool w z b fuel pf hinv hnf hfuel hdone
    obtain ⟨pf2, bsF, heq, hinvF, hps, -, -, -⟩ := pool_free_spec hinv rfl hnf hfuel
    rw [hdone] at heq
    have h2 := FreeResult.done.inj heq
    rw [← h2] at hinvF hps
    exact ⟨bsF, hinvF, inv_conservation hinvF, hps⟩

/-- Witness for C2 on concrete pools: the identity holds on the fresh
80-byte pool and is preserved across a successful 16-byte allocation. -/
theorem C2_witness :
    pool80.allocated + pool80.free_space + HEADER_SIZE * ([0] : List Nat).length =
      pool80.pool_size ∧
    (∃ bs', InvWith ((pool_alloc pool80 16 2).stateD defaultPool) bs' ∧
      ((pool_alloc pool80 16 2).stateD defaultPool).allocated +
        ((pool_alloc pool80 16 2).stateD defaultPool).free_space +
        HEADER_SIZE * bs'.length =
        ((pool_alloc pool80 16 2).stateD defaultPool).pool_size ∧
      ((pool_alloc pool80 16 2).stateD defaultPool).pool_size = pool80.pool_size) :=
  ⟨C2_conservation.1 pool80 [0] (by decide),
   C2_conservation.2.2.1 pool80 [0] 16 2 ((pool_alloc pool80 16 2).stateD defaultPool)
     ((pool_alloc pool80 16 2).payloadD 0) (by decide) (by decide) (by decide) (by decide) rfl⟩

/-- C3: allocating from a free block and then freeing the returned pointer
restores `allocated` and `free_space` exactly to their pre-allocation
values — the header byte of a split-off remainder is reclaimed by
coalescing, in either allocation mode (whole-block grant or split). -/
theorem C3_split_free_roundtrip {pool : MemoryPool} {bs : List Nat} {size fuel : Nat}
    {p' : MemoryPool} {po : Nat}
    (hinv : InvWith pool bs) (hsz : size ≠ 0)
    (hreq16 : MIN_ALLOC_SIZE ≤ requestOf size)
    (hfuel : bs.length + 3 ≤ fuel)
    (hsucc : pool_alloc pool size fuel = AllocResult.success p' po) :
    ∃ pf bsF, pool_free p' (some po) fuel = FreeResult.done pf ∧ InvWith pf bsF ∧
      pf.allocated = pool.allocated ∧ pf.free_space = pool.free_space := by
  have hfuel0 : (freeBlocks pool bs).length < fuel := by
    have := length_freeBlocks_le pool bs
    omega
  have hspec := pool_alloc_success_spec hinv hsz hreq16 hfuel0 hsucc
  obtain ⟨u, f, v, hbs, hpo, hffree, hle, hps', hnf', hflags, hused, hdisj⟩ := hspec
  have hnoadj := hinv.2.2.2.2.2.2
  rw [hbs] at hnoadj
  unfold noAdjFree at hnoadj
  rw [List.chain'_append] at hnoadj
  obtain ⟨hWadj, hBZ, hWlink⟩ := hnoadj
  rw [List.chain'_cons'] at hBZ
  obtain ⟨hBhead, hZadj⟩ := hBZ
  have hmemf : f ∈ freeBlocks pool bs := by
    unfold freeBlocks
    rw [List.mem_filter]
    exact ⟨by rw [hbs]; simp, by simpa using hffree⟩
  have hfsS : (pool.mem f).size ≤ pool.free_space := by
    rw [hinv.2.2.2.2.2.1]
    exact sumSizes_mem_le hmemf
  have hlastu : lastFreeB p' u = false := by
    rcases List.eq_nil_or_concat u with rfl | ⟨u', t, huc⟩
    · rfl
    · rw [List.concat_eq_append] at huc
      subst huc
      rw [lastFreeB_concat]
      simp only [decide_eq_false_iff_not]
      intro hft
      have hftP : isFreeH pool t := by
        unfold isFreeH at hft ⊢
        rw [← (hflags t (Or.inl (by simp))).2]
        exact hft
      exact hWlink t (List.getLast?_concat _) f rfl ⟨hftP, hffree⟩
  have hlen : (u ++ f :: v).length = bs.length := by rw [hbs]
  rw [hpo]
  rcases hdisj with ⟨hlt2, hinv', hsz', halloc', hfs'⟩ |
    ⟨hge2, hinv', hsz', hnffree, halloc', hfs'⟩
  · -- whole-block grant
    have hheadv : headFreeB p' v = false := by
      cases v with
      | nil => rfl
      | cons a t =>
        simp only [headFreeB, decide_eq_false_iff_not]
        intro hfa
        have hfaP : isFreeH pool a := by
          unfold isFreeH at hfa ⊢
          rw [← (hflags a (Or.inr (by simp))).2]
          exact hfa
        exact hBhead a rfl ⟨hffree, hfaP⟩
    have hfuelF : (freeBlocks p' (u ++ f :: v)).length + 2 ≤ fuel := by
      have h1 := length_freeBlocks_le p' (u ++ f :: v)
      omega
    obtain ⟨pf, bsF, heq, hinvF, hpsF, hallocF, hfsF, -⟩ :=
      pool_free_spec hinv' rfl hnf' hfuelF
    refine ⟨pf, bsF, heq, hinvF, ?_, ?_⟩
    · rw [hallocF, halloc', hsz']
      omega
    · rw [hfsF, hfs', hsz', hheadv, hlastu]
      simp only [Bool.false_eq_true, if_false]
      omega
  · -- split: the remainder block is reabsorbed by forward coalescing
    have hheadnf : headFreeB p' ((f + HEADER_SIZE + requestOf size) :: v) = true := by
      simp [headFreeB, hnffree]
    have hfuelF : (freeBlocks p' (u ++ f :: (f + HEADER_SIZE + requestOf size) :: v)).length +
        2 ≤ fuel := by
      have h1 := length_freeBlocks_le p' (u ++ f :: (f + HEADER_SIZE + requestOf size) :: v)
      have h2 : (u ++ f :: (f + HEADER_SIZE + requestOf size) :: v).length =
          bs.length + 1 := by
        rw [hbs]
        simp
        omega
      omega
    obtain ⟨pf, bsF, heq, hinvF, hpsF, hallocF, hfsF, -⟩ :=
      pool_free_spec hinv' rfl hnf' hfuelF
    refine ⟨pf, bsF, heq, hinvF, ?_, ?_⟩
    · rw [hallocF, halloc', hsz']
      omega
    · rw [hfsF, hfs', hsz', hheadnf, hlastu]
      simp only [if_true, Bool.false_eq_true, if_false]
      unfold HEADER_SIZE MIN_ALLOC_SIZE at *
      omega

/-- Witness for C3: on the fresh 80-byte pool, allocating 16 bytes (which
splits the 64-byte free block) and freeing the result restores both
counters. -/
theorem C3_witness :
    ∃ pf bsF, pool_free ((pool_alloc pool80 16 10).stateD defaultPool)
        (some ((pool_alloc pool80 16 10).payloadD 0)) 10 = FreeResult.done pf ∧
      InvWith pf bsF ∧ pf.allocated = pool80.allocated ∧
      pf.free_space = pool80.free_space :=
  @C3_split_free_roundtrip pool80 [0] 16 10 ((pool_alloc pool80 16 10).stateD defaultPool)
    ((pool_alloc pool80 16 10).payloadD 0) (by decide) (by decide) (by decide) (by decide) rfl

/-- C4: the allocator splits a matched free block only when the remainder
would still fit a header plus the minimum allocation; otherwise the whole
block is granted.  On the 56-byte pool (40-byte initial payload) a
16-byte request grants all 40 bytes: used = 40 and free = 0. -/
theorem C4_split_only_if_usable :
    (∀ (pool : MemoryPool) (bs : List Nat) (size fuel : Nat) (p' : MemoryPool) (po : Nat),
      InvWith pool bs → size ≠ 0 → MIN_ALLOC_SIZE ≤ requestOf size →
      (freeBlocks pool bs).length < fuel →
      pool_alloc pool size fuel = AllocResult.success p' po →
      ∃ f, po = f + HEADER_SIZE ∧ isFreeH pool f ∧ requestOf size ≤ (pool.mem f).size ∧
        (((pool.mem f).size < requestOf size + HEADER_SIZE + MIN_ALLOC_SIZE ∧
          (p'.mem f).size = (pool.mem f).size ∧
          p'.allocated = pool.allocated + (pool.mem f).size ∧
          p'.free_space = pool.free_space - (pool.mem f).size) ∨
         (requestOf size + HEADER_SIZE + MIN_ALLOC_SIZE ≤ (pool.mem f).size ∧
          (p'.mem f).size = requestOf size ∧
          isFreeH p' (f + HEADER_SIZE + requestOf size) ∧
          p'.allocated = pool.allocated + requestOf size ∧
          p'.free_space = pool.free_space - (requestOf size + HEADER_SIZE)))) ∧
    (pool_alloc pool56 16 2).isSuccess ∧
    ((pool_alloc pool56 16 2).stateD defaultPool).allocated = 40 ∧
    ((pool_alloc pool56 16 2).stateD defaultPool).free_space = 0 := by
  refine ⟨?_, by decide, by decide, by decide⟩
  intro pool bs size fuel p' po hinv hsz hreq hfuel hsucc
  obtain ⟨u, f, v, hbs, hpo, hffree, hle, hps', hnf', hflags, hused, hdisj⟩ :=
    pool_alloc_success_spec hinv hsz hreq hfuel hsucc
  refine ⟨f, hpo, hffree, hle, ?_⟩
  rcases hdisj with ⟨h1, h2, h3, h4, h5⟩ | ⟨h1, h2, h3, h4, h5, h6⟩
  · exact Or.inl ⟨h1, h3, h4, h5⟩
  · exact Or.inr ⟨h1, h3, h4, h5, h6⟩

/-- Witness for C4: the general dichotomy applied to the fresh 80-byte
pool with a 16-byte request (here the block is split). -/
theorem C4_witness :
    ∃ f, (pool_alloc pool80 16 10).payloadD 0 = f + HEADER_SIZE ∧ isFreeH pool80 f ∧
      requestOf 16 ≤ (pool80.mem f).size ∧
      (((pool80.mem f).size < requestOf 16 + HEADER_SIZE + MIN_ALLOC_SIZE ∧
        (((pool_alloc pool80 16 10).stateD defaultPool).mem f).size = (pool80.mem f).size ∧
        ((pool_alloc pool80 16 10).stateD defaultPool).allocated =
          pool80.allocated + (pool80.mem f).size ∧
        ((pool_alloc pool80 16 10).stateD defaultPool).free_space =
          pool80.free_space - (pool80.mem f).size) ∨
       (requestOf 16 + HEADER_SIZE + MIN_ALLOC_SIZE ≤ (pool80.mem f).size ∧
        (((pool_alloc pool80 16 10).stateD defaultPool).mem f).size = requestOf 16 ∧
        isFreeH ((pool_alloc pool80 16 10).stateD defaultPool)
          (f + HEADER_SIZE + requestOf 16) ∧
        ((pool_alloc pool80 16 10).stateD defaultPool).allocated =
          pool80.allocated + requestOf 16 ∧
        ((pool_alloc pool80 16 10).stateD defaultPool).free_space =
          pool80.free_space - (requestOf 16 + HEADER_SIZE))) :=
  C4_split_only_if_usable.1 pool80 [0] 16 10 ((pool_alloc pool80 16 10).stateD defaultPool)
    ((pool_alloc pool80 16 10).payloadD 0) (by decide) (by decide) (by decide) (by decide) rfl

/-- C7: the allocation contract.  A successful call returns an 8-byte
aligned nonzero payload offset whose block holds at least the clamped,
rounded request (but not necessarily the raw `size` — the 32-bit
truncation of `C7_counterexample` breaks the "at least the requested
number of bytes" reading for huge sizes); a zero request always fails,
and so does a request no free block can satisfy. -/
theorem C7_allocation_contract :
    (∀ (pool : MemoryPool) (bs : List Nat) (size fuel : Nat) (p' : MemoryPool) (po : Nat),
      InvWith pool bs → size ≠ 0 → MIN_ALLOC_SIZE ≤ requestOf size →
      (freeBlocks pool bs).length < fuel →
      pool_alloc pool size fuel = AllocResult.success p' po →
      po % POOL_ALIGNMENT = 0 ∧ po ≠ 0 ∧
      requestOf size ≤ (p'.mem (po - HEADER_SIZE)).size) ∧
    (∀ (pool : MemoryPool) (fuel : Nat), pool_alloc pool 0 fuel = AllocResult.fail pool) ∧
    (∀ (pool : MemoryPool) (bs : List Nat) (size fuel : Nat),
      InvWith pool bs → size ≠ 0 → (freeBlocks pool bs).length < fuel →
      (∀ o ∈ freeBlocks pool bs, (pool.mem o).size < requestOf size) →
      pool_alloc pool size fuel = AllocResult.fail pool) := by
  refine ⟨?_, ?_, ?_⟩
  · intro pool bs size fuel p' po hinv hsz hreq hfuel hsucc
    obtain ⟨u, f, v, hbs, hpo, hffree, hle, hps', hnf', hflags, hused, hdisj⟩ :=
      pool_alloc_success_spec hinv hsz hreq hfuel hsucc
    have hf8 : f % POOL_ALIGNMENT = 0 :=
      (partSeg_mem_sane hinv.2.2.1 (show f ∈ bs by rw [hbs]; simp)).2.1
    have hoff : po - HEADER_SIZE = f := by
      rw [hpo]
      unfold HEADER_SIZE
      omega
    refine ⟨?_, ?_, ?_⟩
    · rw [hpo]
      unfold POOL_ALIGNMENT HEADER_SIZE at *
      omega
    · rw [hpo]
      unfold HEADER_SIZE
      omega
    · rw [hoff]
      rcases hdisj with ⟨-, -, hsz', -, -⟩ | ⟨-, -, hsz', -, -, -⟩
      · rw [hsz']
        exact hle
      · exact hsz'.ge
  · intro pool fuel
    simp [pool_alloc]
  · intro pool bs size fuel hinv hsz hfuel hno
    exact pool_alloc_spec_nofit hinv hsz hfuel hno

/-- Witness for C7 on the fresh 80-byte pool with a 16-byte request. -/
theorem C7_witness :
    ((pool_alloc pool80 16 10).payloadD 0) % POOL_ALIGNMENT = 0 ∧
    (pool_alloc pool80 16 10).payloadD 0 ≠ 0 ∧
    requestOf 16 ≤ (((pool_alloc pool80 16 10).stateD defaultPool).mem
      ((pool_alloc pool80 16 10).payloadD 0 - HEADER_SIZE)).size :=
  C7_allocation_contract.1 pool80 [0] 16 10 ((pool_alloc pool80 16 10).stateD defaultPool)
    ((pool_alloc pool80 16 10).payloadD 0) (by decide) (by decide) (by decide) (by decide) rfl

/-- The lock-serialized allocation sequence preserves the invariant, and
every granted block is fresh: it was free (or did not yet exist) when
granted, is allocated with an unchanged header in the final state, and no
two calls receive the same payload offset. -/
theorem allocSeq_spec :
    ∀ {sizes : List Nat} {pool : MemoryPool} {bs : List Nat} {fuel : Nat} {pos : List Nat},
      InvWith pool bs →
      (∀ s ∈ sizes, s ≠ 0 ∧ MIN_ALLOC_SIZE ≤ requestOf s) →
      bs.length + sizes.length < fuel →
      (allocSeq pool sizes fuel).2 = pos.map some →
      ∃ bsF, InvWith (allocSeq pool sizes fuel).1 bsF ∧
        bsF.length ≤ bs.length + sizes.length ∧
        (∀ o ∈ bs, o ∈ bsF) ∧
        (∀ o ∈ bs, ¬ isFreeH pool o → (allocSeq pool sizes fuel).1.mem o = pool.mem o) ∧
        (∀ po ∈ pos, po % POOL_ALIGNMENT = 0 ∧ HEADER_SIZE ≤ po ∧
          (po - HEADER_SIZE) ∈ bsF ∧
          ¬ isFreeH (allocSeq pool sizes fuel).1 (po - HEADER_SIZE) ∧
          (isFreeH pool (po - HEADER_SIZE) ∨ (po - HEADER_SIZE) ∉ bs)) ∧
        List.Pairwise (fun a c => a ≠ c) pos := by
  intro sizes
  induction sizes with
  | nil =>
    intro pool bs fuel pos hinv hsz hfuel hres
    simp only [allocSeq] at hres ⊢
    have hpos : pos = [] := by
      cases pos with
      | nil => rfl
      | cons a t => simp at hres
    subst hpos
    exact ⟨bs, hinv, by simp, fun o ho => ho, fun o ho hn => by simp, by simp, by simp⟩
  | cons s rest ih =>
    intro pool bs fuel pos hinv hsz hfuel hres
    simp only [List.length_cons] at hfuel
    rcases pos with _ | ⟨po1', pos'⟩
    · exfalso
      cases halloc : pool_alloc pool s fuel with
      | success p1 po1 => simp only [allocSeq, halloc] at hres; simp at hres
      | fail p0 => simp only [allocSeq, halloc] at hres; simp at hres
      | diverge => simp only [allocSeq, halloc] at hres; simp at hres
    · cases halloc : pool_alloc pool s fuel with
      | fail p0 =>
        exfalso
        simp only [allocSeq, halloc, List.map_cons] at hres
        simp at hres
      | diverge =>
        exfalso
        simp only [allocSeq, halloc, List.map_cons] at hres
        simp at hres
      | success p1 po1 =>
        simp only [allocSeq, halloc, List.map_cons] at hres ⊢
        obtain ⟨hpo1, hres'⟩ := List.cons.inj hres
        have hpo1e : po1 = po1' := Option.some.inj hpo1
        subst hpo1e
        have hfuel0 : (freeBlocks pool bs).length < fuel := by
          have := length_freeBlocks_le pool bs
          omega
        obtain ⟨u, f, v, hbs, hpo, hffree, hle, hps', hnf', hflags, hused, hdisj⟩ :=
          pool_alloc_success_spec hinv (hsz s (by simp)).1 (hsz s (by simp)).2 hfuel0 halloc
        have hpack : ∃ bs1, InvWith p1 bs1 ∧ bs1.length ≤ bs.length + 1 ∧
            (∀ o ∈ bs, o ∈ bs1) ∧ f ∈ bs1 := by
          rcases hdisj with ⟨-, hinv1, -, -, -⟩ | ⟨-, hinv1, -, -, -, -⟩
          · exact ⟨u ++ f :: v, hinv1, by rw [hbs]; omega,
              fun o ho => by rw [hbs] at ho; exact ho, by simp⟩
          · refine ⟨u ++ f :: (f + HEADER_SIZE + requestOf s) :: v, hinv1, ?_, ?_, by simp⟩
            · rw [hbs]
              simp
              omega
            · intro o ho
              rw [hbs] at ho
              rcases List.mem_append.mp ho with h | h
              · exact List.mem_append_left _ h
              · rcases List.mem_cons.mp h with rfl | h2
                · simp
                · simp [h2]
        obtain ⟨bs1, hinv1, hlen1, hsub1, hfbs1⟩ := hpack
        have hfuel1 : bs1.length + rest.length < fuel := by omega
        obtain ⟨bsF, hinvF, hlenF, hsubF, hpresF, hposF, hpwF⟩ :=
          ih hinv1 (fun t ht => hsz t (by simp [ht])) hfuel1 hres'
        have hf8 : f % POOL_ALIGNMENT = 0 :=
          (partSeg_mem_sane hinv.2.2.1 (show f ∈ bs by rw [hbs]; simp)).2.1
        have hoff : po1 - HEADER_SIZE = f := by
          rw [hpo]
          unfold HEADER_SIZE
          omega
        have hfpresF : (allocSeq p1 rest fuel).1.mem f = p1.mem f := hpresF f hfbs1 hnf'
        refine ⟨bsF, hinvF, by simp only [List.length_cons]; omega,
          fun o ho => hsubF o (hsub1 o ho), ?_, ?_, ?_⟩
        · intro o ho hn
          have h1 := hused o ho hn
          have hn1 : ¬ isFreeH p1 o := by
            unfold isFreeH at hn ⊢
            rw [h1]
            exact hn
          rw [hpresF o (hsub1 o ho) hn1, h1]
        · intro po hpo2
          rcases List.mem_cons.mp hpo2 with rfl | hmem
          · refine ⟨?_, ?_, ?_, ?_, ?_⟩
            · rw [hpo]
              unfold POOL_ALIGNMENT HEADER_SIZE at *
              omega
            · rw [hpo]
              unfold HEADER_SIZE
              omega
            · rw [hoff]
              exact hsubF f hfbs1
            · rw [hoff]
              unfold isFreeH at hnf' ⊢
              rw [hfpresF]
              exact hnf'
            · rw [hoff]
              exact Or.inl hffree
          · obtain ⟨h8, h16, hmemF, hnfF, hstat⟩ := hposF po hmem
            refine ⟨h8, h16, hmemF, hnfF, ?_⟩
            rcases hstat with hfree1 | hnot1
            · by_cases hb : (po - HEADER_SIZE) ∈ bs
              · left
                have hne : po - HEADER_SIZE ≠ f := fun he => hnf' (he ▸ hfree1)
                have hmembs1 : (po - HEADER_SIZE) ∈ u ∨ (po - HEADER_SIZE) ∈ v := by
                  rw [hbs] at hb
                  rcases List.mem_append.mp hb with h | h
                  · exact Or.inl h
                  · rcases List.mem_cons.mp h with he | h2
                    · exact absurd he hne
                    · exact Or.inr h2
                have hfl := (hflags _ hmembs1).2
                unfold isFreeH at hfree1 ⊢
                rw [← hfl]
                exact hfree1
              · exact Or.inr hb
            · exact Or.inr fun hb => hnot1 (hsub1 _ hb)
        · refine List.pairwise_cons.mpr ⟨?_, hpwF⟩
          intro pj hpj heq
          obtain ⟨-, hj16, -, -, hjstat⟩ := hposF pj hpj
          have hjoff : pj - HEADER_SIZE = f := by
            rw [← heq, hpo]
            unfold HEADER_SIZE
            omega
          rcases hjstat with hfree1 | hnot1
          · rw [hjoff] at hfree1
            exact hnf' hfree1
          · rw [hjoff] at hnot1
            exact hnot1 hfbs1

/-- C9: the lock serializes N concurrent `pool_alloc` calls into a total
order; when every call succeeds the returned payload offsets are
pairwise distinct, nonzero, 8-byte aligned, and the payload regions are
pairwise disjoint in the final pool state. -/
theorem C9_no_duplicate_addresses {pool : MemoryPool} {bs sizes : List Nat} {fuel : Nat}
    {pos : List Nat} (hinv : InvWith pool bs)
    (hsz : ∀ s ∈ sizes, s ≠ 0 ∧ MIN_ALLOC_SIZE ≤ requestOf s)
    (hfuel : bs.length + sizes.length < fuel)
    (hres : (allocSeq pool sizes fuel).2 = pos.map some) :
    (∀ po ∈ pos, po % POOL_ALIGNMENT = 0 ∧ po ≠ 0) ∧
    List.Pairwise (fun a c => a ≠ c) pos ∧
    List.Pairwise (fun a c =>
      a + ((allocSeq pool sizes fuel).1.mem (a - HEADER_SIZE)).size ≤ c ∨
      c + ((allocSeq pool sizes fuel).1.mem (c - HEADER_SIZE)).size ≤ a) pos := by
  obtain ⟨bsF, hinvF, -, -, -, hposF, hpw⟩ := allocSeq_spec hinv hsz hfuel hres
  refine ⟨?_, hpw, ?_⟩
  · intro po hpo
    obtain ⟨h8, h16, -, -, -⟩ := hposF po hpo
    refine ⟨h8, ?_⟩
    unfold HEADER_SIZE at h16
    omega
  · refine List.Pairwise.imp_of_mem ?_ hpw
    intro a c ha hc hne
    obtain ⟨-, ha16, haF, -, -⟩ := hposF a ha
    obtain ⟨-, hc16, hcF, -, -⟩ := hposF c hc
    have hpart := hinvF.2.2.1
    have hbne : a - HEADER_SIZE ≠ c - HEADER_SIZE := by
      intro he
      refine hne ?_
      unfold HEADER_SIZE at *
      omega
    rcases Nat.lt_or_ge (a - HEADER_SIZE) (c - HEADER_SIZE) with hlt | hge
    · left
      have hsep := partSeg_separated hpart _ haF _ hcF hlt
      unfold blockEnd at hsep
      unfold HEADER_SIZE at *
      omega
    · right
      have hlt2 : c - HEADER_SIZE < a - HEADER_SIZE := by omega
      have hsep := partSeg_separated hpart _ hcF _ haF hlt2
      unfold blockEnd at hsep
      unfold HEADER_SIZE at *
      omega

/-- Witness for C9: two serialized 16-byte allocations on the fresh
80-byte pool return the distinct, aligned, disjoint payload offsets 16
and 48. -/
theorem C9_witness :
    (∀ po ∈ ([16, 48] : List Nat), po % POOL_ALIGNMENT = 0 ∧ po ≠ 0) ∧
    List.Pairwise (fun a c => a ≠ c) ([16, 48] : List Nat) ∧
    List.Pairwise (fun a c =>
      a + ((allocSeq pool80 [16, 16] 10).1.mem (a - HEADER_SIZE)).size ≤ c ∨
      c + ((allocSeq pool80 [16, 16] 10).1.mem (c - HEADER_SIZE)).size ≤ a)
      ([16, 48] : List Nat) :=
  @C9_no_duplicate_addresses pool80 [0] [16, 16] 10 [16, 48] (by decide) (by decide)
    (by decide) (by decide)

/-! ## The 100001-node pool refuting the unbounded C1 reading -/

theorem monsterMem_even {j : Nat} (hj : j ≤ 100000) :
    monsterPool.mem (64 * j) =
      { magic := POOL_MAGIC, size := 16,
        next := (if 64 * j = 6400000 then POOL_NULL_OFFSET else 64 * j + 64), flags := 1 } := by
  show monsterMem (64 * j) = _
  unfold monsterMem
  rw [if_pos ⟨by omega, by omega⟩, if_pos (by omega)]

theorem monsterMem_odd {j : Nat} (hj : j < 100000) :
    monsterPool.mem (64 * j + 32) =
      { magic := POOL_MAGIC, size := 16, next := POOL_NULL_OFFSET, flags := 0 } := by
  show monsterMem (64 * j + 32) = _
  unfold monsterMem
  rw [if_pos ⟨by omega, by omega⟩, if_neg (by omega)]

theorem monsterMem_top :
    monsterPool.mem 6400000 =
      { magic := POOL_MAGIC, size := 16, next := POOL_NULL_OFFSET, flags := 1 } := by
  have h := monsterMem_even (j := 100000) (Nat.le_refl _)
  simpa using h

theorem monster_free_even {j : Nat} (hj : j ≤ 100000) : isFreeH monsterPool (64 * j) := by
  unfold isFreeH
  rw [monsterMem_even hj]
  show isFreeFlag 1
  decide

theorem monster_notfree_odd {j : Nat} (hj : j < 100000) :
    ¬ isFreeH monsterPool (64 * j + 32) := by
  unfold isFreeH
  rw [monsterMem_odd hj]
  show ¬ isFreeFlag 0
  decide

theorem monster_free_top : isFreeH monsterPool 6400000 := by
  unfold isFreeH
  rw [monsterMem_top]
  show isFreeFlag 1
  decide

theorem monster_pairs_expand {i : Nat} (hi : i < 100000) :
    monsterPairs i = 64 * i :: (64 * i + 32) :: monsterPairs (i + 1) := by
  unfold monsterPairs
  rw [show 100000 - i = (100000 - (i + 1)) + 1 by omega, List.range'_succ]
  simp only [List.flatMap_cons, List.cons_append, List.nil_append]

theorem monster_pairs_nil : monsterPairs 100000 = [] := by
  unfold monsterPairs
  norm_num

theorem monster_partSeg : ∀ (n i : Nat), i + n = 100000 →
    partSeg monsterPool (64 * i) (monsterPairs i ++ [6400000]) 6400032 := by
  intro n
  induction n with
  | zero =>
    intro i hi
    have hieq : i = 100000 := by omega
    subst hieq
    rw [monster_pairs_nil, List.nil_append]
    refine ⟨by omega, ?_, ?_⟩
    · rw [monsterMem_top]
      refine ⟨rfl, by decide, by decide, ?_, Or.inl rfl⟩
      show 6400000 + 16 + 16 ≤ 6400032
      omega
    · show blockEnd monsterPool 6400000 = 6400032
      unfold blockEnd
      rw [monsterMem_top]
      show 6400000 + 16 + 16 = 6400032
      omega
  | succ n ih =>
    intro i hi
    have hilt : i < 100000 := by omega
    rw [monster_pairs_expand hilt]
    simp only [List.cons_append]
    have hbe1 : blockEnd monsterPool (64 * i) = 64 * i + 32 := by
      unfold blockEnd
      rw [monsterMem_even (by omega)]
      show 64 * i + 16 + 16 = 64 * i + 32
      omega
    have hbe2 : blockEnd monsterPool (64 * i + 32) = 64 * (i + 1) := by
      unfold blockEnd
      rw [monsterMem_odd hilt]
      show 64 * i + 32 + 16 + 16 = 64 * (i + 1)
      omega
    refine ⟨rfl, ?_, ?_⟩
    · rw [monsterMem_even (by omega)]
      rw [if_neg (show ¬ 64 * i = 6400000 by omega)]
      refine ⟨rfl, ?_, ?_, ?_, Or.inr ⟨?_, ?_⟩⟩
      · show 64 * i % 8 = 0
        omega
      · show (16 : Nat) ≤ 16
        omega
      · show 64 * i + 16 + 16 ≤ 6400032
        omega
      · show (64 * i + 64) % 8 = 0
        omega
      · show (64 * i + 64 + 16) % U32 ≤ 6400032
        unfold U32
        omega
    · rw [hbe1]
      refine ⟨rfl, ?_, ?_⟩
      · rw [monsterMem_odd hilt]
        refine ⟨rfl, ?_, ?_, ?_, Or.inl rfl⟩
        · show (64 * i + 32) % 8 = 0
          omega
        · show (16 : Nat) ≤ 16
          omega
        · show 64 * i + 32 + 16 + 16 ≤ 6400032
          omega
      · rw [hbe2]
        exact ih (i + 1) (by omega)

theorem monster_chain : ∀ (n i : Nat), i + n = 100000 →
    chainTo monsterPool (64 * i)
      (((List.range' i (100000 - i)).map fun j => 64 * j) ++ [6400000])
      POOL_NULL_OFFSET := by
  intro n
  induction n with
  | zero =>
    intro i hi
    have hieq : i = 100000 := by omega
    subst hieq
    rw [show (100000 : Nat) - 100000 = 0 by omega]
    simp only [List.range'_zero, List.map_nil, List.nil_append]
    refine ⟨by omega, ?_⟩
    show (monsterPool.mem 6400000).next = POOL_NULL_OFFSET
    rw [monsterMem_top]
  | succ n ih =>
    intro i hi
    have hilt : i < 100000 := by omega
    rw [show 100000 - i = (100000 - (i + 1)) + 1 by omega, List.range'_succ]
    simp only [List.map_cons, List.cons_append]
    refine ⟨rfl, ?_⟩
    have hnext : (monsterPool.mem (64 * i)).next = 64 * (i + 1) := by
      rw [monsterMem_even (by omega)]
      rw [if_neg (show ¬ 64 * i = 6400000 by omega)]
      show 64 * i + 64 = 64 * (i + 1)
      omega
    rw [hnext]
    exact ih (i + 1) (by omega)

theorem monster_freeBlocks : ∀ (n i : Nat), i + n = 100000 →
    freeBlocks monsterPool (monsterPairs i) =
      (List.range' i (100000 - i)).map fun j => 64 * j := by
  intro n
  induction n with
  | zero =>
    intro i hi
    have hieq : i = 100000 := by omega
    subst hieq
    rw [monster_pairs_nil, show (100000 : Nat) - 100000 = 0 by omega]
    simp [freeBlocks]
  | succ n ih =>
    intro i hi
    have hilt : i < 100000 := by omega
    rw [monster_pairs_expand hilt]
    rw [show 100000 - i = (100000 - (i + 1)) + 1 by omega, List.range'_succ]
    simp only [List.map_cons]
    unfold freeBlocks
    rw [List.filter_cons_of_pos (by simpa using monster_free_even (by omega : i ≤ 100000)),
      List.filter_cons_of_neg (by simpa using monster_notfree_odd hilt)]
    have h2 := ih (i + 1) (by omega)
    unfold freeBlocks at h2
    rw [h2]

theorem monster_usedBlocks : ∀ (n i : Nat), i + n = 100000 →
    usedBlocks monsterPool (monsterPairs i) =
      (List.range' i (100000 - i)).map fun j => 64 * j + 32 := by
  intro n
  induction n with
  | zero =>
    intro i hi
    have hieq : i = 100000 := by omega
    subst hieq
    rw [monster_pairs_nil, show (100000 : Nat) - 100000 = 0 by omega]
    simp [usedBlocks]
  | succ n ih =>
    intro i hi
    have hilt : i < 100000 := by omega
    rw [monster_pairs_expand hilt]
    rw [show 100000 - i = (100000 - (i + 1)) + 1 by omega, List.range'_succ]
    simp only [List.map_cons]
    unfold usedBlocks
    rw [List.filter_cons_of_neg (by simpa using monster_free_even (by omega : i ≤ 100000)),
      List.filter_cons_of_pos (by simpa using monster_notfree_odd hilt)]
    have h2 := ih (i + 1) (by omega)
    unfold usedBlocks at h2
    rw [h2]

theorem monster_sum_frees : ∀ (n i : Nat), i + n = 100000 →
    sumSizes monsterPool ((List.range' i (100000 - i)).map fun j => 64 * j) = 16 * n := by
  intro n
  induction n with
  | zero =>
    intro i hi
    have hieq : i = 100000 := by omega
    subst hieq
    rw [show (100000 : Nat) - 100000 = 0 by omega]
    simp [sumSizes]
  | succ n ih =>
    intro i hi
    have hilt : i < 100000 := by omega
    rw [show 100000 - i = (100000 - (i + 1)) + 1 by omega, List.range'_succ]
    unfold sumSizes
    simp only [List.map_cons, List.sum_cons]
    have h1 : (monsterPool.mem (64 * i)).size = 16 := by
      rw [monsterMem_even (by omega)]
    have h2 := ih (i + 1) (by omega)
    unfold sumSizes at h2
    rw [h1, h2]
    omega

theorem monster_sum_used : ∀ (n i : Nat), i + n = 100000 →
    sumSizes monsterPool ((List.range' i (100000 - i)).map fun j => 64 * j + 32) = 16 * n := by
  intro n
  induction n with
  | zero =>
    intro i hi
    have hieq : i = 100000 := by omega
    subst hieq
    rw [show (100000 : Nat) - 100000 = 0 by omega]
    simp [sumSizes]
  | succ n ih =>
    intro i hi
    have hilt : i < 100000 := by omega
    rw [show 100000 - i = (100000 - (i + 1)) + 1 by omega, List.range'_succ]
    unfold sumSizes
    simp only [List.map_cons, List.sum_cons]
    have h1 : (monsterPool.mem (64 * i + 32)).size = 16 := by
      rw [monsterMem_odd hilt]
    have h2 := ih (i + 1) (by omega)
    unfold sumSizes at h2
    rw [h1, h2]
    omega

theorem monster_noAdj : ∀ (n i : Nat), i + n = 100000 →
    List.Chain' (fun a c => ¬(isFreeH monsterPool a ∧ isFreeH monsterPool c))
      (monsterPairs i ++ [6400000]) := by
  intro n
  induction n with
  | zero =>
    intro i hi
    have hieq : i = 100000 := by omega
    subst hieq
    rw [monster_pairs_nil, List.nil_append]
    simp
  | succ n ih =>
    intro i hi
    have hilt : i < 100000 := by omega
    rw [monster_pairs_expand hilt]
    simp only [List.cons_append]
    refine List.chain'_cons.mpr ⟨?_, ?_⟩
    · intro h
      exact monster_notfree_odd hilt h.2
    · refine List.chain'_cons'.mpr ⟨?_, ih (i + 1) (by omega)⟩
      intro y hy h
      exact monster_notfree_odd hilt h.1

theorem monster_totalFree_go : ∀ (n i acc : Nat), i + n ≤ 100000 →
    freelist_total_free_go monsterPool n (64 * i) acc = acc + 16 * n := by
  intro n
  induction n with
  | zero =>
    intro i acc h
    show acc = acc + 16 * 0
    omega
  | succ n ih =>
    intro i acc h
    unfold freelist_total_free_go
    rw [if_neg (show ¬ 64 * i = POOL_NULL_OFFSET by unfold POOL_NULL_OFFSET; omega)]
    have hf : hdr_from_offset monsterPool (64 * i) = some (monsterPool.mem (64 * i)) := by
      unfold hdr_from_offset
      rw [if_neg ?_]
      push_neg
      refine ⟨by unfold POOL_NULL_OFFSET; omega, ?_⟩
      show (64 * i + HEADER_SIZE) % U32 ≤ 6400032
      unfold HEADER_SIZE U32
      omega
    simp only [hf]
    have hflag : isFreeFlag (monsterPool.mem (64 * i)).flags := monster_free_even (by omega)
    have hsize : (monsterPool.mem (64 * i)).size = 16 := by
      rw [monsterMem_even (by omega)]
    have hnext : (monsterPool.mem (64 * i)).next = 64 * (i + 1) := by
      rw [monsterMem_even (by omega)]
      rw [if_neg (show ¬ 64 * i = 6400000 by omega)]
      show 64 * i + 64 = 64 * (i + 1)
      omega
    rw [if_pos hflag, hsize, hnext]
    rw [ih (i + 1) (acc + 16) (by omega)]
    omega

/-- C1 (counterexample).  A pool of 100001 free-list nodes satisfies the
uncorrupted-pool invariant, yet `freelist_total_free` truncates its walk
at the 100000-node sentinel and reports 1600000 instead of the
`free_space` counter 1600016, refuting the claim that the equality holds
on every uncorrupted pool. -/
theorem C1_counterexample :
    InvWith monsterPool monsterBs ∧
    freelist_total_free monsterPool = 1600000 ∧
    monsterPool.free_space = 1600016 ∧
    freelist_total_free monsterPool ≠ monsterPool.free_space := by
  have htf : freelist_total_free monsterPool = 1600000 := by
    show freelist_total_free_go monsterPool 100000 monsterPool.free_list 0 = 1600000
    have h := monster_totalFree_go 100000 0 0 (by omega)
    norm_num at h
    exact h
  have hfb : freeBlocks monsterPool monsterBs =
      ((List.range' 0 (100000 - 0)).map fun j => 64 * j) ++ [6400000] := by
    show freeBlocks monsterPool (monsterPairs 0 ++ [6400000]) = _
    rw [freeBlocks_append, monster_freeBlocks 100000 0 (by omega)]
    have hl : freeBlocks monsterPool [6400000] = [6400000] := by
      unfold freeBlocks
      rw [List.filter_cons_of_pos (by simpa using monster_free_top)]
      rfl
    rw [hl]
  have hub : usedBlocks monsterPool monsterBs =
      (List.range' 0 (100000 - 0)).map fun j => 64 * j + 32 := by
    show usedBlocks monsterPool (monsterPairs 0 ++ [6400000]) = _
    rw [usedBlocks_append, monster_usedBlocks 100000 0 (by omega)]
    have hl : usedBlocks monsterPool [6400000] = [] := by
      unfold usedBlocks
      rw [List.filter_cons_of_neg (by simpa using monster_free_top)]
      rfl
    rw [hl, List.append_nil]
  refine ⟨⟨by decide, by decide, ?_, ?_, ?_, ?_, ?_⟩, htf, rfl, by rw [htf]; decide⟩
  · exact monster_partSeg 100000 0 (by omega)
  · rw [hfb]
    exact monster_chain 100000 0 (by omega)
  · rw [hub, monster_sum_used 100000 0 (by omega)]
    decide
  · rw [hfb, sumSizes_append, monster_sum_frees 100000 0 (by omega)]
    have hl : sumSizes monsterPool [6400000] = 16 := by
      unfold sumSizes
      simp [monsterMem_top]
    rw [hl]
    decide
  · exact monster_noAdj 100000 0 (by omega)

/-- C1: free-list/counter equality, corrected for the 100000-node walk
bound of `freelist_total_free`: on uncorrupted pools whose free list does
not exceed the sentinel, the diagnostic equals the `free_space` counter —
after `pool_init`, after every successful `pool_alloc`, and after every
completed `pool_free`. -/
theorem C1_free_list_counter_equality :
    (∀ (pool : MemoryPool) (bs : List Nat), InvWith pool bs →
      (freeBlocks pool bs).length ≤ 100000 →
      freelist_total_free pool = pool.free_space) ∧
    (∀ (mem0 : Nat → BlockHeader) (size : Nat) (pool : MemoryPool), size + 32 ≤ U32 →
      pool_init mem0 size = some pool → freelist_total_free pool = pool.free_space) ∧
    (∀ (pool : MemoryPool) (bs : List Nat) (size fuel : Nat) (p' : MemoryPool) (po : Nat),
      InvWith pool bs → size ≠ 0 → MIN_ALLOC_SIZE ≤ requestOf size →
      (freeBlocks pool bs).length < fuel → bs.length + 1 ≤ 100000 →
      pool_alloc pool size fuel = AllocResult.success p' po →
      freelist_total_free p' = p'.free_space) ∧
    (∀ (pool : MemoryPool) (w z : List Nat) (b fuel : Nat) (pf : MemoryPool),
      InvWith pool (w ++ b :: z) → ¬ isFreeH pool b →
      (freeBlocks pool (w ++ b :: z)).length + 2 ≤ fuel →
      (w ++ b :: z).length ≤ 100000 →
      pool_free pool (some (b + HEADER_SIZE)) fuel = FreeResult.done pf →
      freelist_total_free pf = pf.free_space) := by
  refine ⟨fun pool bs h hl => totalFree_eq_free_space h hl, ?_, ?_, ?_⟩
  · intro mem0 size pool hsz h
    obtain ⟨hinv, -, -, -⟩ := pool_init_inv hsz h
    refine totalFree_eq_free_space hinv ?_
    have h1 := length_freeBlocks_le pool [0]
    simp at h1
    omega
  · intro pool bs size fuel p' po hinv hsz hreq hfuel hlen hsucc
    obtain ⟨u, f, v, hbs, -, -, -, -, -, -, -, hdisj⟩ :=
      pool_alloc_success_spec hinv hsz hreq hfuel hsucc
    rcases hdisj with ⟨-, hinv', -, -, -⟩ | ⟨-, hinv', -, -, -, -⟩
    · refine totalFree_eq_free_space hinv' ?_
      have h1 := length_freeBlocks_le p' (u ++ f :: v)
      have h2 : (u ++ f :: v).length = bs.length := by rw [hbs]
      omega
    · refine totalFree_eq_free_space hinv' ?_
      have h1 := length_freeBlocks_le p' (u ++ f :: (f + HEADER_SIZE + requestOf size) :: v)
      have h2 : (u ++ f :: (f + HEADER_SIZE + requestOf size) :: v).length = bs.length + 1 := by
        rw [hbs]
        simp only [List.length_append, List.length_cons]
        omega
      omega
  · intro pool w z b fuel pf hinv hnf hfuel hlen hdone
    obtain ⟨pf2, bsF, heq, hinvF, -, -, -, hlenF⟩ := pool_free_spec hinv rfl hnf hfuel
    rw [hdone] at heq
    have h2 := FreeResult.done.inj heq
    rw [← h2] at hinvF
    refine totalFree_eq_free_space hinvF ?_
    have h1 := length_freeBlocks_le pf bsF
    omega

/-- Witness for C1: the equality holds on the fresh 80-byte pool. -/
theorem C1_witness : freelist_total_free pool80 = pool80.free_space :=
  C1_free_list_counter_equality.1 pool80 [0] (by decide) (by decide)
